import Mathlib

/-
Verification of the lazyhack prediction-market engine (src/bin/lazyhack.rs).

Shallow embedding conventions:
- `BTreeMap<K, V>` becomes `Smap K V`, an association list kept sorted by key
  (all maps in the program are built from empty via the operations below, so the
  sortedness that `BTreeMap` guarantees holds by construction).
- `i32` (`Price`) becomes `Int`; Rust integer division truncates toward zero,
  which is `Int.tdiv`.
- `panic!` becomes the error branch of `Except Panic`; the constructors of
  `Panic` correspond one-to-one to the panic sites of the source.  A `Panic`
  value models a fatal process abort, not a recoverable returned error.
- Where the source calls `.unwrap()` on a map lookup whose key is present at
  every call site (session exposure maps indexed by registered players), the
  embedding uses `Option.getD` with the empty exposure; on the states the
  program actually reaches the two behaviours agree.
- Output-only code (`dump`, `dump_aftermath`, the CLEARED SPREADS and PRICES
  printouts) produces no state and no panic and is not modelled, except for
  `find_spreads`, whose internal panic is part of `session`'s behaviour.
-/

namespace Lazyhack

/-- Model of Rust `BTreeMap`: an association list sorted by key (sortedness is
maintained by construction from the empty map). -/
structure Smap (α β : Type) [LinearOrder α] where
  entries : List (α × β)
deriving DecidableEq

/-- Boolean strict comparison of strings through their character lists
(equivalent to the `String` order; the character-list form reduces inside the
kernel, which the byte-iterator decision procedure of `String` does not). -/
def strLtB (a b : String) : Bool := decide (a.data < b.data)

/-- Kernel-reducible Boolean strict comparison agreeing with the ambient
linear order; used for map keys and for the tuple orders of the matching
engine so that concrete runs evaluate by `decide`. -/
class KeyLtB (α : Type) [LinearOrder α] where
  ltB : α → α → Bool
  ltB_iff : ∀ a b : α, ltB a b = true ↔ a < b

instance : KeyLtB Nat where
  ltB a b := decide (a < b)
  ltB_iff a b := decide_eq_true_iff

instance : KeyLtB Int where
  ltB a b := decide (a < b)
  ltB_iff a b := decide_eq_true_iff

instance : KeyLtB String where
  ltB := strLtB
  ltB_iff a b := by
    unfold strLtB
    rw [decide_eq_true_iff]
    exact (@String.lt_iff_toList_lt a b).symm

namespace Smap

variable {α β : Type} [LinearOrder α] [DecidableEq α] [KeyLtB α]

/-- The empty map. -/
def empty : Smap α β := ⟨[]⟩

/-- Insertion into a key-sorted association list, replacing an existing binding. -/
def insertE (k : α) (v : β) : List (α × β) → List (α × β)
  | [] => [(k, v)]
  | (a, b) :: t =>
    if KeyLtB.ltB k a then (k, v) :: (a, b) :: t
    else if k = a then (k, v) :: t
    else (a, b) :: insertE k v t

/-- Model of `BTreeMap::insert` (the old value, returned by Rust, is dropped by
every call site of the program except the duplicate-name checks, which are
modelled explicitly). -/
def insert (s : Smap α β) (k : α) (v : β) : Smap α β := ⟨insertE k v s.entries⟩

/-- Lookup (first matching key). -/
def lookupE (k : α) : List (α × β) → Option β
  | [] => none
  | (a, b) :: t => if k = a then some b else lookupE k t

/-- Model of `BTreeMap::get`. -/
def lookup (s : Smap α β) (k : α) : Option β := lookupE k s.entries

/-- Update of the entry at `k` when present, no-op otherwise.  Models
`map.get_mut(&k).unwrap()` followed by mutation: the source would abort when
the key is absent, and it is present at every call site. -/
def modifyE (k : α) (f : β → β) : List (α × β) → List (α × β)
  | [] => []
  | (a, b) :: t => if k = a then (a, f b) :: t else (a, b) :: modifyE k f t

/-- Update of the entry at `k` when present, no-op otherwise. -/
def modify (s : Smap α β) (k : α) (f : β → β) : Smap α β := ⟨modifyE k f s.entries⟩

/-- Model of `BTreeMap::entry(k).and_modify(f).or_insert(d)`: modify the
binding at `k` when present, otherwise insert `d` at its sorted position.
On key-unique maps (every map of the program, since all are built from empty
through these operations) this is exactly the `entry` semantics. -/
def upsert (s : Smap α β) (k : α) (f : β → β) (d : β) : Smap α β :=
  match s.lookup k with
  | some _ => s.modify k f
  | none => s.insert k d

/-- Removal of the (first) entry at `k`; models `BTreeMap::remove`. -/
def eraseE (k : α) : List (α × β) → List (α × β)
  | [] => []
  | (a, b) :: t => if k = a then t else (a, b) :: eraseE k t

/-- Removal of the entry at `k`; models `BTreeMap::remove`. -/
def erase (s : Smap α β) (k : α) : Smap α β := ⟨eraseE k s.entries⟩

/-- The keys, in storage (ascending) order. -/
def keys (s : Smap α β) : List α := s.entries.map Prod.fst

/-- The values, in key order. -/
def values (s : Smap α β) : List β := s.entries.map Prod.snd

end Smap

/-- Prices are measured in cents (Rust: `type Price = i32`). -/
abbrev Price := Int

/-- Rust `Condition`;  contract ids (`ContractID(usize)`) become `Nat`. -/
inductive Condition where
  | ifc : Nat → Condition
  | notc : Nat → Condition
deriving DecidableEq

/-- Rust `IouStatus` (`tru` stands for the source's `True` variant). -/
inductive IouStatus where
  | void : Condition → IouStatus
  | tru : Condition → IouStatus
  | unknown : Condition → IouStatus
deriving DecidableEq

/-- Rust `Iou`; player ids (`PlayerID(usize)`) become `Nat`. -/
structure Iou where
  issuerId : Nat
  holderId : Nat
  status : IouStatus
  amount : Price
deriving DecidableEq

/-- Rust `ContractExposure`. -/
structure ContractExposure where
  exposure : Price
  negExposure : Price
deriving DecidableEq

/-- Rust `Exposure`. -/
structure Exposure where
  unconditional : Price
  conditional : Smap Nat ContractExposure
deriving DecidableEq

/-- Rust `Contract`. -/
structure Contract where
  name : String
  outcome : Option Bool
deriving DecidableEq

/-- Rust `Player`. -/
structure Player where
  name : String
  ranges : Smap Nat (Price × Price)
  creditLimit : Price
deriving DecidableEq

/-- Rust `Market`. -/
structure Market where
  contractNames : Smap String Nat
  playerNames : Smap String Nat
  contracts : List Contract
  players : List Player
  ious : List Iou
deriving DecidableEq

/-- Rust `Trade`. -/
structure Trade where
  contractId : Nat
  tradeUnits : Int
  amount : Price
deriving DecidableEq

/-- Rust `Session` (named `SessionSt` to keep `session` free for the
operation). -/
structure SessionSt where
  exposures : Smap Nat Exposure
  ious : List Iou
  trades : List Trade
deriving DecidableEq

/-- Rust `ContractOffers`. -/
structure ContractOffers where
  buy : Smap Price (Smap Nat Price)
  sell : Smap Price (Smap Nat Price)
deriving DecidableEq

/-- Rust `Offers`. -/
structure Offers where
  offers : Smap Nat ContractOffers
deriving DecidableEq

/-- The `panic!` sites of the source, one constructor per site.  A value of
this type models a fatal abort of the process. -/
inductive Panic where
  | contractExists (name : String)
  | playerExists (name : String)
  | noSuchContract (name : String)
  | contractHasOutcome (name : String)
  | noSuchPlayer (name : String)
  | contractDoesNotExist (name : String)
  | invalidRange (name : String) (low high : Price)
  | creditFailure (playerName contractName : String) (exposed limit : Price)
  | exposureMismatch (exposed total : Price)
  | noViableSize (tradeUnits : Int)
  | crossingRemains (contractName : String) (buy sell : Price)
deriving DecidableEq

namespace ContractExposure

/-- Rust `ContractExposure::zero`. -/
def zero : ContractExposure := ⟨0, 0⟩

/-- Rust `ContractExposure::exposure` constructor. -/
def mkExposure (exposure : Price) : ContractExposure := ⟨exposure, 0⟩

/-- Rust `ContractExposure::neg_exposure` constructor. -/
def mkNegExposure (negExposure : Price) : ContractExposure := ⟨0, negExposure⟩

end ContractExposure

namespace Exposure

/-- Rust `Exposure::new`. -/
def new : Exposure := ⟨0, Smap.empty⟩

/-- Rust `Exposure::add_exposure`. -/
def addExposure (e : Exposure) (cid : Nat) (amount : Price) : Exposure :=
  { e with
    conditional := e.conditional.upsert cid
      (fun ce => { ce with exposure := ce.exposure + amount })
      (ContractExposure.mkExposure amount) }

/-- Rust `Exposure::add_neg_exposure`. -/
def addNegExposure (e : Exposure) (cid : Nat) (amount : Price) : Exposure :=
  { e with
    conditional := e.conditional.upsert cid
      (fun ce => { ce with negExposure := ce.negExposure + amount })
      (ContractExposure.mkNegExposure amount) }

/-- Rust `Exposure::apply_iou_issuer`. -/
def applyIouIssuer (e : Exposure) (status : IouStatus) (amount : Price) : Exposure :=
  match status with
  | .void _ => e
  | .tru _ => { e with unconditional := e.unconditional + amount }
  | .unknown (.ifc cid) => e.addExposure cid amount
  | .unknown (.notc cid) => e.addNegExposure cid amount

/-- Rust `Exposure::apply_iou_holder`. -/
def applyIouHolder (e : Exposure) (status : IouStatus) (amount : Price) : Exposure :=
  match status with
  | .void _ => e
  | .tru _ => { e with unconditional := e.unconditional - amount }
  | .unknown (.ifc cid) => e.addExposure cid (-amount)
  | .unknown (.notc cid) => e.addNegExposure cid (-amount)

/-- Rust `Exposure::contract_exposure`. -/
def contractExposure (e : Exposure) (cid : Nat) : ContractExposure :=
  (e.conditional.lookup cid).getD ContractExposure.zero

/-- Rust `Exposure::exposure`. -/
def exposure (e : Exposure) (cid : Nat) : Price :=
  (e.contractExposure cid).exposure

/-- Rust `Exposure::neg_exposure`. -/
def negExposure (e : Exposure) (cid : Nat) : Price :=
  (e.contractExposure cid).negExposure

/-- Rust `Exposure::total_neg_exposure`. -/
def totalNegExposure (e : Exposure) : Price :=
  (e.conditional.values.map ContractExposure.negExposure).sum + e.unconditional

/-- Rust `Exposure::total_exposure_to_contract`. -/
def totalExposureToContract (e : Exposure) (cid : Nat) : Price :=
  e.exposure cid + e.totalNegExposure - e.negExposure cid

/-- Rust `Exposure::total_exposure_to_contract_neg`. -/
def totalExposureToContractNeg (e : Exposure) (cid : Nat) : Price :=
  e.totalNegExposure +
    max 0
      ((((e.conditional.entries.filter (fun p => p.1 ≠ cid)).map
        (fun p => p.2.exposure - p.2.negExposure)).max?).getD 0)

/-- Rust `Exposure::outcome`. -/
def outcome (e : Exposure) (cid : Nat) : Price :=
  - e.totalExposureToContract cid

/-- Rust `Exposure::otherwise_outcome`. -/
def otherwiseOutcome (e : Exposure) : Price :=
  - e.totalNegExposure

end Exposure

namespace Player

/-- Rust `Player::new`. -/
def new (name : String) : Player := ⟨name, Smap.empty, 0⟩

/-- Rust `Player::clear_ranges`. -/
def clearRanges (p : Player) : Player := { p with ranges := Smap.empty }

/-- Rust `Player::set_range`. -/
def setRange (p : Player) (cid : Nat) (low high : Price) : Player :=
  { p with ranges := p.ranges.insert cid (low, high) }

end Player

namespace Contract

/-- Rust `Contract::new`. -/
def new (name : String) : Contract := ⟨name, none⟩

end Contract

/-- Rust `IouStatus::decompose`. -/
def IouStatus.decompose : IouStatus → Condition × Option Bool
  | .void condition => (condition, some false)
  | .tru condition => (condition, some true)
  | .unknown condition => (condition, none)

namespace Market

/-- Rust `Market::new`. -/
def new : Market := ⟨Smap.empty, Smap.empty, [], [], []⟩

/-- Rust `Market::get_contract`.  The source indexes `contracts[cid]` and would
abort out of bounds; ids are in range at every call site. -/
def getContract (m : Market) (cid : Nat) : Contract :=
  m.contracts.getD cid (Contract.new "")

/-- Rust `Market::get_player` (same indexing convention as `getContract`). -/
def getPlayer (m : Market) (pid : Nat) : Player :=
  m.players.getD pid (Player.new "")

/-- In-place mutation through `get_player_mut`. -/
def updatePlayer (m : Market) (pid : Nat) (f : Player → Player) : Market :=
  { m with players := m.players.set pid (f (m.getPlayer pid)) }

/-- Rust `Market::add_contract`. -/
def addContract (m : Market) (contract : Contract) : Except Panic Market :=
  let cid := m.contracts.length
  match m.contractNames.lookup contract.name with
  | some _ => .error (.contractExists contract.name)
  | none =>
    .ok { m with
          contractNames := m.contractNames.insert contract.name cid,
          contracts := m.contracts ++ [contract] }

/-- Rust `Market::add_player`. -/
def addPlayer (m : Market) (player : Player) : Except Panic Market :=
  let pid := m.players.length
  match m.playerNames.lookup player.name with
  | some _ => .error (.playerExists player.name)
  | none =>
    .ok { m with
          playerNames := m.playerNames.insert player.name pid,
          players := m.players ++ [player] }

/-- Rust `Market::new_contract`. -/
def newContract (m : Market) (name : String) : Except Panic Market :=
  m.addContract (Contract.new name)

/-- Rust `Market::new_player`. -/
def newPlayer (m : Market) (name : String) : Except Panic Market :=
  m.addPlayer (Player.new name)

/-- The per-IOU status transition performed by the loop in
`Market::contract_outcome` (the source compares statuses with `==` and
rewrites the two `Unknown` shapes that mention the resolved contract). -/
def resolveStatus (cid : Nat) (outcome : Bool) (s : IouStatus) : IouStatus :=
  if s = .unknown (.ifc cid) then
    if outcome then .tru (.ifc cid) else .void (.ifc cid)
  else if s = .unknown (.notc cid) then
    if outcome then .void (.notc cid) else .tru (.notc cid)
  else s

/-- Rust `Market::contract_outcome`. -/
def contractOutcome (m : Market) (name : String) (outcome : Bool) :
    Except Panic Market :=
  match m.contractNames.lookup name with
  | none => .error (.noSuchContract name)
  | some cid =>
    match (m.getContract cid).outcome with
    | some _ => .error (.contractHasOutcome name)
    | none =>
      let m := { m with
        contracts := m.contracts.set cid
          { m.getContract cid with outcome := some outcome } }
      let clearRange := fun (p : Player) => { p with ranges := p.ranges.erase cid }
      let m := { m with players := m.players.map clearRange }
      let resolveIou := fun (iou : Iou) =>
        { iou with status := resolveStatus cid outcome iou.status }
      .ok { m with ious := m.ious.map resolveIou }

/-- The loop body of `Market::player_ranges`, one `(contract, low, high)`
triple at a time. -/
def playerRangesGo (m : Market) (pid : Nat) :
    List (String × Price × Price) → Except Panic Market
  | [] => .ok m
  | (contractName, low, high) :: rest =>
    match m.contractNames.lookup contractName with
    | none => .error (.contractDoesNotExist contractName)
    | some cid =>
      match (m.getContract cid).outcome with
      | some _ => .error (.contractHasOutcome contractName)
      | none =>
        if 0 ≤ low ∧ low < high ∧ high ≤ 100 then
          playerRangesGo (m.updatePlayer pid (fun p => p.setRange cid low high)) pid rest
        else .error (.invalidRange contractName low high)

/-- Rust `Market::player_ranges`. -/
def playerRanges (m : Market) (name : String)
    (ranges : List (String × Price × Price)) : Except Panic Market :=
  match m.playerNames.lookup name with
  | none => .error (.noSuchPlayer name)
  | some pid => playerRangesGo (m.updatePlayer pid Player.clearRanges) pid ranges

/-- Rust `Market::increment_credit`. -/
def incrementCredit (m : Market) (amount : Price) : Market :=
  { m with
    players := m.players.map (fun p => { p with creditLimit := p.creditLimit + amount }) }

/-- Rust `Market::calc_exposure`. -/
def calcExposure (m : Market) (pid : Nat) : Exposure :=
  m.ious.foldl (fun e iou =>
    if iou.issuerId = pid then e.applyIouIssuer iou.status iou.amount
    else if iou.holderId = pid then e.applyIouHolder iou.status iou.amount
    else e) Exposure.new

end Market

namespace SessionSt

/-- Rust `Session::apply_iou` (both `get_mut(..).unwrap()` calls become
present-key updates; the keys are registered players at every call site). -/
def applyIou (s : SessionSt) (iou : Iou) : SessionSt :=
  let exposures := s.exposures.modify iou.issuerId
    (fun e => e.applyIouIssuer iou.status iou.amount)
  let exposures := exposures.modify iou.holderId
    (fun e => e.applyIouHolder iou.status iou.amount)
  { s with exposures := exposures }

/-- Rust `Session::push_iou`. -/
def pushIou (s : SessionSt) (iou : Iou) : SessionSt :=
  let s := s.applyIou iou
  { s with ious := s.ious ++ [iou] }

/-- Rust `Session::new`. -/
def init (m : Market) : SessionSt :=
  let exposures := m.playerNames.entries.foldl
    (fun exposures e => exposures.insert e.2 Exposure.new) Smap.empty
  m.ious.foldl applyIou { exposures := exposures, ious := [], trades := [] }

end SessionSt

namespace Market

/-- Rust `Market::player_max_buy_amount`. -/
def playerMaxBuyAmount (m : Market) (s : SessionSt) (buyerId cid : Nat) : Price :=
  let buyerCreditLimit := (m.getPlayer buyerId).creditLimit
  let buyerExposure := (s.exposures.lookup buyerId).getD Exposure.new
  let buyerExposed := buyerExposure.totalExposureToContractNeg cid
  max 0 (buyerCreditLimit - buyerExposed)

/-- Rust `Market::player_max_sell_amount`. -/
def playerMaxSellAmount (m : Market) (s : SessionSt) (sellerId cid : Nat) : Price :=
  let sellerCreditLimit := (m.getPlayer sellerId).creditLimit
  let sellerExposure := (s.exposures.lookup sellerId).getD Exposure.new
  let sellerExposed := sellerExposure.totalExposureToContract cid
  max 0 (sellerCreditLimit - sellerExposed)

/-- Contribution of one IOU to the recomputed `total` of
`Market::check_credit_failure` (the body of its inner `for` loop). -/
def iouCountsFor (pid cid : Nat) (iou : Iou) : Price :=
  if iou.issuerId = pid then
    match iou.status with
    | .void _ => 0
    | .tru _ => iou.amount
    | .unknown (.ifc cid0) => if cid0 = cid then iou.amount else 0
    | .unknown (.notc cid0) => if cid0 ≠ cid then iou.amount else 0
  else if iou.holderId = pid then
    match iou.status with
    | .void _ => 0
    | .tru _ => - iou.amount
    | .unknown (.ifc cid0) => if cid0 = cid then - iou.amount else 0
    | .unknown (.notc cid0) => if cid0 ≠ cid then - iou.amount else 0
  else 0

/-- The per-contract iteration of `Market::check_credit_failure`. -/
def checkCreditGo (m : Market) (s : SessionSt) (pid : Nat) (player : Player)
    (exposure : Exposure) : List Nat → Except Panic Unit
  | [] => .ok ()
  | cid :: rest =>
    let ex := exposure.totalExposureToContract cid
    if ex > player.creditLimit then
      .error (.creditFailure player.name (m.getContract cid).name ex player.creditLimit)
    else
      let total := ((m.ious ++ s.ious).map (iouCountsFor pid cid)).sum
      if ex ≠ total then .error (.exposureMismatch ex total)
      else checkCreditGo m s pid player exposure rest

/-- Rust `Market::check_credit_failure`. -/
def checkCreditFailure (m : Market) (s : SessionSt) (pid : Nat) :
    Except Panic Unit :=
  let player := m.getPlayer pid
  let exposure := (s.exposures.lookup pid).getD Exposure.new
  checkCreditGo m s pid player exposure m.contractNames.values

end Market

/-- Rust `ContractOffers::new`. -/
def ContractOffers.new : ContractOffers := ⟨Smap.empty, Smap.empty⟩

namespace Offers

/-- Rust `Offers::new`. -/
def new : Offers := ⟨Smap.empty⟩

/-- Rust `Offers::add_buy_offer`. -/
def addBuyOffer (o : Offers) (cid pid : Nat) (low amount : Price) : Offers :=
  let g := fun (mp : Smap Nat Price) => mp.insert pid amount
  let f := fun (co : ContractOffers) =>
    { co with buy := co.buy.upsert low g (Smap.empty.insert pid amount) }
  ⟨o.offers.upsert cid f (f ContractOffers.new)⟩

/-- Rust `Offers::add_sell_offer`. -/
def addSellOffer (o : Offers) (cid pid : Nat) (high amount : Price) : Offers :=
  let g := fun (mp : Smap Nat Price) => mp.insert pid amount
  let f := fun (co : ContractOffers) =>
    { co with sell := co.sell.upsert high g (Smap.empty.insert pid amount) }
  ⟨o.offers.upsert cid f (f ContractOffers.new)⟩

/-- The per-contract iteration of `Offers::find_spreads` (it panics when an
unresolved contract still has `sell ≤ buy`). -/
def findSpreadsGo (m : Market) :
    List (Nat × ContractOffers) → Smap String (Price × Price) →
    Except Panic (Smap String (Price × Price))
  | [], spreads => .ok spreads
  | (cid, offers) :: rest, spreads =>
    let contract := m.getContract cid
    if contract.outcome = none then
      let buy := (offers.buy.keys.getLast?).getD 0
      let sell := (offers.sell.keys.head?).getD 100
      if sell ≤ buy then .error (.crossingRemains contract.name buy sell)
      else findSpreadsGo m rest (spreads.insert contract.name (buy, sell))
    else findSpreadsGo m rest spreads

/-- Rust `Offers::find_spreads`. -/
def findSpreads (o : Offers) (m : Market) :
    Except Panic (Smap String (Price × Price)) :=
  findSpreadsGo m o.offers.entries Smap.empty

end Offers

/-- Insertion of one element into a list sorted by `le`. -/
def insertSorted {γ : Type} (le : γ → γ → Bool) (x : γ) : List γ → List γ
  | [] => [x]
  | y :: t => if le x y then x :: y :: t else y :: insertSorted le x t

/-- Stable insertion sort; models Rust's stable `slice::sort` (a stable sort's
output is determined by the comparison alone, so any stable sort agrees). -/
def isort {γ : Type} (le : γ → γ → Bool) : List γ → List γ
  | [] => []
  | x :: t => insertSorted le x (isort le t)

/-- Total lexicographic order on the `(amount, name, id)` triples that
`find_trades` builds for buyers and sellers, mirroring Rust's derived tuple
`Ord`. -/
def tripleLe (a b : Price × String × Nat) : Bool :=
  if a.1 ≠ b.1 then decide (a.1 < b.1)
  else if a.2.1 ≠ b.2.1 then strLtB a.2.1 b.2.1
  else decide (a.2.2 ≤ b.2.2)

/-- One candidate of `Session::find_trades`: the Rust tuple
`(spread, contract_name, contract_id, buyer_id, high, seller_id, low)`. -/
structure TradeCand where
  spread : Price
  cname : String
  contractId : Nat
  buyerId : Nat
  high : Price
  sellerId : Nat
  low : Price
deriving DecidableEq

/-- Lexicographic order on candidates, mirroring Rust's derived tuple `Ord`
on `(spread, contract_name, contract_id, buyer_id, high, seller_id, low)`. -/
def TradeCand.le (a b : TradeCand) : Bool :=
  if a.spread ≠ b.spread then decide (a.spread < b.spread)
  else if a.cname ≠ b.cname then strLtB a.cname b.cname
  else if a.contractId ≠ b.contractId then decide (a.contractId < b.contractId)
  else if a.buyerId ≠ b.buyerId then decide (a.buyerId < b.buyerId)
  else if a.high ≠ b.high then decide (a.high < b.high)
  else if a.sellerId ≠ b.sellerId then decide (a.sellerId < b.sellerId)
  else decide (a.low ≤ b.low)

/-- The tie-aware widening of the crossing price levels in
`Session::find_trades` (the `match (buy_iter.next(), sell_iter.next())` block
that may move `low` down to the next sell level and `high` up to the next buy
level). -/
def widenLevels (low0 high0 : Price) :
    Option (Price × Smap Nat Price) → Option (Price × Smap Nat Price) → Price × Price
  | some nh, some nl => if nl.1 < nh.1 then (nl.1, nh.1) else (low0, high0)
  | some nh, none => if nh.1 > low0 then (low0, nh.1) else (low0, high0)
  | none, some nl => if nl.1 < high0 then (nl.1, high0) else (low0, high0)
  | none, none => (low0, high0)

/-- Selection of the participant of one price level in `Session::find_trades`:
build the `(amount, name, id)` list, sort it, keep the entries tied with the
largest amount, and take the first (`buyers.sort(); retain(max); next()`). -/
def pickBest (m : Market) (mp : Smap Nat Price) : Option (Price × String × Nat) :=
  match (isort tripleLe (mp.entries.map
      (fun b => (b.2, (m.getPlayer b.1).name, b.1)))).getLast? with
  | some lastB =>
    ((isort tripleLe (mp.entries.map
        (fun b => (b.2, (m.getPlayer b.1).name, b.1)))).filter
      (fun b => b.1 = lastB.1)).head?
  | none => none

namespace SessionSt

/-- Rust `Session::find_offers`. -/
def findOffers (s : SessionSt) (m : Market) : Offers :=
  m.playerNames.entries.foldl (fun offers entry =>
    let pid := entry.2
    let player := m.getPlayer pid
    player.ranges.entries.foldl (fun offers r =>
      let cid := r.1
      let buyAmount := m.playerMaxBuyAmount s pid cid
      let sellAmount := m.playerMaxSellAmount s pid cid
      let offers :=
        if buyAmount ≥ 100 then offers.addBuyOffer cid pid r.2.1 buyAmount else offers
      if sellAmount ≥ 100 then offers.addSellOffer cid pid r.2.2 sellAmount else offers)
      offers) Offers.new

/-- The body of `Session::find_trades` for one contract: the top-of-book
crossing test, the tie-aware widening of the price levels, and the selection
of the buyer and seller with the largest remaining amount (first by name among
equals, per the source's sort-and-take-first). -/
def candidateFor (m : Market) (cid : Nat) (co : ContractOffers) : Option TradeCand :=
  let contract := m.getContract cid
  match co.buy.entries.reverse, co.sell.entries with
  | (high0, buyers) :: buyRest, (low0, sellers) :: sellRest =>
    if low0 ≤ high0 then
      let lh : Price × Price := widenLevels low0 high0 buyRest.head? sellRest.head?
      match pickBest m buyers, pickBest m sellers with
      | some buyer, some seller =>
        some ⟨lh.2 - lh.1, contract.name, cid, buyer.2.2, lh.2, seller.2.2, lh.1⟩
      | _, _ => none
    else none
  | _, _ => none

/-- Accumulation step of the candidate list of `Session::find_trades`. -/
def tradesFold (m : Market) (trades : List TradeCand) (e : Nat × ContractOffers) :
    List TradeCand :=
  match candidateFor m e.1 e.2 with
  | some cand => trades ++ [cand]
  | none => trades

/-- Rust `Session::find_trades`: the candidates, sorted ascending and
reversed, so that the head of the result is the lexicographically largest
`(spread, contract_name, ...)` tuple. -/
def findTrades (_s : SessionSt) (m : Market) (offers : Offers) : List TradeCand :=
  (isort TradeCand.le (offers.offers.entries.foldl (tradesFold m) [])).reverse

end SessionSt

/-- Errors of a modelled run: a source `panic!`, or exhaustion of the fuel
that makes the unbounded `loop` of `Market::session` a total function. -/
inductive RunErr where
  | panic : Panic → RunErr
  | outOfFuel : RunErr
deriving DecidableEq

namespace Market

/-- One iteration of the `loop` in `Market::session`: recompute the book,
take the best candidate, size and price the trade, emit the two IOUs and run
the credit checks.  Returns `none` when no candidate crosses (the loop's
`break`). -/
def sessionStep (m : Market) (s : SessionSt) : Except Panic (Option SessionSt) :=
  let offers := s.findOffers m
  let trades := s.findTrades m offers
  match trades.head? with
  | none => .ok none
  | some cand =>
    let low := cand.low
    let high := cand.high
    let price := Int.tdiv (low + high) 2
    let buyerMaxAmount := m.playerMaxBuyAmount s cand.buyerId cand.contractId
    let buyerMaxUnits := Int.tdiv buyerMaxAmount price
    let sellerMaxAmount := m.playerMaxSellAmount s cand.sellerId cand.contractId
    let sellerMaxUnits := Int.tdiv sellerMaxAmount (100 - price)
    let tradeUnits := min buyerMaxUnits sellerMaxUnits
    if tradeUnits > 0 then
      let sellerIou : Iou :=
        ⟨cand.sellerId, cand.buyerId, .unknown (.ifc cand.contractId),
          tradeUnits * (100 - price)⟩
      let buyerIou : Iou :=
        ⟨cand.buyerId, cand.sellerId, .unknown (.notc cand.contractId),
          tradeUnits * price⟩
      let amount := tradeUnits * price
      let s := { s with trades := s.trades ++ [Trade.mk cand.contractId tradeUnits amount] }
      let s := s.pushIou sellerIou
      let s := s.pushIou buyerIou
      match m.checkCreditFailure s cand.buyerId with
      | .error p => .error p
      | .ok _ =>
        match m.checkCreditFailure s cand.sellerId with
        | .error p => .error p
        | .ok _ => .ok (some s)
    else .error (.noViableSize tradeUnits)

/-- The `loop` of `Market::session`, with fuel. -/
def sessionLoop (m : Market) : Nat → SessionSt → Except RunErr SessionSt
  | 0, _ => .error .outOfFuel
  | fuel + 1, s =>
    match m.sessionStep s with
    | .error p => .error (.panic p)
    | .ok none => .ok s
    | .ok (some s) => sessionLoop m fuel s

/-- Rust `Market::session`: run the matching loop to its terminal state,
report the final spreads, and commit the session's IOUs to the ledger.
Returns the updated market together with the final session state and the
reported spreads. -/
def session (m : Market) (fuel : Nat) :
    Except RunErr (Market × SessionSt × Smap String (Price × Price)) :=
  let s0 := SessionSt.init m
  match m.sessionLoop fuel s0 with
  | .error e => .error e
  | .ok s =>
    let offers := s.findOffers m
    match offers.findSpreads m with
    | .error p => .error (.panic p)
    | .ok spreads => .ok ({ m with ious := m.ious ++ s.ious }, s, spreads)

end Market

/-- Extraction of the value of a successful `Except` run (used to name the
concrete states of counterexample traces). -/
def okD {ε α : Type} (x : Except ε α) (d : α) : α :=
  match x with
  | .ok a => a
  | .error _ => d

instance exceptDecEq {ε α : Type} [DecidableEq ε] [DecidableEq α] :
    DecidableEq (Except ε α) := fun x y =>
  match x, y with
  | .ok a, .ok b =>
    if h : a = b then .isTrue (by rw [h]) else
      .isFalse (fun hh => h (Except.ok.inj hh))
  | .error a, .error b =>
    if h : a = b then .isTrue (by rw [h]) else
      .isFalse (fun hh => h (Except.error.inj hh))
  | .ok _, .error _ => .isFalse (fun hh => Except.noConfusion hh)
  | .error _, .ok _ => .isFalse (fun hh => Except.noConfusion hh)

section SmapLemmas

variable {α β : Type} [LinearOrder α] [DecidableEq α] [KeyLtB α]

theorem keyLtBFalse (a b : α) (h : ¬ a < b) : KeyLtB.ltB a b = false := by
  cases hb : KeyLtB.ltB a b with
  | false => rfl
  | true => exact absurd ((KeyLtB.ltB_iff a b).mp hb) h

theorem Smap.lookupE_insertE (k : α) (v : β) (k' : α) (l : List (α × β)) :
    Smap.lookupE k' (Smap.insertE k v l) = if k' = k then some v else Smap.lookupE k' l := by
  induction l with
  | nil => simp [Smap.insertE, Smap.lookupE]
  | cons hd tl ih =>
    obtain ⟨a, b⟩ := hd
    rcases lt_trichotomy k a with hka | hka | hka
    · have hb : KeyLtB.ltB k a = true := (KeyLtB.ltB_iff k a).mpr hka
      simp only [Smap.insertE, hb, if_true, Smap.lookupE]
    · subst hka
      have hb : KeyLtB.ltB k k = false := keyLtBFalse k k (lt_irrefl k)
      simp only [Smap.insertE, hb, Bool.false_eq_true, if_false, if_pos rfl, Smap.lookupE]
      by_cases hk : k' = k <;> simp [hk]
    · have h1 : KeyLtB.ltB k a = false := keyLtBFalse k a (not_lt_of_gt hka)
      have h2 : ¬ k = a := ne_of_gt hka
      simp only [Smap.insertE, h1, Bool.false_eq_true, if_false, if_neg h2, Smap.lookupE]
      by_cases hk : k' = a
      · subst hk
        have : ¬ k' = k := fun h => h2 (h ▸ rfl)
        simp [this]
      · simp [hk, ih]

theorem Smap.lookup_insert (s : Smap α β) (k : α) (v : β) (k' : α) :
    (s.insert k v).lookup k' = if k' = k then some v else s.lookup k' :=
  Smap.lookupE_insertE k v k' s.entries

theorem Smap.lookupE_modifyE (k : α) (f : β → β) (k' : α) (l : List (α × β)) :
    Smap.lookupE k' (Smap.modifyE k f l) =
      if k' = k then (Smap.lookupE k l).map f else Smap.lookupE k' l := by
  induction l with
  | nil => simp [Smap.modifyE, Smap.lookupE]
  | cons hd tl ih =>
    obtain ⟨a, b⟩ := hd
    by_cases hke : k = a
    · subst hke
      simp only [Smap.modifyE, if_pos rfl, Smap.lookupE]
      by_cases hk : k' = k
      · simp [hk]
      · simp [hk]
    · simp only [Smap.modifyE, if_neg hke, Smap.lookupE]
      by_cases hk : k' = a
      · subst hk
        have h1 : ¬ k' = k := fun h => hke (h ▸ rfl)
        have h2 : ¬ k = k' := fun h => hke h
        simp [h1, h2]
      · by_cases hkk : k' = k
        · subst hkk
          simp only [if_pos rfl] at ih ⊢
          simp [ih, hke]
        · simp [hk, hkk, ih]

theorem Smap.lookup_modify (s : Smap α β) (k : α) (f : β → β) (k' : α) :
    (s.modify k f).lookup k' =
      if k' = k then (s.lookup k).map f else s.lookup k' :=
  Smap.lookupE_modifyE k f k' s.entries

theorem Smap.lookup_upsert (s : Smap α β) (k : α) (f : β → β) (d : β) (k' : α) :
    (s.upsert k f d).lookup k' =
      if k' = k then some (match s.lookup k with | some b => f b | none => d)
      else s.lookup k' := by
  unfold Smap.upsert
  cases h : s.lookup k with
  | some b => rw [Smap.lookup_modify, h]; by_cases hk : k' = k <;> simp [hk]
  | none => rw [Smap.lookup_insert]

theorem Smap.lookupE_mem (k : α) (l : List (α × β)) (b : β)
    (h : Smap.lookupE k l = some b) : (k, b) ∈ l := by
  induction l with
  | nil => simp [Smap.lookupE] at h
  | cons hd tl ih =>
    obtain ⟨a, v⟩ := hd
    by_cases hk : k = a
    · subst hk
      simp [Smap.lookupE] at h
      simp [h]
    · simp only [Smap.lookupE, if_neg hk] at h
      simp [ih h]

theorem Smap.mem_insertE (k : α) (v : β) (l : List (α × β)) (p : α × β)
    (h : p ∈ Smap.insertE k v l) : p ∈ l ∨ p = (k, v) := by
  induction l with
  | nil =>
    simp [Smap.insertE] at h
    simp [h]
  | cons hd tl ih =>
    obtain ⟨a, b⟩ := hd
    by_cases hka : k < a
    · have hb : KeyLtB.ltB k a = true := (KeyLtB.ltB_iff k a).mpr hka
      simp only [Smap.insertE, hb, if_true, List.mem_cons] at h
      rcases h with h | h | h
      · right; exact h
      · left; simp [h]
      · left; simp [h]
    · have hb : KeyLtB.ltB k a = false := keyLtBFalse k a hka
      by_cases hke : k = a
      · subst hke
        have hred : Smap.insertE k v ((k, b) :: tl) = (k, v) :: tl := by
          simp [Smap.insertE, hb]
        rw [hred] at h
        cases h with
        | head => right; rfl
        | tail _ h2 => left; exact List.mem_cons_of_mem _ h2
      · simp only [Smap.insertE, hb, Bool.false_eq_true, if_false, if_neg hke,
          List.mem_cons] at h
        rcases h with h | h
        · left; simp [h]
        · rcases ih h with h' | h'
          · left; simp [h']
          · right; exact h'

theorem Smap.mem_modifyE (k : α) (f : β → β) (l : List (α × β)) (p : α × β)
    (h : p ∈ Smap.modifyE k f l) :
    p ∈ l ∨ ∃ b, Smap.lookupE k l = some b ∧ p = (k, f b) := by
  induction l with
  | nil => simp [Smap.modifyE] at h
  | cons hd tl ih =>
    obtain ⟨a, b⟩ := hd
    by_cases hke : k = a
    · subst hke
      have hred : Smap.modifyE k f ((k, b) :: tl) = (k, f b) :: tl := by
        simp [Smap.modifyE]
      rw [hred] at h
      cases h with
      | head => right; exact ⟨b, by simp [Smap.lookupE], rfl⟩
      | tail _ h2 => left; exact List.mem_cons_of_mem _ h2
    · simp only [Smap.modifyE, if_neg hke, List.mem_cons] at h
      rcases h with h | h
      · left; simp [h]
      · rcases ih h with h' | h'
        · left; simp [h']
        · right
          obtain ⟨b', hb', hp⟩ := h'
          refine ⟨b', ?_, hp⟩
          simp [Smap.lookupE, hke, hb']

theorem Smap.mem_upsert (s : Smap α β) (k : α) (f : β → β) (d : β) (p : α × β)
    (h : p ∈ (s.upsert k f d).entries) :
    p ∈ s.entries ∨ p = (k, d) ∨ ∃ b, s.lookup k = some b ∧ p = (k, f b) := by
  unfold Smap.upsert Smap.lookup at h
  cases hl : Smap.lookupE k s.entries with
  | some b =>
    rw [hl] at h
    rcases Smap.mem_modifyE k f s.entries p h with h' | h'
    · left; exact h'
    · right; right
      obtain ⟨b', hb', hp⟩ := h'
      exact ⟨b', hb', hp⟩
  | none =>
    rw [hl] at h
    rcases Smap.mem_insertE k d s.entries p h with h' | h'
    · left; exact h'
    · right; left; exact h'

end SmapLemmas

section ListHelpers

theorem listGetDSetSelf {γ : Type} (l : List γ) (n : Nat) (a d : γ)
    (h : n < l.length) : (l.set n a).getD n d = a := by
  induction l generalizing n with
  | nil => simp at h
  | cons hd tl ih =>
    cases n with
    | zero => rfl
    | succ k =>
      simp only [List.set, List.getD, List.getElem?_cons_succ]
      exact ih k (by simpa using h)

theorem listGetDSetNe {γ : Type} (l : List γ) (n j : Nat) (a d : γ)
    (h : j ≠ n) : (l.set n a).getD j d = l.getD j d := by
  induction l generalizing n j with
  | nil => simp [List.set]
  | cons hd tl ih =>
    cases n with
    | zero =>
      cases j with
      | zero => exact absurd rfl h
      | succ i => rfl
    | succ k =>
      cases j with
      | zero => rfl
      | succ i =>
        simp only [List.set, List.getD, List.getElem?_cons_succ]
        exact ih k i (fun hh => h (by simp [hh]))

end ListHelpers

section ClaimC3

/-- Claim C3: resolving contract `name` (with id `cid`) to outcome `oc`
rewrites the status of every IOU, in place, through `Market.resolveStatus`,
which transitions exactly the Unknown conditions that mention `cid`
(If+true becomes True, If+false becomes Void, Not+true becomes Void,
Not+false becomes True) and leaves every other status — other conditions, or
already True/Void — unchanged; issuer, holder and amount are untouched. -/
theorem contractOutcome_resolution_table (m m' : Market) (name : String)
    (cid : Nat) (oc : Bool)
    (hname : m.contractNames.lookup name = some cid)
    (h : m.contractOutcome name oc = .ok m') :
    m'.ious = m.ious.map (fun iou =>
      { iou with status := Market.resolveStatus cid oc iou.status }) ∧
    Market.resolveStatus cid true (.unknown (.ifc cid)) = .tru (.ifc cid) ∧
    Market.resolveStatus cid false (.unknown (.ifc cid)) = .void (.ifc cid) ∧
    Market.resolveStatus cid true (.unknown (.notc cid)) = .void (.notc cid) ∧
    Market.resolveStatus cid false (.unknown (.notc cid)) = .tru (.notc cid) ∧
    ∀ s : IouStatus, s ≠ .unknown (.ifc cid) → s ≠ .unknown (.notc cid) →
      Market.resolveStatus cid oc s = s := by
  refine ⟨?_, by simp [Market.resolveStatus], by simp [Market.resolveStatus],
    by simp [Market.resolveStatus], by simp [Market.resolveStatus], ?_⟩
  · unfold Market.contractOutcome at h
    simp only [hname] at h
    cases hoc : (m.getContract cid).outcome with
    | some b =>
      simp only [hoc] at h
      exact Except.noConfusion h
    | none =>
      simp only [hoc, Except.ok.injEq] at h
      subst h
      rfl
  · intro s h1 h2
    unfold Market.resolveStatus
    rw [if_neg h1, if_neg h2]

/-- Concrete market for the C3 witness: two unresolved contracts, two
players, and IOUs of several status shapes. -/
def mC3 : Market :=
  { contractNames := ⟨[("A", 0), ("B", 1)]⟩
    playerNames := ⟨[("X", 0), ("Y", 1)]⟩
    contracts := [⟨"A", none⟩, ⟨"B", none⟩]
    players := [⟨"X", ⟨[]⟩, 1000⟩, ⟨"Y", ⟨[]⟩, 1000⟩]
    ious := [⟨0, 1, .unknown (.ifc 0), 50⟩, ⟨1, 0, .unknown (.notc 0), 40⟩,
             ⟨0, 1, .unknown (.ifc 1), 30⟩, ⟨1, 0, .tru (.ifc 0), 20⟩] }

/-- The market of `mC3` after resolving "A" to true. -/
def mC3r : Market := okD (mC3.contractOutcome "A" true) Market.new

theorem contractOutcome_resolution_table_witness :
    mC3r.ious = mC3.ious.map (fun iou =>
      { iou with status := Market.resolveStatus 0 true iou.status }) ∧
    Market.resolveStatus 0 true (.unknown (.ifc 0)) = .tru (.ifc 0) ∧
    Market.resolveStatus 0 false (.unknown (.ifc 0)) = .void (.ifc 0) ∧
    Market.resolveStatus 0 true (.unknown (.notc 0)) = .void (.notc 0) ∧
    Market.resolveStatus 0 false (.unknown (.notc 0)) = .tru (.notc 0) ∧
    ∀ s : IouStatus, s ≠ .unknown (.ifc 0) → s ≠ .unknown (.notc 0) →
      Market.resolveStatus 0 true s = s :=
  contractOutcome_resolution_table mC3 mC3r "A" 0 true (by decide) (by decide)

end ClaimC3

section ClaimC10

theorem playerRangesGo_ranges (rs : List (String × Price × Price)) :
    ∀ m m' : Market, ∀ pid : Nat, pid < m.players.length →
    Market.playerRangesGo m pid rs = .ok m' →
    ∀ cid : Nat,
      ((m'.getPlayer pid).ranges.lookup cid).isSome ↔
        ((m.getPlayer pid).ranges.lookup cid).isSome ∨
          ∃ r ∈ rs, m.contractNames.lookup r.1 = some cid := by
  induction rs with
  | nil =>
    intro m m' pid hlen h cid
    simp only [Market.playerRangesGo, Except.ok.injEq] at h
    subst h
    simp
  | cons hd tl ih =>
    intro m m' pid hlen h cid
    obtain ⟨cname, lo, hi⟩ := hd
    simp only [Market.playerRangesGo] at h
    cases hc : m.contractNames.lookup cname with
    | none =>
      simp only [hc] at h
      exact Except.noConfusion h
    | some cid0 =>
      simp only [hc] at h
      cases hoc : (m.getContract cid0).outcome with
      | some b =>
        simp only [hoc] at h
        exact Except.noConfusion h
      | none =>
        simp only [hoc] at h
        by_cases hrange : 0 ≤ lo ∧ lo < hi ∧ hi ≤ 100
        · rw [if_pos hrange] at h
          have hlen' :
              pid < (m.updatePlayer pid (fun p => p.setRange cid0 lo hi)).players.length := by
            simpa [Market.updatePlayer] using hlen
          have hstep := ih _ m' pid hlen' h cid
          have hget :
              ((m.updatePlayer pid (fun p => p.setRange cid0 lo hi)).getPlayer pid) =
                (m.getPlayer pid).setRange cid0 lo hi := by
            unfold Market.updatePlayer Market.getPlayer
            exact listGetDSetSelf _ _ _ _ hlen
          have hnames :
              (m.updatePlayer pid (fun p => p.setRange cid0 lo hi)).contractNames =
                m.contractNames := rfl
          rw [hget, hnames] at hstep
          rw [hstep]
          unfold Player.setRange
          rw [Smap.lookup_insert]
          constructor
          · rintro (hcase | hcase)
            · by_cases hcc : cid = cid0
              · right
                exact ⟨(cname, lo, hi), by simp, by rw [hc, hcc]⟩
              · rw [if_neg hcc] at hcase
                left; exact hcase
            · obtain ⟨r, hr, hr2⟩ := hcase
              right; exact ⟨r, by simp [hr], hr2⟩
          · rintro (hcase | hcase)
            · by_cases hcc : cid = cid0
              · left; simp [hcc]
              · left; rw [if_neg hcc]; exact hcase
            · obtain ⟨r, hr, hr2⟩ := hcase
              rcases List.mem_cons.mp hr with hr' | hr'
              · subst hr'
                rw [hc] at hr2
                left
                have hcc2 : cid = cid0 := (Option.some.inj hr2).symm
                simp [hcc2]
              · right; exact ⟨r, hr', hr2⟩
        · rw [if_neg hrange] at h
          exact Except.noConfusion h

/-- Claim C10: a successful `player_ranges` call first clears the player's
range map, so afterwards the player holds a range for exactly the contracts
named in the call (and any previously declared range on a contract not
mentioned is gone). -/
theorem playerRanges_exactly_listed (m m' : Market) (name : String) (pid : Nat)
    (rs : List (String × Price × Price))
    (hpid : m.playerNames.lookup name = some pid)
    (hlen : pid < m.players.length)
    (h : m.playerRanges name rs = .ok m') :
    ∀ cid : Nat, ((m'.getPlayer pid).ranges.lookup cid).isSome ↔
      ∃ r ∈ rs, m.contractNames.lookup r.1 = some cid := by
  unfold Market.playerRanges at h
  rw [hpid] at h
  have hlen' : pid < (m.updatePlayer pid Player.clearRanges).players.length := by
    simpa [Market.updatePlayer] using hlen
  have hstep := playerRangesGo_ranges rs _ m' pid hlen' h
  intro cid
  rw [hstep cid]
  have hget : ((m.updatePlayer pid Player.clearRanges).getPlayer pid) =
      (m.getPlayer pid).clearRanges := by
    unfold Market.updatePlayer Market.getPlayer
    exact listGetDSetSelf _ _ _ _ hlen
  have hnm : (m.updatePlayer pid Player.clearRanges).contractNames =
      m.contractNames := rfl
  rw [hget, hnm]
  simp [Player.clearRanges, Smap.lookup, Smap.lookupE, Smap.empty]

/-- Market for the C10 witness: player "X" already holds a range on "B";
redeclaring with only "A" must leave exactly "A". -/
def mC10 : Market :=
  { contractNames := ⟨[("A", 0), ("B", 1)]⟩
    playerNames := ⟨[("X", 0)]⟩
    contracts := [⟨"A", none⟩, ⟨"B", none⟩]
    players := [⟨"X", ⟨[(1, (10, 20))]⟩, 1000⟩]
    ious := [] }

/-- The market of `mC10` after `player_ranges("X", [("A", 30, 60)])`. -/
def mC10r : Market := okD (mC10.playerRanges "X" [("A", 30, 60)]) Market.new

theorem playerRanges_exactly_listed_witness :
    mC10.playerNames.lookup "X" = some 0 ∧
    0 < mC10.players.length ∧
    mC10.playerRanges "X" [("A", 30, 60)] = .ok mC10r ∧
    (((mC10r.getPlayer 0).ranges.lookup 0).isSome ↔
      ∃ r ∈ [("A", (30 : Price), (60 : Price))],
        mC10.contractNames.lookup r.1 = some 0) :=
  ⟨by decide, by decide, by decide,
   playerRanges_exactly_listed mC10 mC10r "X" 0 [("A", 30, 60)]
     (by decide) (by decide) (by decide) 0⟩

end ClaimC10

section ClaimC9

/-- Market for the C9 counterexample: contract "A" has already been resolved. -/
def mC9 : Market :=
  { contractNames := ⟨[("A", 0)]⟩
    playerNames := ⟨[("X", 0)]⟩
    contracts := [⟨"A", some true⟩]
    players := [⟨"X", ⟨[]⟩, 1000⟩]
    ious := [] }

/-- Claim C9 counterexample: requesting resolution of the already-resolved
contract "A", and declaring a range against it, both take the source's
`panic!` branch (a fatal process abort, modelled by the `Panic` error), not a
recoverable typed business error. -/
theorem resolvedContract_ops_abort_counterexample :
    mC9.contractOutcome "A" false = .error (.contractHasOutcome "A") ∧
    mC9.playerRanges "X" [("A", 20, 40)] = .error (.contractHasOutcome "A") := by
  decide

/-- Claim C9 amended: on every market, resolving an already-resolved contract
or declaring a range against a resolved contract aborts fatally through
`panic!` (the `Panic.contractHasOutcome` abort), instead of returning a
recoverable typed business error. -/
theorem resolvedContract_ops_abort (m : Market) (name : String) (cid : Nat)
    (b : Bool) (oc : Bool) (pname : String) (pid : Nat) (lo hi : Price)
    (rest : List (String × Price × Price))
    (h1 : m.contractNames.lookup name = some cid)
    (h2 : (m.getContract cid).outcome = some b)
    (h3 : m.playerNames.lookup pname = some pid) :
    m.contractOutcome name oc = .error (.contractHasOutcome name) ∧
    m.playerRanges pname ((name, lo, hi) :: rest) =
      .error (.contractHasOutcome name) := by
  constructor
  · unfold Market.contractOutcome
    simp only [h1, h2]
  · unfold Market.playerRanges
    simp only [h3]
    unfold Market.playerRangesGo
    have h1' : (m.updatePlayer pid Player.clearRanges).contractNames.lookup name =
        some cid := h1
    have h2' : ((m.updatePlayer pid Player.clearRanges).getContract cid).outcome =
        some b := h2
    simp only [h1', h2']

theorem resolvedContract_ops_abort_witness :
    mC9.contractOutcome "A" true = .error (.contractHasOutcome "A") ∧
    mC9.playerRanges "X" [("A", 30, 70)] = .error (.contractHasOutcome "A") :=
  resolvedContract_ops_abort mC9 "A" 0 true true "X" 0 30 70 []
    (by decide) (by decide) (by decide)

end ClaimC9

section ClaimC8

/-- Modelled from the claim's words, for comparison with the source: a
`total_neg_exposure` in which each contract's contribution is clamped to be
included only where it is positive. -/
def specTotalNegExposureClamped (e : Exposure) : Price :=
  (e.conditional.values.map (fun ce => max 0 ce.negExposure)).sum + e.unconditional

/-- Exposure snapshot for the C8 counterexample: the holder side of a single
Not-IOU of 5 (a negative neg-exposure contribution). -/
def eC8 : Exposure := ⟨0, ⟨[(0, ⟨0, -5⟩)]⟩⟩

/-- Claim C8 counterexample: `total_neg_exposure` does not clamp per-contract
contributions — on the reachable snapshot `eC8` it is −5 where the clamped
version is 0, and the worst-case bound `total_exposure_to_contract` uses the
unclamped −5. -/
theorem totalNegExposure_unclamped_counterexample :
    Exposure.new.applyIouHolder (.unknown (.notc 0)) 5 = eC8 ∧
    eC8.totalNegExposure = -5 ∧
    specTotalNegExposureClamped eC8 = 0 ∧
    eC8.totalNegExposure ≠ specTotalNegExposureClamped eC8 ∧
    eC8.totalExposureToContract 1 = -5 := by
  decide

theorem lookupSumEqValueSum (l : List (Nat × ContractExposure))
    (hnd : (l.map Prod.fst).Nodup) :
    ((l.map Prod.fst).map
      (fun cid => ((Smap.lookupE cid l).getD ContractExposure.zero).negExposure)).sum =
    (l.map (fun p => p.2.negExposure)).sum := by
  induction l with
  | nil => simp
  | cons hd tl ih =>
    obtain ⟨a, b⟩ := hd
    simp only [List.map_cons, List.nodup_cons] at hnd ⊢
    obtain ⟨hna, hnd'⟩ := hnd
    simp only [List.sum_cons]
    have hhd : ((Smap.lookupE a ((a, b) :: tl)).getD ContractExposure.zero).negExposure =
        b.negExposure := by
      simp [Smap.lookupE]
    rw [hhd]
    congr 1
    have hmap : (tl.map Prod.fst).map
        (fun cid => ((Smap.lookupE cid ((a, b) :: tl)).getD ContractExposure.zero).negExposure) =
        (tl.map Prod.fst).map
        (fun cid => ((Smap.lookupE cid tl).getD ContractExposure.zero).negExposure) := by
      apply List.map_congr_left
      intro k hk
      have hka : ¬ k = a := fun hh => hna (hh ▸ hk)
      simp [Smap.lookupE, hka]
    rw [hmap, ih hnd']

/-- Claim C8 amended: `total_neg_exposure()` is the unconditional settled
balance plus the unclamped sum, over all contracts in the snapshot, of that
contract's `neg_exposure`; no per-contract clamping occurs.  The only clamp
in the worst-case bounding is the `max 0` on the single largest alternative
in `total_exposure_to_contract_neg`, so the latter never falls below the
unclamped total. -/
theorem totalNegExposure_formula (e : Exposure)
    (hnd : (e.conditional.entries.map Prod.fst).Nodup) :
    e.totalNegExposure = e.unconditional +
      (e.conditional.keys.map (fun cid => e.negExposure cid)).sum ∧
    ∀ cid : Nat, e.totalNegExposure ≤ e.totalExposureToContractNeg cid := by
  constructor
  · unfold Exposure.totalNegExposure Exposure.negExposure Exposure.contractExposure
    rw [add_comm]
    congr 1
    unfold Smap.keys Smap.values Smap.lookup
    rw [lookupSumEqValueSum e.conditional.entries hnd, List.map_map]
    congr 1
  · intro cid
    unfold Exposure.totalExposureToContractNeg
    have : (0 : Price) ≤ max 0 ((((e.conditional.entries.filter
        (fun p => p.1 ≠ cid)).map (fun p => p.2.exposure - p.2.negExposure)).max?).getD 0) :=
      le_max_left 0 _
    exact le_add_of_nonneg_right this

theorem totalNegExposure_formula_witness :
    (eC8.totalNegExposure = eC8.unconditional +
      (eC8.conditional.keys.map (fun cid => eC8.negExposure cid)).sum ∧
    ∀ cid : Nat, eC8.totalNegExposure ≤ eC8.totalExposureToContractNeg cid) :=
  totalNegExposure_formula eC8 (by decide)

end ClaimC8

end Lazyhack


namespace Lazyhack

section ClaimC6

/-- The concrete scenario of spec §8: contract "A"; participant X with credit
1000 and range (20,40); participant Y with credit 1000 and range (50,70);
empty ledger; then one session run. -/
def scenario8 : Except RunErr (Market × SessionSt × Smap String (Price × Price)) := do
  let m := Market.new
  let m ← (m.newContract "A").mapError RunErr.panic
  let m ← (m.newPlayer "X").mapError RunErr.panic
  let m ← (m.newPlayer "Y").mapError RunErr.panic
  let m := m.incrementCredit 1000
  let m ← (m.playerRanges "X" [("A", 20, 40)]).mapError RunErr.panic
  let m ← (m.playerRanges "Y" [("A", 50, 70)]).mapError RunErr.panic
  m.session 10

/-- The successful result of the §8 scenario run. -/
def scenario8run : Market × SessionSt × Smap String (Price × Price) :=
  okD scenario8 (Market.new, ⟨Smap.empty, [], []⟩, Smap.empty)

/-- The market committed by the §8 session. -/
def m8 : Market := scenario8run.1

/-- The final session state of the §8 session. -/
def s8 : SessionSt := scenario8run.2.1

/-- Claim C6 counterexample: in the §8 scenario the post-trade worst-case
exposures are 990 for X and −990 for Y (the credit check compares 990 against
the limit), not the claimed 180 and −180: the held Not(A) IOU pays only when
A is false, so it does not offset the issued If(A) IOU in the A-true case. -/
theorem scenario8_exposure_counterexample :
    scenario8 = .ok scenario8run ∧
    (m8.calcExposure 0).totalExposureToContract 0 = 990 ∧
    (m8.calcExposure 1).totalExposureToContract 0 = -990 ∧
    ((990 : Price) = 180 → False) ∧ ((-990 : Price) = -180 → False) := by
  decide

/-- Claim C6 amended: the §8 session trades 18 units at price 45 on "A"
(X, id 0, issues an If(A) IOU of 990 = 18×55 to Y, id 1; Y issues a Not(A)
IOU of 810 = 18×45 to X), and post-trade X's total_exposure_to_contract(A)
is 990 while Y's is −990. -/
theorem scenario8_results :
    scenario8 = .ok scenario8run ∧
    s8.trades = [⟨0, 18, 18 * 45⟩] ∧
    m8.ious = [⟨0, 1, .unknown (.ifc 0), 18 * 55⟩, ⟨1, 0, .unknown (.notc 0), 18 * 45⟩] ∧
    m8.contractNames.lookup "A" = some 0 ∧
    m8.playerNames.lookup "X" = some 0 ∧
    m8.playerNames.lookup "Y" = some 1 ∧
    (m8.getPlayer 0).creditLimit = 1000 ∧
    (m8.getPlayer 1).creditLimit = 1000 ∧
    (m8.calcExposure 0).totalExposureToContract 0 = 990 ∧
    (m8.calcExposure 1).totalExposureToContract 0 = -990 := by
  decide

end ClaimC6

end Lazyhack

namespace Lazyhack

section ClaimC7

theorem foldApplyIou_lookup (l : List Iou) :
    ∀ (s : SessionSt) (pid : Nat) (e0 : Exposure),
    s.exposures.lookup pid = some e0 →
    (∀ iou ∈ l, iou.issuerId ≠ iou.holderId) →
    (l.foldl SessionSt.applyIou s).exposures.lookup pid =
      some (l.foldl (fun e iou =>
        if iou.issuerId = pid then e.applyIouIssuer iou.status iou.amount
        else if iou.holderId = pid then e.applyIouHolder iou.status iou.amount
        else e) e0) := by
  induction l with
  | nil =>
    intro s pid e0 h _
    simpa using h
  | cons hd tl ih =>
    intro s pid e0 h hself
    simp only [List.foldl_cons]
    have hne : hd.issuerId ≠ hd.holderId := hself hd (by simp)
    have hlk : (s.applyIou hd).exposures.lookup pid =
        some (if hd.issuerId = pid then e0.applyIouIssuer hd.status hd.amount
          else if hd.holderId = pid then e0.applyIouHolder hd.status hd.amount
          else e0) := by
      unfold SessionSt.applyIou
      by_cases hip : hd.issuerId = pid
      · have hh2 : ¬ pid = hd.holderId := fun hh => hne (hip.trans hh)
        simp [Smap.lookup_modify, hip, hh2, h]
      · by_cases hhp : hd.holderId = pid
        · have hi2 : ¬ pid = hd.issuerId := fun hh => hip hh.symm
          simp [Smap.lookup_modify, hhp, hi2, hip, h]
        · have hi2 : ¬ pid = hd.issuerId := fun hh => hip hh.symm
          have hh2 : ¬ pid = hd.holderId := fun hh => hhp hh.symm
          simp [Smap.lookup_modify, hip, hhp, hi2, hh2, h]
    have := ih (s.applyIou hd) pid _ hlk
      (fun iou hiou => hself iou (List.mem_cons_of_mem _ hiou))
    exact this

theorem initExposures_lookup (l : List (String × Nat)) :
    ∀ (acc : Smap Nat Exposure) (pid : Nat),
    (∀ v, acc.lookup pid = some v → v = Exposure.new) →
    ∀ v, (l.foldl (fun exposures e => exposures.insert e.2 Exposure.new) acc).lookup pid
      = some v → v = Exposure.new := by
  induction l with
  | nil => intro acc pid hacc v h; exact hacc v h
  | cons hd tl ih =>
    intro acc pid hacc v h
    refine ih (acc.insert hd.2 Exposure.new) pid ?_ v h
    intro w hw
    rw [Smap.lookup_insert] at hw
    by_cases hp : pid = hd.2
    · rw [if_pos hp] at hw
      exact (Option.some.inj hw).symm
    · rw [if_neg hp] at hw
      exact hacc w hw

theorem foldApplyIou_lookup_none (l : List Iou) :
    ∀ (s : SessionSt) (pid : Nat), s.exposures.lookup pid = none →
    (l.foldl SessionSt.applyIou s).exposures.lookup pid = none := by
  induction l with
  | nil => intro s pid h; simpa using h
  | cons hd tl ih =>
    intro s pid h
    simp only [List.foldl_cons]
    refine ih (s.applyIou hd) pid ?_
    unfold SessionSt.applyIou
    by_cases h1 : pid = hd.holderId
    · by_cases h2 : pid = hd.issuerId
      · simp [Smap.lookup_modify, ← h1, ← h2, h]
      · have h3 : ¬ hd.holderId = hd.issuerId := fun hh => h2 (h1.trans hh)
        simp [Smap.lookup_modify, ← h1, h2, h3, h]
    · by_cases h2 : pid = hd.issuerId
      · simp [Smap.lookup_modify, h1, ← h2, h]
      · simp [Smap.lookup_modify, h1, h2, h]

/-- Claim C7 amended: when no IOU has the same participant as both issuer and
holder, the exposure obtained by full replay of the IOU history
(`Market::calc_exposure`) equals the exposure obtained incrementally by
applying each IOU exactly once (`Session::apply_iou`, as `Session::new`
does), fully and hence component-wise: same unconditional balance and the
same (exposure, neg_exposure) pair for every contract. -/
theorem replay_eq_incremental (m : Market) (pid : Nat) (e : Exposure)
    (hself : ∀ iou ∈ m.ious, iou.issuerId ≠ iou.holderId)
    (hpid : (SessionSt.init m).exposures.lookup pid = some e) :
    e = m.calcExposure pid ∧
    e.unconditional = (m.calcExposure pid).unconditional ∧
    ∀ cid : Nat, e.exposure cid = (m.calcExposure pid).exposure cid ∧
      e.negExposure cid = (m.calcExposure pid).negExposure cid := by
  have hmain : e = m.calcExposure pid := by
    unfold SessionSt.init at hpid
    set s0 : SessionSt :=
      { exposures := m.playerNames.entries.foldl
          (fun exposures en => exposures.insert en.2 Exposure.new) Smap.empty,
        ious := [], trades := [] } with hs0
    cases h0 : s0.exposures.lookup pid with
    | none =>
      rw [foldApplyIou_lookup_none m.ious s0 pid h0] at hpid
      exact Option.noConfusion hpid
    | some e0 =>
      have he0 : e0 = Exposure.new := by
        refine initExposures_lookup m.playerNames.entries Smap.empty pid ?_ e0 h0
        intro v hv
        simp [Smap.lookup, Smap.lookupE, Smap.empty] at hv
      rw [foldApplyIou_lookup m.ious s0 pid e0 h0 hself] at hpid
      have := Option.some.inj hpid
      rw [← this, he0]
      rfl
  exact ⟨hmain, by rw [hmain], fun cid => ⟨by rw [hmain], by rw [hmain]⟩⟩

/-- Market for the C7 counterexample: a single IOU whose issuer and holder
are the same participant. -/
def mC7 : Market :=
  { contractNames := ⟨[("A", 0)]⟩
    playerNames := ⟨[("X", 0)]⟩
    contracts := [⟨"A", none⟩]
    players := [⟨"X", ⟨[]⟩, 1000⟩]
    ious := [⟨0, 0, .unknown (.ifc 0), 5⟩] }

/-- Claim C7 counterexample: on an IOU list containing a self-IOU (issuer =
holder), full replay gives exposure 5 on the contract (only the issuer branch
of `calc_exposure` fires), while the incremental accumulator gives 0 (both
`apply_iou` sides fire), so the equivalence fails as universally stated. -/
theorem replay_eq_incremental_counterexample :
    ((SessionSt.init mC7).exposures.lookup 0).map (fun e => e.exposure 0) = some 0 ∧
    (mC7.calcExposure 0).exposure 0 = 5 ∧
    ((0 : Price) = 5 → False) := by
  decide

/-- Witness market for the C7 amended theorem (distinct issuer and holder). -/
def mC7w : Market :=
  { contractNames := ⟨[("A", 0)]⟩
    playerNames := ⟨[("X", 0), ("Y", 1)]⟩
    contracts := [⟨"A", none⟩]
    players := [⟨"X", ⟨[]⟩, 1000⟩, ⟨"Y", ⟨[]⟩, 1000⟩]
    ious := [⟨0, 1, .unknown (.ifc 0), 990⟩, ⟨1, 0, .unknown (.notc 0), 810⟩] }

/-- The incremental exposure of player 0 in `mC7w`. -/
def eC7w : Exposure :=
  ((SessionSt.init mC7w).exposures.lookup 0).getD Exposure.new

theorem replay_eq_incremental_witness :
    eC7w = mC7w.calcExposure 0 ∧
    eC7w.unconditional = (mC7w.calcExposure 0).unconditional ∧
    ∀ cid : Nat, eC7w.exposure cid = (mC7w.calcExposure 0).exposure cid ∧
      eC7w.negExposure cid = (mC7w.calcExposure 0).negExposure cid :=
  replay_eq_incremental mC7w 0 eC7w (by decide) (by decide)

end ClaimC7

end Lazyhack

namespace Lazyhack

section ClaimC5

/-- Lexicographic combinator on a key and a tail relation, used to express
the Rust tuple order as a Prop. -/
def lexP {α γ : Type} [LinearOrder γ] (f : α → γ) (rest : α → α → Prop)
    (a b : α) : Prop :=
  f a < f b ∨ (f a = f b ∧ rest a b)

theorem lexPTrans {α γ : Type} [LinearOrder γ] (f : α → γ) (rest : α → α → Prop)
    (hr : ∀ a b c, rest a b → rest b c → rest a c) :
    ∀ a b c, lexP f rest a b → lexP f rest b c → lexP f rest a c := by
  intro a b c hab hbc
  rcases hab with h1 | ⟨h1, h1r⟩ <;> rcases hbc with h2 | ⟨h2, h2r⟩
  · exact Or.inl (lt_trans h1 h2)
  · exact Or.inl (h2 ▸ h1)
  · exact Or.inl (h1 ▸ h2)
  · exact Or.inr ⟨h1.trans h2, hr a b c h1r h2r⟩

theorem lexPTotal {α γ : Type} [LinearOrder γ] (f : α → γ) (rest : α → α → Prop)
    (hr : ∀ a b, rest a b ∨ rest b a) :
    ∀ a b, lexP f rest a b ∨ lexP f rest b a := by
  intro a b
  rcases lt_trichotomy (f a) (f b) with h | h | h
  · exact Or.inl (Or.inl h)
  · rcases hr a b with h' | h'
    · exact Or.inl (Or.inr ⟨h, h'⟩)
    · exact Or.inr (Or.inr ⟨h.symm, h'⟩)
  · exact Or.inr (Or.inl h)

theorem lexStepIff {α γ : Type} [LinearOrder γ] [DecidableEq γ] (f : α → γ)
    (c r : Bool) (rest : α → α → Prop) (a b : α)
    (hc : c = true ↔ f a < f b) (hrest : r = true ↔ rest a b) :
    (if f a ≠ f b then c else r) = true ↔ lexP f rest a b := by
  unfold lexP
  by_cases he : f a = f b
  · rw [if_neg (fun hh => hh he), hrest]
    constructor
    · intro hr; exact Or.inr ⟨he, hr⟩
    · rintro (hl | ⟨_, hr⟩)
      · exact absurd he (ne_of_lt hl)
      · exact hr
  · rw [if_pos he, hc]
    constructor
    · intro hl; exact Or.inl hl
    · rintro (hl | ⟨heq, _⟩)
      · exact hl
      · exact absurd heq he

/-- The tuple order of `find_trades` candidates as a Prop: largest spread
first under reversal, ties by contract name, then by the remaining tuple
components, mirroring Rust's derived `Ord`. -/
def candLex (a b : TradeCand) : Prop :=
  lexP TradeCand.spread
    (lexP TradeCand.cname
      (lexP TradeCand.contractId
        (lexP TradeCand.buyerId
          (lexP TradeCand.high
            (lexP TradeCand.sellerId
              (fun x y => x.low ≤ y.low)))))) a b

theorem tradeCandLeIff (a b : TradeCand) :
    TradeCand.le a b = true ↔ candLex a b := by
  unfold TradeCand.le candLex
  refine lexStepIff _ _ _ _ a b decide_eq_true_iff ?_
  refine lexStepIff _ _ _ _ a b (KeyLtB.ltB_iff a.cname b.cname) ?_
  refine lexStepIff _ _ _ _ a b decide_eq_true_iff ?_
  refine lexStepIff _ _ _ _ a b decide_eq_true_iff ?_
  refine lexStepIff _ _ _ _ a b decide_eq_true_iff ?_
  refine lexStepIff _ _ _ _ a b decide_eq_true_iff ?_
  exact decide_eq_true_iff

theorem candLexTotal : ∀ a b, candLex a b ∨ candLex b a := by
  refine lexPTotal _ _ ?_
  refine lexPTotal _ _ ?_
  refine lexPTotal _ _ ?_
  refine lexPTotal _ _ ?_
  refine lexPTotal _ _ ?_
  refine lexPTotal _ _ ?_
  intro a b
  exact le_total a.low b.low

theorem candLexTrans : ∀ a b c, candLex a b → candLex b c → candLex a c := by
  refine lexPTrans _ _ ?_
  refine lexPTrans _ _ ?_
  refine lexPTrans _ _ ?_
  refine lexPTrans _ _ ?_
  refine lexPTrans _ _ ?_
  refine lexPTrans _ _ ?_
  intro a b c h1 h2
  exact le_trans h1 h2

theorem memInsertSorted {γ : Type} (le : γ → γ → Bool) (x z : γ) (l : List γ)
    (h : z ∈ insertSorted le x l) : z = x ∨ z ∈ l := by
  induction l with
  | nil => simp [insertSorted] at h; simp [h]
  | cons y t ih =>
    unfold insertSorted at h
    by_cases hxy : le x y
    · rw [if_pos hxy] at h
      rcases List.mem_cons.mp h with h' | h'
      · exact Or.inl h'
      · exact Or.inr h'
    · rw [if_neg hxy] at h
      rcases List.mem_cons.mp h with h' | h'
      · exact Or.inr (by simp [h'])
      · rcases ih h' with h'' | h''
        · exact Or.inl h''
        · exact Or.inr (List.mem_cons_of_mem _ h'')

theorem pairwiseInsertSorted {γ : Type} (le : γ → γ → Bool)
    (htot : ∀ a b, le a b = true ∨ le b a = true)
    (htrans : ∀ a b c, le a b = true → le b c = true → le a c = true)
    (x : γ) (l : List γ) (hp : List.Pairwise (fun a b => le a b = true) l) :
    List.Pairwise (fun a b => le a b = true) (insertSorted le x l) := by
  induction l with
  | nil => simp [insertSorted]
  | cons y t ih =>
    unfold insertSorted
    rcases List.pairwise_cons.mp hp with ⟨hy, ht⟩
    by_cases hxy : le x y
    · rw [if_pos hxy]
      refine List.pairwise_cons.mpr ⟨?_, hp⟩
      intro z hz
      rcases List.mem_cons.mp hz with h' | h'
      · rw [h']; exact hxy
      · exact htrans x y z hxy (hy z h')
    · rw [if_neg hxy]
      refine List.pairwise_cons.mpr ⟨?_, ih ht⟩
      intro z hz
      rcases memInsertSorted le x z _ hz with h' | h'
      · rw [h']
        rcases htot x y with h'' | h''
        · exact absurd h'' (by simpa using hxy)
        · exact h''
      · exact hy z h'

theorem pairwiseIsort {γ : Type} (le : γ → γ → Bool)
    (htot : ∀ a b, le a b = true ∨ le b a = true)
    (htrans : ∀ a b c, le a b = true → le b c = true → le a c = true)
    (l : List γ) :
    List.Pairwise (fun a b => le a b = true) (isort le l) := by
  induction l with
  | nil => simp [isort]
  | cons x t ih => exact pairwiseInsertSorted le htot htrans x (isort le t) ih

theorem reverseHeadMax {γ : Type} (R : γ → γ → Prop) (l : List γ) (x : γ)
    (hp : List.Pairwise R l) (hh : l.reverse.head? = some x) :
    ∀ y ∈ l.reverse, y = x ∨ R y x := by
  have hp' : List.Pairwise (fun a b => R b a) l.reverse :=
    (List.pairwise_reverse).mpr hp
  cases hrev : l.reverse with
  | nil => rw [hrev] at hh; exact Option.noConfusion hh
  | cons hd tl =>
    rw [hrev] at hh hp'
    have hx : hd = x := Option.some.inj hh
    subst hx
    rcases List.pairwise_cons.mp hp' with ⟨hhd, _⟩
    intro y hy
    rcases List.mem_cons.mp hy with h' | h'
    · exact Or.inl h'
    · exact Or.inr (hhd y h')

/-- Claim C5 amended: in each iteration, among the recorded crossing
candidates the one selected (the head of `find_trades`) has the largest
spread, and ties between equal-spread candidates are broken by contract name
in DESCENDING alphabetical order: every other candidate has a smaller
spread, or an equal spread and a name that is not larger. -/
theorem findTrades_head_selection (s : SessionSt) (m : Market) (offers : Offers)
    (cand : TradeCand)
    (hh : (s.findTrades m offers).head? = some cand) :
    ∀ c ∈ s.findTrades m offers,
      c.spread < cand.spread ∨ (c.spread = cand.spread ∧ c.cname ≤ cand.cname) := by
  unfold SessionSt.findTrades at hh ⊢
  set base := (offers.offers.entries.foldl (fun trades e =>
    match SessionSt.candidateFor m e.1 e.2 with
    | some cand => trades ++ [cand]
    | none => trades) ([] : List TradeCand)) with hbase
  have hp : List.Pairwise (fun a b => TradeCand.le a b = true) (isort TradeCand.le base) := by
    refine pairwiseIsort TradeCand.le ?_ ?_ base
    · intro a b
      rcases candLexTotal a b with h | h
      · exact Or.inl ((tradeCandLeIff a b).mpr h)
      · exact Or.inr ((tradeCandLeIff b a).mpr h)
    · intro a b c h1 h2
      exact (tradeCandLeIff a c).mpr
        (candLexTrans a b c ((tradeCandLeIff a b).mp h1) ((tradeCandLeIff b c).mp h2))
  intro c hc
  have := reverseHeadMax (fun a b => TradeCand.le a b = true)
    (isort TradeCand.le base) cand hp hh c hc
  rcases this with h | h
  · exact Or.inr ⟨by rw [h], by rw [h]⟩
  · have hlex := (tradeCandLeIff c cand).mp h
    rcases hlex with h' | ⟨h', hrest⟩
    · exact Or.inl h'
    · refine Or.inr ⟨h', ?_⟩
      rcases hrest with h'' | ⟨h'', _⟩
      · exact le_of_lt h''
      · exact le_of_eq h''

end ClaimC5

end Lazyhack

namespace Lazyhack

section ClaimC5Concrete

/-- Market for the C5 counterexample: contracts "A" and "B" with identical
books, so both cross with the same spread. -/
def scenarioC5 : Except Panic Market := do
  let m := Market.new
  let m ← m.newContract "A"
  let m ← m.newContract "B"
  let m ← m.newPlayer "X"
  let m ← m.newPlayer "Y"
  let m := m.incrementCredit 1000
  let m ← m.playerRanges "X" [("A", 20, 40), ("B", 20, 40)]
  m.playerRanges "Y" [("A", 50, 70), ("B", 50, 70)]

/-- The C5 market, extracted. -/
def mC5 : Market := okD scenarioC5 Market.new

/-- The candidate list of the first matching iteration on `mC5`. -/
def candsC5 : List TradeCand :=
  (SessionSt.init mC5).findTrades mC5 ((SessionSt.init mC5).findOffers mC5)

/-- Claim C5 counterexample: with equal spreads on "A" and "B", the selected
candidate (head of `find_trades`) is "B" — the DESCENDING alphabetical choice
— not "A" as the claimed ascending tie-break would give. -/
theorem findTrades_head_selection_counterexample :
    scenarioC5 = .ok mC5 ∧
    candsC5.map (fun c => (c.spread, c.cname)) = [(10, "B"), (10, "A")] ∧
    candsC5.head?.map TradeCand.cname = some "B" ∧
    ("A" : String) < "B" := by
  refine ⟨by decide, by decide, by decide, ?_⟩
  rw [← (KeyLtB.ltB_iff "A" "B")]
  decide

theorem findTrades_head_selection_witness :
    candsC5.head? = some ⟨10, "B", 1, 1, 50, 0, 40⟩ ∧
    (⟨10, "A", 0, 1, 50, 0, 40⟩ : TradeCand) ∈ candsC5 ∧
    ((10 : Price) < (10 : Price) ∨ ((10 : Price) = 10 ∧ ("A" : String) ≤ "B")) :=
  ⟨by decide, by decide,
   findTrades_head_selection (SessionSt.init mC5) mC5
     ((SessionSt.init mC5).findOffers mC5) ⟨10, "B", 1, 1, 50, 0, 40⟩ (by decide)
     ⟨10, "A", 0, 1, 50, 0, 40⟩ (by decide)⟩

end ClaimC5Concrete

end Lazyhack

namespace Lazyhack

section ExposureValueLemmas

/-- The clamped best-alternative summand of `total_exposure_to_contract_neg`
(the `max(0, …)` term of the source), named for reasoning. -/
def Exposure.altMax (e : Exposure) (cid : Nat) : Price :=
  max 0
    ((((e.conditional.entries.filter (fun p => p.1 ≠ cid)).map
      (fun p => p.2.exposure - p.2.negExposure)).max?).getD 0)

theorem tnegSplit (e : Exposure) (cid : Nat) :
    e.totalExposureToContractNeg cid = e.totalNegExposure + e.altMax cid := rfl

theorem altMaxNonneg (e : Exposure) (cid : Nat) : 0 ≤ e.altMax cid :=
  le_max_left 0 _

theorem totDecompose (e : Exposure) (cid : Nat) :
    e.totalExposureToContract cid =
      e.totalNegExposure + (e.exposure cid - e.negExposure cid) := by
  unfold Exposure.totalExposureToContract
  ring

theorem leFoldlMax (xs : List Int) :
    ∀ (x a : Int), (a = x ∨ a ∈ xs) → a ≤ xs.foldl max x := by
  induction xs with
  | nil =>
    intro x a h
    rcases h with h | h
    · simp [h]
    · simp at h
  | cons y t ih =>
    intro x a h
    simp only [List.foldl_cons]
    rcases h with h | h
    · exact le_trans (h ▸ le_max_left x y) (ih (max x y) (max x y) (Or.inl rfl))
    · rcases List.mem_cons.mp h with h' | h'
      · exact le_trans (h' ▸ le_max_right x y) (ih (max x y) (max x y) (Or.inl rfl))
      · exact ih (max x y) a (Or.inr h')

theorem memLeMaxD (l : List Int) (a : Int) (h : a ∈ l) : a ≤ (l.max?).getD 0 := by
  cases l with
  | nil => simp at h
  | cons x t =>
    have : (List.max? (x :: t)).getD 0 = t.foldl max x := by
      simp [List.max?]
    rw [this]
    exact leFoldlMax t x a (by rcases List.mem_cons.mp h with h' | h' <;> simp [h'])

theorem foldlMaxMem (t : List Int) : ∀ x : Int, t.foldl max x = x ∨ t.foldl max x ∈ t := by
  induction t with
  | nil => intro x; simp
  | cons y s ih =>
    intro x
    simp only [List.foldl_cons]
    rcases ih (max x y) with h | h
    · rcases max_choice x y with h' | h'
      · exact Or.inl (h.trans h')
      · refine Or.inr ?_
        rw [h, h']
        exact List.mem_cons_self y s
    · exact Or.inr (List.mem_cons_of_mem _ h)

theorem maxDMem (l : List Int) (hne : (l.max?).getD 0 ≠ 0) : (l.max?).getD 0 ∈ l := by
  cases l with
  | nil => simp at hne
  | cons x t =>
    have hval : (List.max? (x :: t)).getD 0 = t.foldl max x := by
      simp [List.max?]
    rw [hval]
    rcases foldlMaxMem t x with h | h
    · rw [h]; simp
    · exact List.mem_cons_of_mem _ h

/-- Every entry of the conditional map other than `cid` has its
`exposure − neg_exposure` bounded by `altMax`. -/
theorem altMaxLeEntry (e : Exposure) (cid : Nat) (q : Nat) (ce : ContractExposure)
    (hq : q ≠ cid) (hmem : (q, ce) ∈ e.conditional.entries) :
    ce.exposure - ce.negExposure ≤ e.altMax cid := by
  unfold Exposure.altMax
  have h1 : (q, ce) ∈ e.conditional.entries.filter (fun p => p.1 ≠ cid) := by
    rw [List.mem_filter]
    exact ⟨hmem, by simpa using hq⟩
  have h2 : ce.exposure - ce.negExposure ∈
      (e.conditional.entries.filter (fun p => p.1 ≠ cid)).map
        (fun p => p.2.exposure - p.2.negExposure) :=
    List.mem_map.mpr ⟨(q, ce), h1, rfl⟩
  exact le_trans (memLeMaxD _ _ h2) (le_max_right 0 _)

/-- The lookup value at any key other than `cid` is bounded by `altMax`
(also when the key is absent, where the value is zero). -/
theorem altMaxLeLookup (e : Exposure) (cid : Nat) (q : Nat) (hq : q ≠ cid) :
    e.exposure q - e.negExposure q ≤ e.altMax cid := by
  unfold Exposure.exposure Exposure.negExposure Exposure.contractExposure
  cases hl : e.conditional.lookup q with
  | none =>
    simp only [Option.getD_none]
    have h0 : ContractExposure.zero.exposure - ContractExposure.zero.negExposure = 0 := rfl
    rw [h0]
    exact altMaxNonneg e cid
  | some ce =>
    simp only [Option.getD_some]
    exact altMaxLeEntry e cid q ce hq (Smap.lookupE_mem q _ ce hl)

/-- Either `altMax` is zero, or it is attained at some entry with another
key. -/
theorem altMaxCases (e : Exposure) (cid : Nat) :
    e.altMax cid = 0 ∨ ∃ q ce, q ≠ cid ∧ (q, ce) ∈ e.conditional.entries ∧
      e.altMax cid = ce.exposure - ce.negExposure := by
  unfold Exposure.altMax
  set v := ((((e.conditional.entries.filter (fun p => p.1 ≠ cid)).map
    (fun p => p.2.exposure - p.2.negExposure)).max?).getD 0) with hv
  rcases le_or_lt v 0 with h | h
  · left
    exact max_eq_left h
  · right
    have hmax : max 0 v = v := max_eq_right (le_of_lt h)
    have hvmem : v ∈ (e.conditional.entries.filter (fun p => p.1 ≠ cid)).map
        (fun p => p.2.exposure - p.2.negExposure) := by
      rw [hv]
      exact maxDMem _ (by rw [← hv]; exact ne_of_gt h)
    rcases List.mem_map.mp hvmem with ⟨p, hp, hpv⟩
    rcases List.mem_filter.mp hp with ⟨hpmem, hpne⟩
    exact ⟨p.1, p.2, by simpa using hpne, by simpa using hpmem, by rw [hmax, ← hpv]⟩

end ExposureValueLemmas

end Lazyhack

namespace Lazyhack

section SmapFilterSum

variable {α β : Type} [LinearOrder α] [DecidableEq α] [KeyLtB α]

theorem Smap.filterNeModifyE (k : α) (f : β → β) (l : List (α × β)) :
    (Smap.modifyE k f l).filter (fun p => p.1 ≠ k) =
      l.filter (fun p => p.1 ≠ k) := by
  induction l with
  | nil => rfl
  | cons hd tl ih =>
    obtain ⟨a, b⟩ := hd
    by_cases hk : k = a
    · subst hk
      have hm : Smap.modifyE k f ((k, b) :: tl) = (k, f b) :: tl := by
        simp [Smap.modifyE]
      have hd1 : (decide (((k, f b) : α × β).1 ≠ k)) = false := by simp
      have hd2 : (decide (((k, b) : α × β).1 ≠ k)) = false := by simp
      rw [hm, List.filter_cons, List.filter_cons, hd1]
      simp
    · have hak : (decide (((a, b) : α × β).1 ≠ k)) = true := by
        simp
        exact fun hh => hk hh.symm
      have hm : Smap.modifyE k f ((a, b) :: tl) = (a, b) :: Smap.modifyE k f tl := by
        simp [Smap.modifyE, hk]
      rw [hm, List.filter_cons, List.filter_cons, hak]
      simp only [if_true]
      rw [ih]

theorem Smap.filterNeInsertE (k : α) (v : β) (l : List (α × β)) :
    (Smap.insertE k v l).filter (fun p => p.1 ≠ k) =
      l.filter (fun p => p.1 ≠ k) := by
  induction l with
  | nil =>
    have hd1 : (decide (((k, v) : α × β).1 ≠ k)) = false := by simp
    simp only [Smap.insertE, List.filter_cons, hd1]
    rfl
  | cons hd tl ih =>
    obtain ⟨a, b⟩ := hd
    by_cases hlt : KeyLtB.ltB k a
    · have hm : Smap.insertE k v ((a, b) :: tl) = (k, v) :: (a, b) :: tl := by
        simp [Smap.insertE, hlt]
      have hd1 : (decide (((k, v) : α × β).1 ≠ k)) = false := by simp
      rw [hm, List.filter_cons, hd1]
      simp
    · by_cases hk : k = a
      · subst hk
        have hm : Smap.insertE k v ((k, b) :: tl) = (k, v) :: tl := by
          simp [Smap.insertE, hlt]
        have hd1 : (decide (((k, v) : α × β).1 ≠ k)) = false := by simp
        have hd2 : (decide (((k, b) : α × β).1 ≠ k)) = false := by simp
        rw [hm, List.filter_cons, List.filter_cons, hd1]
        simp
      · have hak : (decide (((a, b) : α × β).1 ≠ k)) = true := by
          simp
          exact fun hh => hk hh.symm
        have hm : Smap.insertE k v ((a, b) :: tl) = (a, b) :: Smap.insertE k v tl := by
          simp [Smap.insertE, hlt, hk]
        rw [hm, List.filter_cons, List.filter_cons, hak]
        simp only [if_true]
        rw [ih]

theorem Smap.sumModifyE (k : α) (f : β → β) (g : β → Int) (l : List (α × β)) (b : β)
    (hb : Smap.lookupE k l = some b) :
    ((Smap.modifyE k f l).map (fun p => g p.2)).sum =
      (l.map (fun p => g p.2)).sum + (g (f b) - g b) := by
  induction l with
  | nil => simp [Smap.lookupE] at hb
  | cons hd tl ih =>
    obtain ⟨a, c⟩ := hd
    by_cases hk : k = a
    · subst hk
      have hb' : c = b := by
        have : Smap.lookupE k ((k, c) :: tl) = some c := by simp [Smap.lookupE]
        rw [this] at hb
        exact Option.some.inj hb
      subst hb'
      have hm : Smap.modifyE k f ((k, c) :: tl) = (k, f c) :: tl := by
        simp [Smap.modifyE]
      rw [hm]
      simp only [List.map_cons, List.sum_cons]
      ring
    · have hb' : Smap.lookupE k tl = some b := by
        have : Smap.lookupE k ((a, c) :: tl) = Smap.lookupE k tl := by
          simp [Smap.lookupE, hk]
        rw [this] at hb
        exact hb
      have hm : Smap.modifyE k f ((a, c) :: tl) = (a, c) :: Smap.modifyE k f tl := by
        simp [Smap.modifyE, hk]
      rw [hm]
      simp only [List.map_cons, List.sum_cons, ih hb']
      ring

theorem Smap.sumInsertE (k : α) (v : β) (g : β → Int) (l : List (α × β))
    (habs : Smap.lookupE k l = none) :
    ((Smap.insertE k v l).map (fun p => g p.2)).sum =
      (l.map (fun p => g p.2)).sum + g v := by
  induction l with
  | nil => simp [Smap.insertE]
  | cons hd tl ih =>
    obtain ⟨a, c⟩ := hd
    by_cases hlt : KeyLtB.ltB k a
    · have hm : Smap.insertE k v ((a, c) :: tl) = (k, v) :: (a, c) :: tl := by
        simp [Smap.insertE, hlt]
      rw [hm]
      simp only [List.map_cons, List.sum_cons]
      ring
    · by_cases hk : k = a
      · subst hk
        have : Smap.lookupE k ((k, c) :: tl) = some c := by simp [Smap.lookupE]
        rw [this] at habs
        exact Option.noConfusion habs
      · have habs' : Smap.lookupE k tl = none := by
          have : Smap.lookupE k ((a, c) :: tl) = Smap.lookupE k tl := by
            simp [Smap.lookupE, hk]
          rw [this] at habs
          exact habs
        have hm : Smap.insertE k v ((a, c) :: tl) = (a, c) :: Smap.insertE k v tl := by
          simp [Smap.insertE, hlt, hk]
        rw [hm]
        simp only [List.map_cons, List.sum_cons, ih habs']
        ring

end SmapFilterSum

end Lazyhack

namespace Lazyhack

section ExposureUpdateLemmas

theorem lookupAddExposureSelf (e : Exposure) (c : Nat) (d : Price) :
    (e.addExposure c d).conditional.lookup c =
      some ⟨e.exposure c + d, e.negExposure c⟩ := by
  unfold Exposure.addExposure
  rw [Smap.lookup_upsert, if_pos rfl]
  cases hl : e.conditional.lookup c with
  | some b =>
    simp only [Exposure.exposure, Exposure.negExposure, Exposure.contractExposure, hl,
      Option.getD_some]
  | none =>
    simp only [Exposure.exposure, Exposure.negExposure, Exposure.contractExposure, hl,
      Option.getD_none, ContractExposure.mkExposure, ContractExposure.zero]
    norm_num

theorem lookupAddExposureOther (e : Exposure) (c : Nat) (d : Price) (q : Nat)
    (hq : q ≠ c) :
    (e.addExposure c d).conditional.lookup q = e.conditional.lookup q := by
  unfold Exposure.addExposure
  rw [Smap.lookup_upsert, if_neg hq]

theorem lookupAddNegExposureSelf (e : Exposure) (c : Nat) (d : Price) :
    (e.addNegExposure c d).conditional.lookup c =
      some ⟨e.exposure c, e.negExposure c + d⟩ := by
  unfold Exposure.addNegExposure
  rw [Smap.lookup_upsert, if_pos rfl]
  cases hl : e.conditional.lookup c with
  | some b =>
    simp only [Exposure.exposure, Exposure.negExposure, Exposure.contractExposure, hl,
      Option.getD_some]
  | none =>
    simp only [Exposure.exposure, Exposure.negExposure, Exposure.contractExposure, hl,
      Option.getD_none, ContractExposure.mkNegExposure, ContractExposure.zero]
    norm_num

theorem lookupAddNegExposureOther (e : Exposure) (c : Nat) (d : Price) (q : Nat)
    (hq : q ≠ c) :
    (e.addNegExposure c d).conditional.lookup q = e.conditional.lookup q := by
  unfold Exposure.addNegExposure
  rw [Smap.lookup_upsert, if_neg hq]

theorem expvAddExposure (e : Exposure) (c : Nat) (d : Price) (q : Nat) :
    (e.addExposure c d).exposure q = e.exposure q + (if q = c then d else 0) := by
  by_cases hq : q = c
  · subst hq
    unfold Exposure.exposure Exposure.contractExposure
    rw [lookupAddExposureSelf]
    simp [Exposure.exposure, Exposure.contractExposure]
  · unfold Exposure.exposure Exposure.contractExposure
    rw [lookupAddExposureOther e c d q hq, if_neg hq]
    simp

theorem negvAddExposure (e : Exposure) (c : Nat) (d : Price) (q : Nat) :
    (e.addExposure c d).negExposure q = e.negExposure q := by
  by_cases hq : q = c
  · subst hq
    unfold Exposure.negExposure Exposure.contractExposure
    rw [lookupAddExposureSelf]
    simp [Exposure.negExposure, Exposure.contractExposure]
  · unfold Exposure.negExposure Exposure.contractExposure
    rw [lookupAddExposureOther e c d q hq]

theorem expvAddNegExposure (e : Exposure) (c : Nat) (d : Price) (q : Nat) :
    (e.addNegExposure c d).exposure q = e.exposure q := by
  by_cases hq : q = c
  · subst hq
    unfold Exposure.exposure Exposure.contractExposure
    rw [lookupAddNegExposureSelf]
    simp [Exposure.exposure, Exposure.contractExposure]
  · unfold Exposure.exposure Exposure.contractExposure
    rw [lookupAddNegExposureOther e c d q hq]

theorem negvAddNegExposure (e : Exposure) (c : Nat) (d : Price) (q : Nat) :
    (e.addNegExposure c d).negExposure q = e.negExposure q + (if q = c then d else 0) := by
  by_cases hq : q = c
  · subst hq
    unfold Exposure.negExposure Exposure.contractExposure
    rw [lookupAddNegExposureSelf]
    simp [Exposure.negExposure, Exposure.contractExposure]
  · unfold Exposure.negExposure Exposure.contractExposure
    rw [lookupAddNegExposureOther e c d q hq, if_neg hq]
    simp

theorem uncondAddExposure (e : Exposure) (c : Nat) (d : Price) :
    (e.addExposure c d).unconditional = e.unconditional := rfl

theorem uncondAddNegExposure (e : Exposure) (c : Nat) (d : Price) :
    (e.addNegExposure c d).unconditional = e.unconditional := rfl

theorem valuesSumAsEntries (s : Smap Nat ContractExposure) :
    (s.values.map ContractExposure.negExposure).sum =
      (s.entries.map (fun p => p.2.negExposure)).sum := by
  unfold Smap.values
  rw [List.map_map]
  rfl

theorem tnegAddExposure (e : Exposure) (c : Nat) (d : Price) :
    (e.addExposure c d).totalNegExposure = e.totalNegExposure := by
  unfold Exposure.totalNegExposure
  rw [uncondAddExposure]
  congr 1
  rw [valuesSumAsEntries, valuesSumAsEntries]
  unfold Exposure.addExposure Smap.upsert
  cases hl : e.conditional.lookup c with
  | some b =>
    have := Smap.sumModifyE c (fun ce => { ce with exposure := ce.exposure + d })
      (fun ce => ce.negExposure) e.conditional.entries b hl
    simp only [Smap.modify] at this ⊢
    rw [this]
    simp
  | none =>
    have := Smap.sumInsertE c (ContractExposure.mkExposure d)
      (fun ce => ce.negExposure) e.conditional.entries hl
    simp only [Smap.insert] at this ⊢
    rw [this]
    simp [ContractExposure.mkExposure]

theorem tnegAddNegExposure (e : Exposure) (c : Nat) (d : Price) :
    (e.addNegExposure c d).totalNegExposure = e.totalNegExposure + d := by
  unfold Exposure.totalNegExposure
  rw [uncondAddNegExposure]
  rw [valuesSumAsEntries, valuesSumAsEntries]
  unfold Exposure.addNegExposure Smap.upsert
  cases hl : e.conditional.lookup c with
  | some b =>
    have := Smap.sumModifyE c (fun ce => { ce with negExposure := ce.negExposure + d })
      (fun ce => ce.negExposure) e.conditional.entries b hl
    simp only [Smap.modify] at this ⊢
    rw [this]
    ring
  | none =>
    have := Smap.sumInsertE c (ContractExposure.mkNegExposure d)
      (fun ce => ce.negExposure) e.conditional.entries hl
    simp only [Smap.insert] at this ⊢
    rw [this]
    simp only [ContractExposure.mkNegExposure]
    ring

theorem altMaxSelfAddExposure (e : Exposure) (c : Nat) (d : Price) :
    (e.addExposure c d).altMax c = e.altMax c := by
  unfold Exposure.altMax Exposure.addExposure Smap.upsert
  cases hl : e.conditional.lookup c with
  | some b =>
    simp only [Smap.modify]
    rw [Smap.filterNeModifyE]
  | none =>
    simp only [Smap.insert]
    rw [Smap.filterNeInsertE]

theorem altMaxSelfAddNegExposure (e : Exposure) (c : Nat) (d : Price) :
    (e.addNegExposure c d).altMax c = e.altMax c := by
  unfold Exposure.altMax Exposure.addNegExposure Smap.upsert
  cases hl : e.conditional.lookup c with
  | some b =>
    simp only [Smap.modify]
    rw [Smap.filterNeModifyE]
  | none =>
    simp only [Smap.insert]
    rw [Smap.filterNeInsertE]

end ExposureUpdateLemmas

end Lazyhack

namespace Lazyhack

section SortedKeys

variable {α β : Type} [LinearOrder α] [DecidableEq α] [KeyLtB α]

/-- Well-formedness of a map: strictly ascending keys (what `BTreeMap`
guarantees; holds for every map the program builds). -/
def Smap.Wf (s : Smap α β) : Prop :=
  List.Pairwise (· < ·) (s.entries.map Prod.fst)

theorem Smap.wfEmpty : (Smap.empty : Smap α β).Wf := by
  simp [Smap.Wf, Smap.empty]

theorem Smap.keysModifyE (k : α) (f : β → β) (l : List (α × β)) :
    (Smap.modifyE k f l).map Prod.fst = l.map Prod.fst := by
  induction l with
  | nil => rfl
  | cons hd tl ih =>
    obtain ⟨a, b⟩ := hd
    by_cases hk : k = a
    · subst hk
      simp [Smap.modifyE]
    · simp [Smap.modifyE, hk, ih]

theorem Smap.wfModify (s : Smap α β) (k : α) (f : β → β) (h : s.Wf) :
    (s.modify k f).Wf := by
  unfold Smap.Wf at h ⊢
  unfold Smap.modify
  rw [Smap.keysModifyE]
  exact h

theorem Smap.memKeysInsertE (k : α) (v : β) (l : List (α × β)) (x : α)
    (hx : x ∈ (Smap.insertE k v l).map Prod.fst) :
    x = k ∨ x ∈ l.map Prod.fst := by
  rcases List.mem_map.mp hx with ⟨p, hp, hpx⟩
  rcases Smap.mem_insertE k v l p hp with h | h
  · right; exact List.mem_map.mpr ⟨p, h, hpx⟩
  · left; rw [← hpx, h]

theorem Smap.wfInsertE (k : α) (v : β) (l : List (α × β))
    (h : List.Pairwise (· < ·) (l.map Prod.fst)) :
    List.Pairwise (· < ·) ((Smap.insertE k v l).map Prod.fst) := by
  induction l with
  | nil => simp [Smap.insertE]
  | cons hd tl ih =>
    obtain ⟨a, b⟩ := hd
    simp only [List.map_cons, List.pairwise_cons] at h
    obtain ⟨ha, ht⟩ := h
    by_cases hlt : KeyLtB.ltB k a
    · have hka : k < a := (KeyLtB.ltB_iff k a).mp hlt
      have hm : Smap.insertE k v ((a, b) :: tl) = (k, v) :: (a, b) :: tl := by
        simp [Smap.insertE, hlt]
      rw [hm]
      simp only [List.map_cons, List.pairwise_cons]
      refine ⟨?_, ?_, ht⟩
      · intro x hx
        rcases List.mem_cons.mp hx with h' | h'
        · rw [h']; exact hka
        · exact lt_trans hka (ha x h')
      · exact ha
    · by_cases hk : k = a
      · subst hk
        have hm : Smap.insertE k v ((k, b) :: tl) = (k, v) :: tl := by
          simp [Smap.insertE, hlt]
        rw [hm]
        simp only [List.map_cons, List.pairwise_cons]
        exact ⟨ha, ht⟩
      · have hak : a < k := by
          rcases lt_trichotomy k a with h' | h' | h'
          · exact absurd ((KeyLtB.ltB_iff k a).mpr h' : _) (by simpa using hlt)
          · exact absurd h' hk
          · exact h'
        have hm : Smap.insertE k v ((a, b) :: tl) = (a, b) :: Smap.insertE k v tl := by
          simp [Smap.insertE, hlt, hk]
        rw [hm]
        simp only [List.map_cons, List.pairwise_cons]
        refine ⟨?_, ih ht⟩
        intro x hx
        rcases Smap.memKeysInsertE k v tl x hx with h' | h'
        · rw [h']; exact hak
        · exact ha x h'

theorem Smap.wfInsert (s : Smap α β) (k : α) (v : β) (h : s.Wf) :
    (s.insert k v).Wf :=
  Smap.wfInsertE k v s.entries h

theorem Smap.wfUpsert (s : Smap α β) (k : α) (f : β → β) (d : β) (h : s.Wf) :
    (s.upsert k f d).Wf := by
  unfold Smap.upsert
  cases s.lookup k with
  | some b => exact Smap.wfModify s k f h
  | none => exact Smap.wfInsert s k d h

theorem Smap.lookupOfMemSorted (l : List (α × β))
    (h : List.Pairwise (· < ·) (l.map Prod.fst)) (k : α) (v : β)
    (hm : (k, v) ∈ l) : Smap.lookupE k l = some v := by
  induction l with
  | nil => simp at hm
  | cons hd tl ih =>
    obtain ⟨a, b⟩ := hd
    simp only [List.map_cons, List.pairwise_cons] at h
    obtain ⟨ha, ht⟩ := h
    rcases List.mem_cons.mp hm with h' | h'
    · have h1 : k = a := congrArg Prod.fst h'
      have h2 : v = b := congrArg Prod.snd h'
      simp only [Smap.lookupE, if_pos h1, h2]
    · have hk : k ∈ tl.map Prod.fst := List.mem_map.mpr ⟨(k, v), h', rfl⟩
      have hak : a < k := ha k hk
      have hne : ¬ k = a := fun hh => absurd (hh ▸ hak) (lt_irrefl k)
      simp only [Smap.lookupE, if_neg hne]
      exact ih ht h'

end SortedKeys

end Lazyhack

namespace Lazyhack

section ClaimC1Counterexample

/-- A reachable trace using only the operations the claim quantifies over:
create contracts "A" and "B", players "X" and "Y", grant credit 1000 to all,
declare ranges X:(20,40) and Y:(50,70) on both contracts, run one session
(which trades 18 units on "A" and 4 units on "B", exhausting the credit),
then resolve "A" as true. -/
def scenarioC1 : Except RunErr Market := do
  let m := Market.new
  let m ← (m.newContract "A").mapError RunErr.panic
  let m ← (m.newContract "B").mapError RunErr.panic
  let m ← (m.newPlayer "X").mapError RunErr.panic
  let m ← (m.newPlayer "Y").mapError RunErr.panic
  let m := m.incrementCredit 1000
  let m ← (m.playerRanges "X" [("A", 20, 40), ("B", 20, 40)]).mapError RunErr.panic
  let m ← (m.playerRanges "Y" [("A", 50, 70), ("B", 50, 70)]).mapError RunErr.panic
  let r ← m.session 10
  let m := r.1
  let m ← (m.contractOutcome "A" true).mapError RunErr.panic
  pure m

/-- The market at the end of the C1 trace. -/
def mC1r : Market := okD scenarioC1 Market.new

/-- Claim C1 counterexample: the credit bound does NOT hold at every reachable
state. In the trace `scenarioC1` every operation succeeds; the session trades
"B" first (18 units: If("B") 990 and Not("B") 810 between X and Y), then "A"
(4 units: If("A") 220 and Not("A") 180), and resolving "A" true turns X's
If("A") 220 into an unconditional debt while voiding the Not("A") 180 X holds.
X's worst-case exposure to the still-open contract "B" is then 220 + 990 =
1210, exceeding X's credit limit of 1000: resolution can break the bound that
the in-session credit checks enforced before resolution. -/
theorem credit_bound_counterexample :
    scenarioC1 = .ok mC1r ∧
    mC1r.ious = [⟨0, 1, .unknown (.ifc 1), 18 * 55⟩, ⟨1, 0, .unknown (.notc 1), 18 * 45⟩,
                 ⟨0, 1, .tru (.ifc 0), 4 * 55⟩, ⟨1, 0, .void (.notc 0), 4 * 45⟩] ∧
    (mC1r.getPlayer 0).creditLimit = 1000 ∧
    (mC1r.calcExposure 0).totalExposureToContract 1 = 1210 ∧
    ¬ ((mC1r.calcExposure 0).totalExposureToContract 1 ≤ (mC1r.getPlayer 0).creditLimit) := by
  decide

end ClaimC1Counterexample

end Lazyhack

namespace Lazyhack

section UpsertFilterMem

variable {α β : Type} [LinearOrder α] [DecidableEq α] [KeyLtB α]

theorem Smap.filterNeUpsert (s : Smap α β) (k : α) (f : β → β) (d : β) :
    (s.upsert k f d).entries.filter (fun p => p.1 ≠ k) =
      s.entries.filter (fun p => p.1 ≠ k) := by
  unfold Smap.upsert
  cases s.lookup k with
  | some b =>
    simp only [Smap.modify]
    exact Smap.filterNeModifyE k f s.entries
  | none =>
    simp only [Smap.insert]
    exact Smap.filterNeInsertE k d s.entries

theorem Smap.memNeUpsert (s : Smap α β) (k : α) (f : β → β) (d : β)
    (q : α) (v : β) (hq : q ≠ k)
    (hm : (q, v) ∈ (s.upsert k f d).entries) : (q, v) ∈ s.entries := by
  have h1 : (q, v) ∈ (s.upsert k f d).entries.filter (fun p => p.1 ≠ k) :=
    List.mem_filter.mpr ⟨hm, by simpa using hq⟩
  rw [Smap.filterNeUpsert] at h1
  exact (List.mem_filter.mp h1).1

end UpsertFilterMem

section ExposurePairLemmas

theorem wfAddExposure (e : Exposure) (c : Nat) (d : Price) (hw : e.conditional.Wf) :
    (e.addExposure c d).conditional.Wf :=
  Smap.wfUpsert e.conditional c _ _ hw

theorem wfAddNegExposure (e : Exposure) (c : Nat) (d : Price) (hw : e.conditional.Wf) :
    (e.addNegExposure c d).conditional.Wf :=
  Smap.wfUpsert e.conditional c _ _ hw

theorem memNeAddExposure (e : Exposure) (c : Nat) (d : Price) (q : Nat)
    (v : ContractExposure) (hq : q ≠ c)
    (hm : (q, v) ∈ (e.addExposure c d).conditional.entries) :
    (q, v) ∈ e.conditional.entries :=
  Smap.memNeUpsert e.conditional c _ _ q v hq hm

theorem memNeAddNegExposure (e : Exposure) (c : Nat) (d : Price) (q : Nat)
    (v : ContractExposure) (hq : q ≠ c)
    (hm : (q, v) ∈ (e.addNegExposure c d).conditional.entries) :
    (q, v) ∈ e.conditional.entries :=
  Smap.memNeUpsert e.conditional c _ _ q v hq hm

/-- With sorted keys, an entry of the conditional map carries exactly the
looked-up per-contract values. -/
theorem valOfMemWf (e : Exposure) (hw : e.conditional.Wf) (q : Nat)
    (ce : ContractExposure) (hm : (q, ce) ∈ e.conditional.entries) :
    e.exposure q = ce.exposure ∧ e.negExposure q = ce.negExposure := by
  have hl : e.conditional.lookup q = some ce :=
    Smap.lookupOfMemSorted e.conditional.entries hw q ce hm
  constructor <;>
    simp [Exposure.exposure, Exposure.negExposure, Exposure.contractExposure, hl]

end ExposurePairLemmas

end Lazyhack

namespace Lazyhack

section TradePreservation

/-- Buyer side of one trade: the buyer issues a Not(c) IOU of `a` and receives
an If(c) IOU of `b` (so `exposure c` drops by `b`, `neg_exposure c` grows by
`a`).  If the buyer's worst-case bounds held before and the credit check left
room for `a` on `total_exposure_to_contract_neg c`, they hold after. -/
theorem exposureInvBuyer (e : Exposure) (c : Nat) (a b L : Price)
    (hw : e.conditional.Wf) (hb : 0 ≤ b)
    (hinv : ∀ q, e.totalExposureToContract q ≤ L ∧ e.totalExposureToContractNeg q ≤ L)
    (hroom : e.totalExposureToContractNeg c + a ≤ L) :
    ∀ q, ((e.addExposure c (-b)).addNegExposure c a).totalExposureToContract q ≤ L ∧
      ((e.addExposure c (-b)).addNegExposure c a).totalExposureToContractNeg q ≤ L := by
  intro q
  have hw1 : (e.addExposure c (-b)).conditional.Wf := wfAddExposure e c (-b) hw
  have hw2 : ((e.addExposure c (-b)).addNegExposure c a).conditional.Wf :=
    wfAddNegExposure _ c a hw1
  have hexp : ∀ r, ((e.addExposure c (-b)).addNegExposure c a).exposure r =
      e.exposure r + (if r = c then -b else 0) := by
    intro r
    rw [expvAddNegExposure, expvAddExposure]
  have hneg : ∀ r, ((e.addExposure c (-b)).addNegExposure c a).negExposure r =
      e.negExposure r + (if r = c then a else 0) := by
    intro r
    rw [negvAddNegExposure, negvAddExposure]
  have htneg : ((e.addExposure c (-b)).addNegExposure c a).totalNegExposure =
      e.totalNegExposure + a := by
    rw [tnegAddNegExposure, tnegAddExposure]
  have haltc : ((e.addExposure c (-b)).addNegExposure c a).altMax c = e.altMax c := by
    rw [altMaxSelfAddNegExposure, altMaxSelfAddExposure]
  have hroom' : e.totalNegExposure + e.altMax c + a ≤ L := by
    rw [tnegSplit] at hroom
    linarith
  constructor
  · rw [totDecompose, htneg, hexp, hneg]
    by_cases hq : q = c
    · simp only [if_pos hq]
      have h1 := (hinv c).1
      rw [totDecompose] at h1
      rw [hq]
      linarith
    · simp only [if_neg hq]
      have h1 : e.exposure q - e.negExposure q ≤ e.altMax c := altMaxLeLookup e c q hq
      linarith
  · rw [tnegSplit, htneg]
    by_cases hq : q = c
    · rw [hq, haltc]
      linarith
    · rcases altMaxCases ((e.addExposure c (-b)).addNegExposure c a) q with
        h0 | ⟨q0, ce, hq0, hmem, hval⟩
      · rw [h0]
        have h2 := altMaxNonneg e c
        linarith
      · rw [hval]
        by_cases hq0c : q0 = c
        · have hv := valOfMemWf _ hw2 q0 ce hmem
          have hce1 : ce.exposure = e.exposure q0 + -b := by
            rw [← hv.1, hexp, if_pos hq0c]
          have hce2 : ce.negExposure = e.negExposure q0 + a := by
            rw [← hv.2, hneg, if_pos hq0c]
          have h1 := (hinv q0).1
          rw [totDecompose] at h1
          rw [hce1, hce2]
          linarith
        · have hmem' : (q0, ce) ∈ e.conditional.entries :=
            memNeAddExposure e c (-b) q0 ce hq0c
              (memNeAddNegExposure (e.addExposure c (-b)) c a q0 ce hq0c hmem)
          have h1 : ce.exposure - ce.negExposure ≤ e.altMax c :=
            altMaxLeEntry e c q0 ce hq0c hmem'
          linarith

/-- Seller side of one trade: the seller issues an If(c) IOU of `b` and
receives a Not(c) IOU of `a` (so `exposure c` grows by `b`, `neg_exposure c`
drops by `a`).  If the seller's worst-case bounds held before and the credit
check left room for `b` on `total_exposure_to_contract c`, they hold after. -/
theorem exposureInvSeller (e : Exposure) (c : Nat) (a b L : Price)
    (hw : e.conditional.Wf) (ha : 0 ≤ a)
    (hinv : ∀ q, e.totalExposureToContract q ≤ L ∧ e.totalExposureToContractNeg q ≤ L)
    (hroom : e.totalExposureToContract c + b ≤ L) :
    ∀ q, ((e.addExposure c b).addNegExposure c (-a)).totalExposureToContract q ≤ L ∧
      ((e.addExposure c b).addNegExposure c (-a)).totalExposureToContractNeg q ≤ L := by
  intro q
  have hexp : ∀ r, ((e.addExposure c b).addNegExposure c (-a)).exposure r =
      e.exposure r + (if r = c then b else 0) := by
    intro r
    rw [expvAddNegExposure, expvAddExposure]
  have hneg : ∀ r, ((e.addExposure c b).addNegExposure c (-a)).negExposure r =
      e.negExposure r + (if r = c then -a else 0) := by
    intro r
    rw [negvAddNegExposure, negvAddExposure]
  have htneg : ((e.addExposure c b).addNegExposure c (-a)).totalNegExposure =
      e.totalNegExposure + -a := by
    rw [tnegAddNegExposure, tnegAddExposure]
  have haltc : ((e.addExposure c b).addNegExposure c (-a)).altMax c = e.altMax c := by
    rw [altMaxSelfAddNegExposure, altMaxSelfAddExposure]
  have hroom' : e.totalNegExposure + (e.exposure c - e.negExposure c) + b ≤ L := by
    have := hroom
    rw [totDecompose] at this
    linarith
  constructor
  · rw [totDecompose, htneg, hexp, hneg]
    by_cases hq : q = c
    · simp only [if_pos hq]
      rw [hq]
      linarith
    · simp only [if_neg hq]
      have h1 := (hinv q).1
      rw [totDecompose] at h1
      linarith
  · rw [tnegSplit, htneg]
    by_cases hq : q = c
    · rw [hq, haltc]
      have h2 := (hinv c).2
      rw [tnegSplit] at h2
      linarith
    · rcases altMaxCases ((e.addExposure c b).addNegExposure c (-a)) q with
        h0 | ⟨q0, ce, hq0, hmem, hval⟩
      · rw [h0]
        have h2 := (hinv q).2
        rw [tnegSplit] at h2
        have h3 := altMaxNonneg e q
        linarith
      · rw [hval]
        by_cases hq0c : q0 = c
        · have hw1 : (e.addExposure c b).conditional.Wf := wfAddExposure e c b hw
          have hw2 : ((e.addExposure c b).addNegExposure c (-a)).conditional.Wf :=
            wfAddNegExposure _ c (-a) hw1
          have hv := valOfMemWf _ hw2 q0 ce hmem
          have hce1 : ce.exposure = e.exposure q0 + b := by
            rw [← hv.1, hexp, if_pos hq0c]
          have hce2 : ce.negExposure = e.negExposure q0 + -a := by
            rw [← hv.2, hneg, if_pos hq0c]
          rw [hce1, hce2, hq0c]
          linarith
        · have hmem' : (q0, ce) ∈ e.conditional.entries :=
            memNeAddExposure e c b q0 ce hq0c
              (memNeAddNegExposure (e.addExposure c b) c (-a) q0 ce hq0c hmem)
          have hv := valOfMemWf e hw q0 ce hmem'
          have h1 := (hinv q0).1
          rw [totDecompose] at h1
          rw [hv.1, hv.2] at h1
          linarith

end TradePreservation

end Lazyhack

namespace Lazyhack

section BookStructure

theorem memIsort {γ : Type} (le : γ → γ → Bool) (z : γ) :
    ∀ l : List γ, z ∈ isort le l → z ∈ l := by
  intro l
  induction l with
  | nil => intro h; simpa [isort] using h
  | cons x t ih =>
    intro h
    unfold isort at h
    rcases memInsertSorted le x z (isort le t) h with h' | h'
    · exact h' ▸ List.mem_cons_self x t
    · exact List.mem_cons_of_mem x (ih h')

theorem insertENeNil {α β : Type} [LinearOrder α] [DecidableEq α] [KeyLtB α]
    (k : α) (v : β) (l : List (α × β)) : Smap.insertE k v l ≠ [] := by
  cases l with
  | nil => simp [Smap.insertE]
  | cons hd tl =>
    obtain ⟨a, b⟩ := hd
    unfold Smap.insertE
    split
    · simp
    · split
      · simp
      · simp

theorem foldlPreserve {σ γ : Type} (P : σ → Prop) (f : σ → γ → σ) (Q : γ → Prop) :
    ∀ (l : List γ) (s : σ), P s → (∀ x ∈ l, Q x) →
      (∀ s x, P s → Q x → P (f s x)) → P (l.foldl f s) := by
  intro l
  induction l with
  | nil =>
    intro s hs _ _
    exact hs
  | cons x t ih =>
    intro s hs hq hstep
    simp only [List.foldl_cons]
    exact ih (f s x) (hstep s x hs (hq x (List.mem_cons_self x t)))
      (fun y hy => hq y (List.mem_cons_of_mem x hy)) hstep

/-- A buy-side book entry is honest: the participant is registered and bids at
the low end of their declared range for that contract. -/
def BuyLevelOk (m : Market) (cid : Nat) (lv : Price) (pid : Nat) : Prop :=
  pid ∈ m.playerNames.values ∧
  ∃ hi, (m.getPlayer pid).ranges.lookup cid = some (lv, hi)

/-- A sell-side book entry is honest: the participant is registered and asks
at the high end of their declared range for that contract. -/
def SellLevelOk (m : Market) (cid : Nat) (lv : Price) (pid : Nat) : Prop :=
  pid ∈ m.playerNames.values ∧
  ∃ lo, (m.getPlayer pid).ranges.lookup cid = some (lo, lv)

/-- Structure of one contract's book as built by `find_offers`: every price
level is a nonempty map of honest entries. -/
def COOk (m : Market) (cid : Nat) (co : ContractOffers) : Prop :=
  (∀ lv mp, (lv, mp) ∈ co.buy.entries →
    mp.entries ≠ [] ∧ ∀ pid amt, (pid, amt) ∈ mp.entries → BuyLevelOk m cid lv pid) ∧
  (∀ lv mp, (lv, mp) ∈ co.sell.entries →
    mp.entries ≠ [] ∧ ∀ pid amt, (pid, amt) ∈ mp.entries → SellLevelOk m cid lv pid)

/-- Structure of the whole book. -/
def OffersOk (m : Market) (o : Offers) : Prop :=
  ∀ cid co, (cid, co) ∈ o.offers.entries → COOk m cid co

theorem offersNewOk (m : Market) : OffersOk m Offers.new := by
  intro cid co hmem
  simp [Offers.new, Smap.empty] at hmem

theorem addBuyOfferOk (m : Market) (o : Offers) (cid pid : Nat) (lo amt : Price)
    (ho : OffersOk m o) (hp : BuyLevelOk m cid lo pid) :
    OffersOk m (o.addBuyOffer cid pid lo amt) := by
  intro cid0 co0 hmem
  unfold Offers.addBuyOffer at hmem
  simp only at hmem
  rcases Smap.mem_upsert _ _ _ _ _ hmem with hold | hnew | ⟨co1, hl, heq⟩
  · exact ho cid0 co0 hold
  · have hc : cid0 = cid := congrArg Prod.fst hnew
    have he : co0 = { ContractOffers.new with
        buy := Smap.empty.upsert lo (fun mp => mp.insert pid amt)
          (Smap.empty.insert pid amt) } := congrArg Prod.snd hnew
    subst hc
    rw [he]
    constructor
    · intro lv mp hmp
      have hbe : (Smap.empty.upsert lo (fun mp => mp.insert pid amt)
          (Smap.empty.insert pid amt)).entries =
          [(lo, Smap.empty.insert pid amt)] := rfl
      rw [hbe] at hmp
      rcases List.mem_singleton.mp hmp with h'
      have hlv : lv = lo := congrArg Prod.fst h'
      have hmpv : mp = Smap.empty.insert pid amt := congrArg Prod.snd h'
      subst hlv
      rw [hmpv]
      refine ⟨by simp [Smap.insert, Smap.empty, Smap.insertE], ?_⟩
      intro pid0 a0 hmem0
      have : (pid0, a0) ∈ [(pid, amt)] := hmem0
      have h2 := List.mem_singleton.mp this
      have hpid : pid0 = pid := congrArg Prod.fst h2
      rw [hpid]
      exact hp
    · intro lv mp hmp
      simp [ContractOffers.new, Smap.empty] at hmp
  · have hc : cid0 = cid := congrArg Prod.fst heq
    have he : co0 = { co1 with
        buy := co1.buy.upsert lo (fun mp => mp.insert pid amt)
          (Smap.empty.insert pid amt) } := congrArg Prod.snd heq
    subst hc
    have hco1 : COOk m cid0 co1 := ho cid0 co1 (Smap.lookupE_mem _ _ _ hl)
    rw [he]
    constructor
    · intro lv mp hmp
      rcases Smap.mem_upsert _ _ _ _ _ hmp with hold1 | hnew1 | ⟨mp1, hl1, heq1⟩
      · exact hco1.1 lv mp hold1
      · have hlv : lv = lo := congrArg Prod.fst hnew1
        have hmpv : mp = Smap.empty.insert pid amt := congrArg Prod.snd hnew1
        subst hlv
        rw [hmpv]
        refine ⟨by simp [Smap.insert, Smap.empty, Smap.insertE], ?_⟩
        intro pid0 a0 hmem0
        have h2 := List.mem_singleton.mp hmem0
        have hpid : pid0 = pid := congrArg Prod.fst h2
        rw [hpid]
        exact hp
      · have hlv : lv = lo := congrArg Prod.fst heq1
        have hmpv : mp = mp1.insert pid amt := congrArg Prod.snd heq1
        subst hlv
        rw [hmpv]
        have hmp1 := hco1.1 lv mp1 (Smap.lookupE_mem _ _ _ hl1)
        refine ⟨insertENeNil pid amt mp1.entries, ?_⟩
        intro pid0 a0 hmem0
        rcases Smap.mem_insertE _ _ _ _ hmem0 with h' | h'
        · exact hmp1.2 pid0 a0 h'
        · have hpid : pid0 = pid := congrArg Prod.fst h'
          rw [hpid]
          exact hp
    · intro lv mp hmp
      exact hco1.2 lv mp hmp

theorem addSellOfferOk (m : Market) (o : Offers) (cid pid : Nat) (hi amt : Price)
    (ho : OffersOk m o) (hp : SellLevelOk m cid hi pid) :
    OffersOk m (o.addSellOffer cid pid hi amt) := by
  intro cid0 co0 hmem
  unfold Offers.addSellOffer at hmem
  simp only at hmem
  rcases Smap.mem_upsert _ _ _ _ _ hmem with hold | hnew | ⟨co1, hl, heq⟩
  · exact ho cid0 co0 hold
  · have hc : cid0 = cid := congrArg Prod.fst hnew
    have he : co0 = { ContractOffers.new with
        sell := Smap.empty.upsert hi (fun mp => mp.insert pid amt)
          (Smap.empty.insert pid amt) } := congrArg Prod.snd hnew
    subst hc
    rw [he]
    constructor
    · intro lv mp hmp
      simp [ContractOffers.new, Smap.empty] at hmp
    · intro lv mp hmp
      have hbe : (Smap.empty.upsert hi (fun mp => mp.insert pid amt)
          (Smap.empty.insert pid amt)).entries =
          [(hi, Smap.empty.insert pid amt)] := rfl
      rw [hbe] at hmp
      rcases List.mem_singleton.mp hmp with h'
      have hlv : lv = hi := congrArg Prod.fst h'
      have hmpv : mp = Smap.empty.insert pid amt := congrArg Prod.snd h'
      subst hlv
      rw [hmpv]
      refine ⟨by simp [Smap.insert, Smap.empty, Smap.insertE], ?_⟩
      intro pid0 a0 hmem0
      have h2 := List.mem_singleton.mp hmem0
      have hpid : pid0 = pid := congrArg Prod.fst h2
      rw [hpid]
      exact hp
  · have hc : cid0 = cid := congrArg Prod.fst heq
    have he : co0 = { co1 with
        sell := co1.sell.upsert hi (fun mp => mp.insert pid amt)
          (Smap.empty.insert pid amt) } := congrArg Prod.snd heq
    subst hc
    have hco1 : COOk m cid0 co1 := ho cid0 co1 (Smap.lookupE_mem _ _ _ hl)
    rw [he]
    constructor
    · intro lv mp hmp
      exact hco1.1 lv mp hmp
    · intro lv mp hmp
      rcases Smap.mem_upsert _ _ _ _ _ hmp with hold1 | hnew1 | ⟨mp1, hl1, heq1⟩
      · exact hco1.2 lv mp hold1
      · have hlv : lv = hi := congrArg Prod.fst hnew1
        have hmpv : mp = Smap.empty.insert pid amt := congrArg Prod.snd hnew1
        subst hlv
        rw [hmpv]
        refine ⟨by simp [Smap.insert, Smap.empty, Smap.insertE], ?_⟩
        intro pid0 a0 hmem0
        have h2 := List.mem_singleton.mp hmem0
        have hpid : pid0 = pid := congrArg Prod.fst h2
        rw [hpid]
        exact hp
      · have hlv : lv = hi := congrArg Prod.fst heq1
        have hmpv : mp = mp1.insert pid amt := congrArg Prod.snd heq1
        subst hlv
        rw [hmpv]
        have hmp1 := hco1.2 lv mp1 (Smap.lookupE_mem _ _ _ hl1)
        refine ⟨insertENeNil pid amt mp1.entries, ?_⟩
        intro pid0 a0 hmem0
        rcases Smap.mem_insertE _ _ _ _ hmem0 with h' | h'
        · exact hmp1.2 pid0 a0 h'
        · have hpid : pid0 = pid := congrArg Prod.fst h'
          rw [hpid]
          exact hp

end BookStructure

end Lazyhack

namespace Lazyhack

section FindOffersOk

/-- Every registered participant's declared ranges are well-formed: sorted
keys, and every declared range satisfies the `player_ranges` validation
`0 < low < high < 100`. -/
def PlayerRangesOk (m : Market) : Prop :=
  ∀ pid, pid ∈ m.playerNames.values →
    (m.getPlayer pid).ranges.Wf ∧
    ∀ c0 lo hi, (m.getPlayer pid).ranges.lookup c0 = some (lo, hi) →
      0 ≤ lo ∧ lo < hi ∧ hi ≤ 100

theorem findOffersOk (m : Market) (s : SessionSt) (hpr : PlayerRangesOk m) :
    OffersOk m (s.findOffers m) := by
  unfold SessionSt.findOffers
  refine foldlPreserve (OffersOk m) _ (fun entry => entry ∈ m.playerNames.entries)
    m.playerNames.entries Offers.new (offersNewOk m) (fun x hx => hx) ?_
  intro offers entry ho hq
  dsimp only
  refine foldlPreserve (OffersOk m) _
    (fun r => r ∈ (m.getPlayer entry.2).ranges.entries) _ offers ho (fun x hx => hx) ?_
  intro offers1 r ho1 hr
  dsimp only
  have hpid : entry.2 ∈ m.playerNames.values := List.mem_map.mpr ⟨entry, hq, rfl⟩
  obtain ⟨hwf, _⟩ := hpr entry.2 hpid
  have hlook : (m.getPlayer entry.2).ranges.lookup r.1 = some r.2 :=
    Smap.lookupOfMemSorted _ hwf r.1 r.2 (by simpa using hr)
  have hb1 : BuyLevelOk m r.1 r.2.1 entry.2 := ⟨hpid, r.2.2, by rw [hlook]⟩
  have hs1 : SellLevelOk m r.1 r.2.2 entry.2 := ⟨hpid, r.2.1, by rw [hlook]⟩
  by_cases hbuy : m.playerMaxBuyAmount s entry.2 r.1 ≥ 100
  · by_cases hsell : m.playerMaxSellAmount s entry.2 r.1 ≥ 100
    · rw [if_pos hbuy, if_pos hsell]
      exact addSellOfferOk m _ r.1 entry.2 r.2.2 _
        (addBuyOfferOk m _ r.1 entry.2 r.2.1 _ ho1 hb1) hs1
    · rw [if_pos hbuy, if_neg hsell]
      exact addBuyOfferOk m _ r.1 entry.2 r.2.1 _ ho1 hb1
  · by_cases hsell : m.playerMaxSellAmount s entry.2 r.1 ≥ 100
    · rw [if_neg hbuy, if_pos hsell]
      exact addSellOfferOk m _ r.1 entry.2 r.2.2 _ ho1 hs1
    · rw [if_neg hbuy, if_neg hsell]
      exact ho1

end FindOffersOk

end Lazyhack

namespace Lazyhack

section CandidateHelpers

theorem headMem {γ : Type} (l : List γ) (x : γ) (h : l.head? = some x) : x ∈ l := by
  cases l with
  | nil => exact Option.noConfusion h
  | cons a t =>
    have ha : a = x := Option.some.inj h
    rw [← ha]
    exact List.mem_cons_self a t

/-- A populated buy price level lies in `[0, 99]`: it is the low end of some
registered participant's validated range. -/
theorem buyKeyBounds (m : Market) (cid : Nat) (co : ContractOffers)
    (hco : COOk m cid co) (hpr : PlayerRangesOk m) (lv : Price)
    (mp : Smap Nat Price) (hmem : (lv, mp) ∈ co.buy.entries) :
    0 ≤ lv ∧ lv ≤ 99 := by
  obtain ⟨hne, hall⟩ := hco.1 lv mp hmem
  cases hq : mp.entries with
  | nil => exact absurd hq hne
  | cons p t =>
    have hp : (p.1, p.2) ∈ mp.entries := by
      rw [hq]
      simpa using List.mem_cons_self p t
    obtain ⟨hreg, hi, hlook⟩ := hall p.1 p.2 hp
    obtain ⟨_, hb⟩ := hpr p.1 hreg
    obtain ⟨h1, h2, h3⟩ := hb cid lv hi hlook
    have h4 : lv + 1 ≤ hi := Int.add_one_le_of_lt h2
    exact ⟨h1, by linarith⟩

/-- A populated sell price level lies in `[1, 100]`: it is the high end of
some registered participant's validated range. -/
theorem sellKeyBounds (m : Market) (cid : Nat) (co : ContractOffers)
    (hco : COOk m cid co) (hpr : PlayerRangesOk m) (lv : Price)
    (mp : Smap Nat Price) (hmem : (lv, mp) ∈ co.sell.entries) :
    1 ≤ lv ∧ lv ≤ 100 := by
  obtain ⟨hne, hall⟩ := hco.2 lv mp hmem
  cases hq : mp.entries with
  | nil => exact absurd hq hne
  | cons p t =>
    have hp : (p.1, p.2) ∈ mp.entries := by
      rw [hq]
      simpa using List.mem_cons_self p t
    obtain ⟨hreg, lo, hlook⟩ := hall p.1 p.2 hp
    obtain ⟨_, hb⟩ := hpr p.1 hreg
    obtain ⟨h1, h2, h3⟩ := hb cid lo lv hlook
    have h4 : lo + 1 ≤ lv := Int.add_one_le_of_lt h2
    exact ⟨by linarith, h3⟩

/-- A member of the sorted participant list of one level comes from the
level's map, with the participant id in the third component. -/
theorem levelListMem (m : Market) (mp : Smap Nat Price) (x : Price × String × Nat)
    (h : x ∈ isort tripleLe (mp.entries.map
      (fun b => (b.2, (m.getPlayer b.1).name, b.1)))) :
    (x.2.2, x.1) ∈ mp.entries := by
  have h1 := memIsort tripleLe x _ h
  rcases List.mem_map.mp h1 with ⟨b, hb, hbe⟩
  rw [← hbe]
  simpa using hb

end CandidateHelpers

end Lazyhack

namespace Lazyhack

section CandidateFacts

theorem widenLevelsFacts (low0 high0 : Price)
    (bh sh : Option (Price × Smap Nat Price)) (hcross : low0 ≤ high0) :
    ((widenLevels low0 high0 bh sh).1 = low0 ∨
      ∃ p, sh = some p ∧ (widenLevels low0 high0 bh sh).1 = p.1) ∧
    ((widenLevels low0 high0 bh sh).2 = high0 ∨
      ∃ p, bh = some p ∧ (widenLevels low0 high0 bh sh).2 = p.1) ∧
    (widenLevels low0 high0 bh sh).1 ≤ (widenLevels low0 high0 bh sh).2 := by
  cases bh with
  | none =>
    cases sh with
    | none =>
      exact ⟨Or.inl rfl, Or.inl rfl, hcross⟩
    | some nl =>
      simp only [widenLevels]
      by_cases hw : nl.1 < high0
      · rw [if_pos hw]
        exact ⟨Or.inr ⟨nl, rfl, rfl⟩, Or.inl rfl, le_of_lt hw⟩
      · rw [if_neg hw]
        exact ⟨Or.inl rfl, Or.inl rfl, hcross⟩
  | some nh =>
    cases sh with
    | none =>
      simp only [widenLevels]
      by_cases hw : nh.1 > low0
      · rw [if_pos hw]
        exact ⟨Or.inl rfl, Or.inr ⟨nh, rfl, rfl⟩, le_of_lt hw⟩
      · rw [if_neg hw]
        exact ⟨Or.inl rfl, Or.inl rfl, hcross⟩
    | some nl =>
      simp only [widenLevels]
      by_cases hw : nl.1 < nh.1
      · rw [if_pos hw]
        exact ⟨Or.inr ⟨nl, rfl, rfl⟩, Or.inr ⟨nh, rfl, rfl⟩, le_of_lt hw⟩
      · rw [if_neg hw]
        exact ⟨Or.inl rfl, Or.inl rfl, hcross⟩

theorem pickBestMem (m : Market) (mp : Smap Nat Price) (x : Price × String × Nat)
    (h : pickBest m mp = some x) : (x.2.2, x.1) ∈ mp.entries := by
  unfold pickBest at h
  cases hgl : (isort tripleLe (mp.entries.map
      (fun b => (b.2, (m.getPlayer b.1).name, b.1)))).getLast? with
  | none =>
    rw [hgl] at h
    exact Option.noConfusion h
  | some lastB =>
    rw [hgl] at h
    have hx := headMem _ _ h
    exact levelListMem m mp x (List.mem_filter.mp hx).1

/-- Facts about any candidate produced by the per-contract body of
`find_trades`, given an honestly built book: the selected price band lies
strictly inside `(0, 100)` with `low ≤ high`, both parties are registered, and
the buyer and the seller are distinct participants. -/
theorem candidateForFacts (m : Market) (cid : Nat) (co : ContractOffers)
    (hco : COOk m cid co) (hpr : PlayerRangesOk m)
    (cand : TradeCand) (h : SessionSt.candidateFor m cid co = some cand) :
    cand.contractId = cid ∧
    1 ≤ cand.low ∧ cand.low ≤ cand.high ∧ cand.high ≤ 99 ∧
    cand.buyerId ∈ m.playerNames.values ∧ cand.sellerId ∈ m.playerNames.values ∧
    cand.buyerId ≠ cand.sellerId := by
  unfold SessionSt.candidateFor at h
  cases hbuy : co.buy.entries.reverse with
  | nil =>
    rw [hbuy] at h
    exact Option.noConfusion h
  | cons b0 brest =>
    obtain ⟨high0, buyers⟩ := b0
    cases hsell : co.sell.entries with
    | nil =>
      rw [hbuy, hsell] at h
      exact Option.noConfusion h
    | cons s0 srest =>
      obtain ⟨low0, sellers⟩ := s0
      simp only [hbuy, hsell] at h
      by_cases hcross : low0 ≤ high0
      · rw [if_pos hcross] at h
        cases hpb : pickBest m buyers with
        | none =>
          simp only [hpb] at h
          exact Option.noConfusion h
        | some buyer =>
          cases hps : pickBest m sellers with
          | none =>
            simp only [hpb, hps] at h
            exact Option.noConfusion h
          | some seller =>
            simp only [hpb, hps, Option.some.injEq] at h
            have hmemb : (high0, buyers) ∈ co.buy.entries :=
              List.mem_reverse.mp (hbuy ▸ List.mem_cons_self _ brest)
            have hmems : (low0, sellers) ∈ co.sell.entries :=
              hsell ▸ List.mem_cons_self _ srest
            have hbm : (buyer.2.2, buyer.1) ∈ buyers.entries := pickBestMem m buyers buyer hpb
            have hsm : (seller.2.2, seller.1) ∈ sellers.entries := pickBestMem m sellers seller hps
            obtain ⟨hregB, hiB, hlookB⟩ := (hco.1 high0 buyers hmemb).2 buyer.2.2 buyer.1 hbm
            obtain ⟨hregS, loS, hlookS⟩ := (hco.2 low0 sellers hmems).2 seller.2.2 seller.1 hsm
            obtain ⟨hB1, hB2, hB3⟩ := (hpr buyer.2.2 hregB).2 cid high0 hiB hlookB
            obtain ⟨hS1, hS2, hS3⟩ := (hpr seller.2.2 hregS).2 cid loS low0 hlookS
            have hcid : cand.contractId = cid := (congrArg TradeCand.contractId h).symm
            have hlow : cand.low = (widenLevels low0 high0 brest.head? srest.head?).1 :=
              (congrArg TradeCand.low h).symm
            have hhigh : cand.high = (widenLevels low0 high0 brest.head? srest.head?).2 :=
              (congrArg TradeCand.high h).symm
            have hbid : cand.buyerId = buyer.2.2 := (congrArg TradeCand.buyerId h).symm
            have hsid : cand.sellerId = seller.2.2 := (congrArg TradeCand.sellerId h).symm
            obtain ⟨hw1, hw2, hw3⟩ :=
              widenLevelsFacts low0 high0 brest.head? srest.head? hcross
            have hlowpos : 1 ≤ cand.low ∧ cand.low ≤ 100 := by
              rw [hlow]
              rcases hw1 with he | ⟨p, hp, he⟩
              · rw [he]
                exact sellKeyBounds m cid co hco hpr low0 sellers hmems
              · rw [he]
                have hpmem : (p.1, p.2) ∈ co.sell.entries := by
                  have : p ∈ srest := headMem srest p hp
                  have : p ∈ co.sell.entries := by
                    rw [hsell]
                    exact List.mem_cons_of_mem _ this
                  simpa using this
                exact sellKeyBounds m cid co hco hpr p.1 p.2 hpmem
            have hhighpos : 0 ≤ cand.high ∧ cand.high ≤ 99 := by
              rw [hhigh]
              rcases hw2 with he | ⟨p, hp, he⟩
              · rw [he]
                exact buyKeyBounds m cid co hco hpr high0 buyers hmemb
              · rw [he]
                have hpmem : (p.1, p.2) ∈ co.buy.entries := by
                  have h1 : p ∈ brest := headMem brest p hp
                  have h2 : p ∈ co.buy.entries.reverse := by
                    rw [hbuy]
                    exact List.mem_cons_of_mem _ h1
                  simpa using List.mem_reverse.mp h2
                exact buyKeyBounds m cid co hco hpr p.1 p.2 hpmem
            refine ⟨hcid, hlowpos.1, ?_, hhighpos.2, ?_, ?_, ?_⟩
            · rw [hlow, hhigh]
              exact hw3
            · rw [hbid]
              exact hregB
            · rw [hsid]
              exact hregS
            · rw [hbid, hsid]
              intro hbs
              rw [hbs] at hlookB
              rw [hlookB] at hlookS
              have hpair := Option.some.inj hlookS
              have h2 : hiB = low0 := congrArg Prod.snd hpair
              rw [h2] at hB2
              exact absurd hB2 (not_lt.mpr hcross)
      · rw [if_neg hcross] at h
        exact Option.noConfusion h

end CandidateFacts

end Lazyhack

namespace Lazyhack

section FindTradesMem

theorem memTradesFold (m : Market) :
    ∀ (l : List (Nat × ContractOffers)) (acc : List TradeCand) (x : TradeCand),
      x ∈ l.foldl (SessionSt.tradesFold m) acc →
      x ∈ acc ∨ ∃ e, e ∈ l ∧ SessionSt.candidateFor m e.1 e.2 = some x := by
  intro l
  induction l with
  | nil =>
    intro acc x h
    exact Or.inl h
  | cons e0 t ih =>
    intro acc x h
    simp only [List.foldl_cons] at h
    rcases ih _ x h with h1 | ⟨e, he, hce⟩
    · unfold SessionSt.tradesFold at h1
      cases hc : SessionSt.candidateFor m e0.1 e0.2 with
      | some cand =>
        rw [hc] at h1
        rcases List.mem_append.mp h1 with h2 | h2
        · exact Or.inl h2
        · have hx : x = cand := List.mem_singleton.mp h2
          exact Or.inr ⟨e0, List.mem_cons_self _ _, by rw [hc, hx]⟩
      | none =>
        rw [hc] at h1
        exact Or.inl h1
    · exact Or.inr ⟨e, List.mem_cons_of_mem _ he, hce⟩

theorem memFindTrades (m : Market) (s : SessionSt) (offers : Offers) (x : TradeCand)
    (h : x ∈ s.findTrades m offers) :
    ∃ e, e ∈ offers.offers.entries ∧ SessionSt.candidateFor m e.1 e.2 = some x := by
  unfold SessionSt.findTrades at h
  have h1 := List.mem_reverse.mp h
  have h2 := memIsort _ x _ h1
  rcases memTradesFold m _ [] x h2 with h3 | h3
  · simp at h3
  · exact h3

end FindTradesMem

end Lazyhack

namespace Lazyhack

section SessionStepOk

/-- Characterization of a successful matching-loop iteration: the selected
candidate's facts, the sizing arithmetic, the exact shape of the updated
session state, and the passed credit checks. -/
theorem sessionStepOk (m : Market) (s s' : SessionSt) (hpr : PlayerRangesOk m)
    (h : m.sessionStep s = .ok (some s')) :
    ∃ (cand : TradeCand) (units price a b : Price),
      price = Int.tdiv (cand.low + cand.high) 2 ∧
      a = units * price ∧
      b = units * (100 - price) ∧
      1 ≤ price ∧ price ≤ 99 ∧ 0 < units ∧ 0 < a ∧ 0 < b ∧
      a ≤ m.playerMaxBuyAmount s cand.buyerId cand.contractId ∧
      b ≤ m.playerMaxSellAmount s cand.sellerId cand.contractId ∧
      cand.buyerId ∈ m.playerNames.values ∧
      cand.sellerId ∈ m.playerNames.values ∧
      cand.buyerId ≠ cand.sellerId ∧
      s' = (({ s with trades := s.trades ++ [Trade.mk cand.contractId units a] }).pushIou
          ⟨cand.sellerId, cand.buyerId, .unknown (.ifc cand.contractId), b⟩).pushIou
          ⟨cand.buyerId, cand.sellerId, .unknown (.notc cand.contractId), a⟩ ∧
      m.checkCreditFailure s' cand.buyerId = .ok () ∧
      m.checkCreditFailure s' cand.sellerId = .ok () := by
  unfold Market.sessionStep at h
  cases hh : (s.findTrades m (s.findOffers m)).head? with
  | none =>
    simp only [hh] at h
    exact Option.noConfusion (Except.ok.inj h)
  | some cand =>
    simp only [hh] at h
    have hoff := findOffersOk m s hpr
    have hmem : cand ∈ s.findTrades m (s.findOffers m) := by
      cases hft : s.findTrades m (s.findOffers m) with
      | nil => rw [hft] at hh; exact Option.noConfusion hh
      | cons c t =>
        rw [hft] at hh
        have hc : c = cand := Option.some.inj hh
        rw [← hc]
        exact List.mem_cons_self c t
    rcases memFindTrades m s _ cand hmem with ⟨e, hemem, hcf⟩
    obtain ⟨hcid, hlo, hlh, hhi, hregB, hregS, hne⟩ :=
      candidateForFacts m e.1 e.2 (hoff e.1 e.2 (by simpa using hemem)) hpr cand hcf
    set price := Int.tdiv (cand.low + cand.high) 2 with hprice
    have hpr1 : 1 ≤ price ∧ price ≤ 99 := by
      have he : price = (cand.low + cand.high) / 2 := by
        rw [hprice]
        exact Int.tdiv_eq_ediv (by linarith) (by norm_num)
      rw [he]
      have h2 : (2 : Int) ≤ cand.low + cand.high := by
        have h1H : (1 : Int) ≤ cand.high := le_trans hlo hlh
        linarith
      have h198 : cand.low + cand.high ≤ 198 := by linarith [le_trans hlh hhi]
      constructor
      · calc (1 : Int) = 2 / 2 := by norm_num
        _ ≤ (cand.low + cand.high) / 2 := Int.ediv_le_ediv (by norm_num) h2
      · calc (cand.low + cand.high) / 2 ≤ 198 / 2 := Int.ediv_le_ediv (by norm_num) h198
        _ = 99 := by norm_num
    set bma := m.playerMaxBuyAmount s cand.buyerId cand.contractId with hbma
    set sma := m.playerMaxSellAmount s cand.sellerId cand.contractId with hsma
    set units := min (Int.tdiv bma price) (Int.tdiv sma (100 - price)) with hunits
    by_cases hu : units > 0
    · rw [if_pos hu] at h
      set s1 := (({ s with trades := s.trades ++
            [Trade.mk cand.contractId units (units * price)] }).pushIou
          ⟨cand.sellerId, cand.buyerId, .unknown (.ifc cand.contractId),
            units * (100 - price)⟩).pushIou
          ⟨cand.buyerId, cand.sellerId, .unknown (.notc cand.contractId),
            units * price⟩ with hs1
      cases hcb : m.checkCreditFailure s1 cand.buyerId with
      | error p =>
        simp only [hcb] at h
        exact Except.noConfusion h
      | ok u =>
        simp only [hcb] at h
        cases hcs : m.checkCreditFailure s1 cand.sellerId with
        | error p =>
          simp only [hcs] at h
          exact Except.noConfusion h
        | ok u2 =>
          simp only [hcs] at h
          have hse : s1 = s' := Option.some.inj (Except.ok.inj h)
          have hbma0 : (0 : Int) ≤ bma := by
            rw [hbma]
            exact le_max_left _ _
          have hsma0 : (0 : Int) ≤ sma := by
            rw [hsma]
            exact le_max_left _ _
          have hppos : (0 : Int) < price := by linarith [hpr1.1]
          have hqpos : (0 : Int) < 100 - price := by linarith [hpr1.2]
          have hub : units ≤ bma / price := by
            rw [← Int.tdiv_eq_ediv hbma0 (le_of_lt hppos)]
            rw [hunits]
            exact min_le_left _ _
          have hus : units ≤ sma / (100 - price) := by
            rw [← Int.tdiv_eq_ediv hsma0 (le_of_lt hqpos)]
            rw [hunits]
            exact min_le_right _ _
          have hab : units * price ≤ bma := by
            calc units * price ≤ bma / price * price :=
              mul_le_mul_of_nonneg_right hub (le_of_lt hppos)
            _ ≤ bma := Int.ediv_mul_le bma (ne_of_gt hppos)
          have hbs : units * (100 - price) ≤ sma := by
            calc units * (100 - price) ≤ sma / (100 - price) * (100 - price) :=
              mul_le_mul_of_nonneg_right hus (le_of_lt hqpos)
            _ ≤ sma := Int.ediv_mul_le sma (ne_of_gt hqpos)
          refine ⟨cand, units, price, units * price, units * (100 - price),
            hprice, rfl, rfl, hpr1.1, hpr1.2, hu, mul_pos hu hppos, mul_pos hu hqpos,
            hab, hbs, hregB, hregS, hne, hse.symm, ?_, ?_⟩
          · rw [← hse]
            exact hcb
          · rw [← hse]
            exact hcs
    · rw [if_neg hu] at h
      exact Except.noConfusion h

end SessionStepOk

end Lazyhack

namespace Lazyhack

section ClaimC4

/-- Executable sufficient check for one player's ranges being well-formed. -/
def rangesOkB (p : Player) : Bool :=
  decide (List.Pairwise (fun a b => a < b) (p.ranges.entries.map Prod.fst)) &&
  p.ranges.entries.all (fun e => decide (0 ≤ e.2.1 ∧ e.2.1 < e.2.2 ∧ e.2.2 ≤ 100))

theorem playerRangesOkOfB (m : Market) (hb : m.players.all rangesOkB = true) :
    PlayerRangesOk m := by
  intro pid _
  have hok : rangesOkB (m.getPlayer pid) = true := by
    unfold Market.getPlayer
    by_cases hlt : pid < m.players.length
    · have hmem : m.players.getD pid (Player.new "") ∈ m.players := by
        rw [List.getD_eq_getElem _ _ hlt]
        exact List.getElem_mem hlt
      exact List.all_eq_true.mp hb _ hmem
    · rw [List.getD_eq_default _ _ (le_of_not_lt hlt)]
      decide
  unfold rangesOkB at hok
  rw [Bool.and_eq_true] at hok
  constructor
  · have hpw := of_decide_eq_true hok.1
    exact hpw
  · intro c0 lo hi hl
    have hmem := Smap.lookupE_mem c0 (m.getPlayer pid).ranges.entries (lo, hi) hl
    have h2 := List.all_eq_true.mp hok.2 _ hmem
    exact of_decide_eq_true h2

/-- Claim C4: every trade emitted by a successful matching-loop iteration has
its price, the floor-midpoint of the selected (possibly widened) bid and ask,
in [1, 99]; the two emitted IOU amounts trade_units × (100 − price) (If IOU)
and trade_units × price (Not IOU) are positive; and they sum to
trade_units × 100. -/
theorem trade_price_amount_conservation (m : Market) (s s' : SessionSt)
    (hpr : PlayerRangesOk m) (h : m.sessionStep s = .ok (some s')) :
    ∃ (cand : TradeCand) (units price : Price),
      price = Int.tdiv (cand.low + cand.high) 2 ∧
      1 ≤ price ∧ price ≤ 99 ∧
      s'.trades = s.trades ++ [Trade.mk cand.contractId units (units * price)] ∧
      s'.ious = s.ious ++
        [⟨cand.sellerId, cand.buyerId, .unknown (.ifc cand.contractId),
          units * (100 - price)⟩,
         ⟨cand.buyerId, cand.sellerId, .unknown (.notc cand.contractId),
          units * price⟩] ∧
      0 < units * (100 - price) ∧ 0 < units * price ∧
      units * (100 - price) + units * price = units * 100 := by
  rcases sessionStepOk m s s' hpr h with
    ⟨cand, units, price, a, b, hpe, hae, hbe, hp1, hp99, hu, ha, hb, _, _, _, _, _,
      hs', _, _⟩
  subst hae hbe
  refine ⟨cand, units, price, hpe, hp1, hp99, ?_, ?_, hb, ha, by ring⟩
  · rw [hs']
    simp [SessionSt.pushIou, SessionSt.applyIou]
  · rw [hs']
    simp [SessionSt.pushIou, SessionSt.applyIou]

end ClaimC4

end Lazyhack

namespace Lazyhack

section ClaimC4Witness

/-- The §8 market state just before the session. -/
def buildC4 : Except Panic Market := do
  let m := Market.new
  let m ← m.newContract "A"
  let m ← m.newPlayer "X"
  let m ← m.newPlayer "Y"
  let m := m.incrementCredit 1000
  let m ← m.playerRanges "X" [("A", 20, 40)]
  m.playerRanges "Y" [("A", 50, 70)]

/-- The concrete pre-session market of the C4 witness. -/
def mC4 : Market := okD buildC4 Market.new

/-- Its initial session state. -/
def sC4 : SessionSt := SessionSt.init mC4

/-- The state after the first successful matching-loop iteration. -/
def sC4' : SessionSt :=
  match mC4.sessionStep sC4 with
  | .ok (some s) => s
  | _ => sC4

theorem trade_price_amount_conservation_witness :
    mC4.sessionStep sC4 = .ok (some sC4') ∧
    (∃ (cand : TradeCand) (units price : Price),
      price = Int.tdiv (cand.low + cand.high) 2 ∧
      1 ≤ price ∧ price ≤ 99 ∧
      sC4'.trades = sC4.trades ++ [Trade.mk cand.contractId units (units * price)] ∧
      sC4'.ious = sC4.ious ++
        [⟨cand.sellerId, cand.buyerId, .unknown (.ifc cand.contractId),
          units * (100 - price)⟩,
         ⟨cand.buyerId, cand.sellerId, .unknown (.notc cand.contractId),
          units * price⟩] ∧
      0 < units * (100 - price) ∧ 0 < units * price ∧
      units * (100 - price) + units * price = units * 100) :=
  ⟨by decide,
   trade_price_amount_conservation mC4 sC4 sC4'
     (playerRangesOkOfB mC4 (by decide)) (by decide)⟩

end ClaimC4Witness

end Lazyhack

namespace Lazyhack

section SessionInvDefs

/-- The per-player starting map of `Session::new`: every registered
participant with a fresh exposure. -/
def baseExposures (m : Market) : Smap Nat Exposure :=
  m.playerNames.entries.foldl (fun exposures e => exposures.insert e.2 Exposure.new)
    Smap.empty

/-- One participant's worst-case exposure bounds against their credit limit,
together with well-formedness of the conditional map. -/
def PlayerOk (m : Market) (e : Exposure) (pid : Nat) : Prop :=
  e.conditional.Wf ∧
  ∀ q : Nat, e.totalExposureToContract q ≤ (m.getPlayer pid).creditLimit ∧
    e.totalExposureToContractNeg q ≤ (m.getPlayer pid).creditLimit

/-- Session invariant: every participant's session-tracked exposure satisfies
the credit bound for every contract. -/
def SInvP (m : Market) (s : SessionSt) : Prop :=
  ∀ pid : Nat, PlayerOk m ((s.exposures.lookup pid).getD Exposure.new) pid

/-- Session invariant: every IOU emitted so far is between two distinct
registered participants. -/
def SIous (m : Market) (s : SessionSt) : Prop :=
  ∀ iou ∈ s.ious, iou.issuerId ≠ iou.holderId ∧
    iou.issuerId ∈ m.playerNames.values ∧ iou.holderId ∈ m.playerNames.values

/-- Session invariant: the tracked exposures are the fold of the committed
ledger followed by the session's own IOUs over the fresh per-player map. -/
def SRep (m : Market) (s : SessionSt) : Prop :=
  s.exposures = ((m.ious ++ s.ious).foldl SessionSt.applyIou
    ⟨baseExposures m, [], []⟩).exposures

theorem applyIouFields (st : SessionSt) (i : Iou) :
    (st.applyIou i).ious = st.ious ∧ (st.applyIou i).trades = st.trades ∧
    (st.applyIou i).exposures =
      (st.exposures.modify i.issuerId
        (fun e => e.applyIouIssuer i.status i.amount)).modify i.holderId
        (fun e => e.applyIouHolder i.status i.amount) :=
  ⟨rfl, rfl, rfl⟩

theorem pushIouFields (st : SessionSt) (i : Iou) :
    (st.pushIou i).ious = st.ious ++ [i] ∧
    (st.pushIou i).exposures = (st.applyIou i).exposures :=
  ⟨rfl, rfl⟩

theorem foldApplyIouIous (l : List Iou) :
    ∀ st : SessionSt, (l.foldl SessionSt.applyIou st).ious = st.ious := by
  induction l with
  | nil => intro st; rfl
  | cons i t ih =>
    intro st
    simp only [List.foldl_cons]
    rw [ih]
    rfl

theorem applyIouExposuresOnly (st st' : SessionSt) (i : Iou)
    (h : st.exposures = st'.exposures) :
    (st.applyIou i).exposures = (st'.applyIou i).exposures := by
  unfold SessionSt.applyIou
  rw [h]

theorem foldApplyIouExposuresOnly (l : List Iou) :
    ∀ st st' : SessionSt, st.exposures = st'.exposures →
    (l.foldl SessionSt.applyIou st).exposures =
      (l.foldl SessionSt.applyIou st').exposures := by
  induction l with
  | nil => intro st st' h; exact h
  | cons i t ih =>
    intro st st' h
    simp only [List.foldl_cons]
    exact ih _ _ (applyIouExposuresOnly st st' i h)

theorem foldInsertNewLookup (l : List (String × Nat)) :
    ∀ (acc : Smap Nat Exposure) (pid : Nat),
    (l.foldl (fun ex e => ex.insert e.2 Exposure.new) acc).lookup pid =
      if pid ∈ l.map Prod.snd then some Exposure.new else acc.lookup pid := by
  induction l with
  | nil =>
    intro acc pid
    simp
  | cons hd tl ih =>
    intro acc pid
    simp only [List.foldl_cons]
    rw [ih]
    by_cases h1 : pid ∈ tl.map Prod.snd
    · rw [if_pos h1, if_pos (by simp [h1])]
    · by_cases h2 : pid = hd.2
      · rw [if_neg h1, if_pos (by simp [h2]), Smap.lookup_insert, if_pos h2]
      · rw [if_neg h1, if_neg (by simp [h1, h2]), Smap.lookup_insert, if_neg h2]

theorem baseExposuresLookup (m : Market) (pid : Nat) :
    (baseExposures m).lookup pid =
      if pid ∈ m.playerNames.values then some Exposure.new else none := by
  unfold baseExposures
  rw [foldInsertNewLookup]
  rfl

theorem newExposureZero (q : Nat) :
    Exposure.new.totalExposureToContract q = 0 ∧
    Exposure.new.totalExposureToContractNeg q = 0 := by
  constructor <;> rfl

theorem newConditionalWf : (Exposure.new).conditional.Wf := by
  simp [Exposure.new, Smap.Wf, Smap.empty]

theorem applyIouIssuerWf (e : Exposure) (status : IouStatus) (amount : Price)
    (hw : e.conditional.Wf) : (e.applyIouIssuer status amount).conditional.Wf := by
  cases status with
  | void c => exact hw
  | tru c => exact hw
  | unknown c =>
    cases c with
    | ifc cid => exact wfAddExposure e cid amount hw
    | notc cid => exact wfAddNegExposure e cid amount hw

theorem applyIouHolderWf (e : Exposure) (status : IouStatus) (amount : Price)
    (hw : e.conditional.Wf) : (e.applyIouHolder status amount).conditional.Wf := by
  cases status with
  | void c => exact hw
  | tru c => exact hw
  | unknown c =>
    cases c with
    | ifc cid => exact wfAddExposure e cid (-amount) hw
    | notc cid => exact wfAddNegExposure e cid (-amount) hw

theorem replayFoldWf (l : List Iou) (pid : Nat) :
    ∀ e : Exposure, e.conditional.Wf →
    (l.foldl (fun e iou =>
      if iou.issuerId = pid then e.applyIouIssuer iou.status iou.amount
      else if iou.holderId = pid then e.applyIouHolder iou.status iou.amount
      else e) e).conditional.Wf := by
  induction l with
  | nil => intro e hw; exact hw
  | cons i t ih =>
    intro e hw
    simp only [List.foldl_cons]
    refine ih _ ?_
    by_cases h1 : i.issuerId = pid
    · rw [if_pos h1]
      exact applyIouIssuerWf e i.status i.amount hw
    · rw [if_neg h1]
      by_cases h2 : i.holderId = pid
      · rw [if_pos h2]
        exact applyIouHolderWf e i.status i.amount hw
      · rw [if_neg h2]
        exact hw

theorem calcExposureWf (m : Market) (pid : Nat) :
    (m.calcExposure pid).conditional.Wf :=
  replayFoldWf m.ious pid Exposure.new newConditionalWf

theorem calcExposureNotParty (l : List Iou) (pid : Nat)
    (h : ∀ iou ∈ l, iou.issuerId ≠ pid ∧ iou.holderId ≠ pid) :
    l.foldl (fun e iou =>
      if iou.issuerId = pid then e.applyIouIssuer iou.status iou.amount
      else if iou.holderId = pid then e.applyIouHolder iou.status iou.amount
      else e) Exposure.new = Exposure.new := by
  induction l with
  | nil => rfl
  | cons i t ih =>
    obtain ⟨h1, h2⟩ := h i (List.mem_cons_self i t)
    simp only [List.foldl_cons, if_neg h1, if_neg h2]
    exact ih (fun iou hm => h iou (List.mem_cons_of_mem i hm))

theorem roomFromMax (a x L : Price) (ha : 0 < a) (h : a ≤ max 0 (L - x)) :
    x + a ≤ L := by
  by_cases hle : L - x ≤ 0
  · rw [max_eq_left hle] at h
    linarith
  · rw [max_eq_right (le_of_lt (lt_of_not_le hle))] at h
    linarith

end SessionInvDefs

end Lazyhack

namespace Lazyhack

section SessionStepInv

theorem sessionStepSInv (m : Market) (s s' : SessionSt) (hpr : PlayerRangesOk m)
    (h : m.sessionStep s = .ok (some s')) (hinv : SInvP m s) :
    SInvP m s' ∧ (SIous m s → SIous m s') ∧ (SRep m s → SRep m s') := by
  rcases sessionStepOk m s s' hpr h with
    ⟨cand, units, price, a, b, hpe, hae, hbe, hp1, hp99, hu, ha, hb, hab, hbs,
      hregB, hregS, hne, hs', hcb, hcs⟩
  have hexp : s'.exposures =
      (((s.exposures.modify cand.sellerId
          (fun e => e.addExposure cand.contractId b)).modify
        cand.buyerId (fun e => e.addExposure cand.contractId (-b))).modify
        cand.buyerId (fun e => e.addNegExposure cand.contractId a)).modify
        cand.sellerId (fun e => e.addNegExposure cand.contractId (-a)) := by
    rw [hs']
    rfl
  have hious : s'.ious = s.ious ++
      [⟨cand.sellerId, cand.buyerId, .unknown (.ifc cand.contractId), b⟩,
       ⟨cand.buyerId, cand.sellerId, .unknown (.notc cand.contractId), a⟩] := by
    rw [hs']
    simp [SessionSt.pushIou, SessionSt.applyIou]
  have hlookB : s'.exposures.lookup cand.buyerId =
      (s.exposures.lookup cand.buyerId).map
        (fun e => (e.addExposure cand.contractId (-b)).addNegExposure cand.contractId a) := by
    rw [hexp]
    rw [Smap.lookup_modify, if_neg hne]
    rw [Smap.lookup_modify, if_pos rfl]
    rw [Smap.lookup_modify, if_pos rfl]
    rw [Smap.lookup_modify, if_neg hne]
    rw [Option.map_map]
    rfl
  have hlookS : s'.exposures.lookup cand.sellerId =
      (s.exposures.lookup cand.sellerId).map
        (fun e => (e.addExposure cand.contractId b).addNegExposure cand.contractId (-a)) := by
    rw [hexp]
    rw [Smap.lookup_modify, if_pos rfl]
    rw [Smap.lookup_modify, if_neg (fun hEq => hne hEq.symm)]
    rw [Smap.lookup_modify, if_neg (fun hEq => hne hEq.symm)]
    rw [Smap.lookup_modify, if_pos rfl]
    rw [Option.map_map]
    rfl
  refine ⟨?_, ?_, ?_⟩
  · intro pid
    by_cases hpb : pid = cand.buyerId
    · rw [hpb, hlookB]
      cases hl : s.exposures.lookup cand.buyerId with
      | none =>
        have hprev := hinv cand.buyerId
        rw [hl] at hprev
        simpa using hprev
      | some e =>
        have hprev := hinv cand.buyerId
        rw [hl] at hprev
        simp only [Option.getD_some] at hprev
        simp only [Option.map_some', Option.getD_some]
        obtain ⟨hw, hbounds⟩ := hprev
        have hmaxeq : m.playerMaxBuyAmount s cand.buyerId cand.contractId =
            max 0 ((m.getPlayer cand.buyerId).creditLimit -
              e.totalExposureToContractNeg cand.contractId) := by
          unfold Market.playerMaxBuyAmount
          rw [hl]
          rfl
        have hroom : e.totalExposureToContractNeg cand.contractId + a ≤
            (m.getPlayer cand.buyerId).creditLimit := by
          refine roomFromMax a _ _ ha ?_
          rw [← hmaxeq]
          exact hab
        exact ⟨wfAddNegExposure _ _ _ (wfAddExposure _ _ _ hw),
          exposureInvBuyer e cand.contractId a b _ hw (le_of_lt hb) hbounds hroom⟩
    · by_cases hps : pid = cand.sellerId
      · rw [hps, hlookS]
        cases hl : s.exposures.lookup cand.sellerId with
        | none =>
          have hprev := hinv cand.sellerId
          rw [hl] at hprev
          simpa using hprev
        | some e =>
          have hprev := hinv cand.sellerId
          rw [hl] at hprev
          simp only [Option.getD_some] at hprev
          simp only [Option.map_some', Option.getD_some]
          obtain ⟨hw, hbounds⟩ := hprev
          have hmaxeq : m.playerMaxSellAmount s cand.sellerId cand.contractId =
              max 0 ((m.getPlayer cand.sellerId).creditLimit -
                e.totalExposureToContract cand.contractId) := by
            unfold Market.playerMaxSellAmount
            rw [hl]
            rfl
          have hroom : e.totalExposureToContract cand.contractId + b ≤
              (m.getPlayer cand.sellerId).creditLimit := by
            refine roomFromMax b _ _ hb ?_
            rw [← hmaxeq]
            exact hbs
          exact ⟨wfAddNegExposure _ _ _ (wfAddExposure _ _ _ hw),
            exposureInvSeller e cand.contractId a b _ hw (le_of_lt ha) hbounds hroom⟩
      · have hlookO : s'.exposures.lookup pid = s.exposures.lookup pid := by
          rw [hexp]
          rw [Smap.lookup_modify, if_neg hps]
          rw [Smap.lookup_modify, if_neg hpb]
          rw [Smap.lookup_modify, if_neg hpb]
          rw [Smap.lookup_modify, if_neg hps]
        rw [hlookO]
        exact hinv pid
  · intro hsio iou hmem
    rw [hious] at hmem
    rcases List.mem_append.mp hmem with h1 | h1
    · exact hsio iou h1
    · rcases List.mem_cons.mp h1 with h2 | h2
      · rw [h2]
        exact ⟨fun hEq => hne hEq.symm, hregS, hregB⟩
      · have h3 := List.mem_singleton.mp h2
        rw [h3]
        exact ⟨hne, hregB, hregS⟩
  · intro hr
    unfold SRep
    rw [hious, hexp]
    have hl2 : m.ious ++ (s.ious ++
        [(⟨cand.sellerId, cand.buyerId, .unknown (.ifc cand.contractId), b⟩ : Iou),
         ⟨cand.buyerId, cand.sellerId, .unknown (.notc cand.contractId), a⟩]) =
        (m.ious ++ s.ious) ++
        [(⟨cand.sellerId, cand.buyerId, .unknown (.ifc cand.contractId), b⟩ : Iou),
         ⟨cand.buyerId, cand.sellerId, .unknown (.notc cand.contractId), a⟩] := by
      rw [List.append_assoc]
    rw [hl2, List.foldl_append]
    simp only [List.foldl_cons, List.foldl_nil]
    rw [hr]
    rfl

end SessionStepInv

end Lazyhack

namespace Lazyhack

section LoopAndInit

theorem sessionLoopInv (m : Market) (hpr : PlayerRangesOk m) :
    ∀ (fuel : Nat) (s sF : SessionSt), m.sessionLoop fuel s = .ok sF →
      SInvP m s → SIous m s → SRep m s →
      SInvP m sF ∧ SIous m sF ∧ SRep m sF := by
  intro fuel
  induction fuel with
  | zero =>
    intro s sF h
    exact absurd h (by simp [Market.sessionLoop])
  | succ n ih =>
    intro s sF h hi hio hr
    unfold Market.sessionLoop at h
    cases hstep : m.sessionStep s with
    | error p =>
      rw [hstep] at h
      exact Except.noConfusion h
    | ok o =>
      cases o with
      | none =>
        rw [hstep] at h
        have hs : s = sF := Except.ok.inj h
        exact hs ▸ ⟨hi, hio, hr⟩
      | some s1 =>
        rw [hstep] at h
        obtain ⟨h1, h2, h3⟩ := sessionStepSInv m s s1 hpr hstep hi
        exact ih s1 sF h h1 (h2 hio) (h3 hr)

/-- Market invariant at rest: validated ranges, a ledger of IOUs between
distinct registered participants, nonnegative credit limits, registered ids in
range, and the credit bound for every participant and contract. -/
def MInv (m : Market) : Prop :=
  PlayerRangesOk m ∧
  (∀ iou ∈ m.ious, iou.issuerId ≠ iou.holderId ∧
    iou.issuerId ∈ m.playerNames.values ∧ iou.holderId ∈ m.playerNames.values) ∧
  (∀ pid ∈ m.playerNames.values, pid < m.players.length) ∧
  (∀ pid : Nat, 0 ≤ (m.getPlayer pid).creditLimit) ∧
  (∀ pid q : Nat,
    (m.calcExposure pid).totalExposureToContract q ≤ (m.getPlayer pid).creditLimit ∧
    (m.calcExposure pid).totalExposureToContractNeg q ≤ (m.getPlayer pid).creditLimit)

theorem initStFields (m : Market) :
    SessionSt.init m = m.ious.foldl SessionSt.applyIou
      ⟨baseExposures m, [], []⟩ := rfl

theorem initSInv (m : Market) (hm : MInv m) :
    SInvP m (SessionSt.init m) ∧ SIous m (SessionSt.init m) ∧
      SRep m (SessionSt.init m) := by
  obtain ⟨hpr, hiou, hlen, hcl, hbounds⟩ := hm
  have hiousnil : (SessionSt.init m).ious = [] := by
    rw [initStFields]
    rw [foldApplyIouIous]
  refine ⟨?_, ?_, ?_⟩
  · intro pid
    by_cases hreg : pid ∈ m.playerNames.values
    · have hbase : (baseExposures m).lookup pid = some Exposure.new := by
        rw [baseExposuresLookup, if_pos hreg]
      have hlook := foldApplyIou_lookup m.ious ⟨baseExposures m, [], []⟩ pid
        Exposure.new hbase (fun iou hm0 => (hiou iou hm0).1)
      rw [initStFields]
      rw [hlook]
      simp only [Option.getD_some]
      constructor
      · exact replayFoldWf m.ious pid Exposure.new newConditionalWf
      · intro q
        exact hbounds pid q
    · have hbase : (baseExposures m).lookup pid = none := by
        rw [baseExposuresLookup, if_neg hreg]
      have hlook := foldApplyIou_lookup_none m.ious ⟨baseExposures m, [], []⟩ pid hbase
      rw [initStFields, hlook]
      simp only [Option.getD_none]
      constructor
      · exact newConditionalWf
      · intro q
        obtain ⟨h1, h2⟩ := newExposureZero q
        rw [h1, h2]
        exact ⟨hcl pid, hcl pid⟩
  · intro iou hmem
    rw [hiousnil] at hmem
    simp at hmem
  · unfold SRep
    rw [hiousnil, List.append_nil]
    rfl

end LoopAndInit

end Lazyhack

namespace Lazyhack

section OpPreservation

theorem memInsertEOfMem {α β : Type} [LinearOrder α] [DecidableEq α] [KeyLtB α]
    (k : α) (v : β) :
    ∀ l : List (α × β), Smap.lookupE k l = none → ∀ p ∈ l, p ∈ Smap.insertE k v l := by
  intro l
  induction l with
  | nil =>
    intro _ p hp
    simp at hp
  | cons hd tl ih =>
    intro hnone p hp
    obtain ⟨a, b⟩ := hd
    by_cases hlt : KeyLtB.ltB k a
    · have hm : Smap.insertE k v ((a, b) :: tl) = (k, v) :: (a, b) :: tl := by
        simp [Smap.insertE, hlt]
      rw [hm]
      exact List.mem_cons_of_mem _ hp
    · by_cases hk : k = a
      · exfalso
        rw [hk] at hnone
        simp [Smap.lookupE] at hnone
      · have hm : Smap.insertE k v ((a, b) :: tl) = (a, b) :: Smap.insertE k v tl := by
          simp [Smap.insertE, hlt, hk]
        rw [hm]
        rcases List.mem_cons.mp hp with h1 | h1
        · rw [h1]
          exact List.mem_cons_self _ _
        · have hnone' : Smap.lookupE k tl = none := by
            have : Smap.lookupE k ((a, b) :: tl) = Smap.lookupE k tl := by
              simp [Smap.lookupE, hk]
            rw [this] at hnone
            exact hnone
          exact List.mem_cons_of_mem _ (ih hnone' p h1)

theorem minvNewContract (m m' : Market) (cname : String)
    (h : m.newContract cname = .ok m') (hm : MInv m) : MInv m' := by
  unfold Market.newContract Market.addContract at h
  cases hl : m.contractNames.lookup (Contract.new cname).name with
  | some c =>
    rw [hl] at h
    exact Except.noConfusion h
  | none =>
    rw [hl] at h
    have hm' : m' = { m with
        contractNames := m.contractNames.insert (Contract.new cname).name
          m.contracts.length,
        contracts := m.contracts ++ [Contract.new cname] } := (Except.ok.inj h).symm
    subst hm'
    exact hm

theorem minvNewPlayer (m m' : Market) (pname : String)
    (h : m.newPlayer pname = .ok m') (hm : MInv m) : MInv m' := by
  obtain ⟨hpr, hiou, hlen, hcl, hbounds⟩ := hm
  unfold Market.newPlayer Market.addPlayer at h
  cases hl : m.playerNames.lookup (Player.new pname).name with
  | some c =>
    rw [hl] at h
    exact Except.noConfusion h
  | none =>
    rw [hl] at h
    have hm' : m' = { m with
        playerNames := m.playerNames.insert (Player.new pname).name m.players.length,
        players := m.players ++ [Player.new pname] } := (Except.ok.inj h).symm
    subst hm'
    have hvals : ∀ pid : Nat,
        pid ∈ (m.playerNames.insert (Player.new pname).name m.players.length).values →
        pid ∈ m.playerNames.values ∨ pid = m.players.length := by
      intro pid hpid
      rcases List.mem_map.mp hpid with ⟨en, hen, hsnd⟩
      rcases Smap.mem_insertE _ _ _ _ hen with h1 | h1
      · exact Or.inl (List.mem_map.mpr ⟨en, h1, hsnd⟩)
      · right
        rw [← hsnd, h1]
    have hsub : ∀ pid : Nat, pid ∈ m.playerNames.values →
        pid ∈ (m.playerNames.insert (Player.new pname).name m.players.length).values := by
      intro pid hpid
      rcases List.mem_map.mp hpid with ⟨en, hen, hsnd⟩
      exact List.mem_map.mpr ⟨en, memInsertEOfMem _ _ _ hl en hen, hsnd⟩
    have hgpLt : ∀ pid : Nat, pid < m.players.length →
        (m.players ++ [Player.new pname]).getD pid (Player.new "") =
          m.players.getD pid (Player.new "") := by
      intro pid hlt
      exact List.getD_append _ _ _ _ hlt
    have hgpLen : (m.players ++ [Player.new pname]).getD m.players.length
        (Player.new "") = Player.new pname := by
      simp [List.getD_eq_getElem?_getD, List.getElem?_append_right (le_refl m.players.length)]
    have hgpGt : ∀ pid : Nat, m.players.length < pid →
        (m.players ++ [Player.new pname]).getD pid (Player.new "") = Player.new "" := by
      intro pid hgt
      apply List.getD_eq_default
      simp
      omega
    have hnotparty : ∀ pid : Nat, m.players.length ≤ pid →
        m.calcExposure pid = Exposure.new := by
      intro pid hge
      refine calcExposureNotParty m.ious pid ?_
      intro iou hmem
      obtain ⟨_, hri, hrh⟩ := hiou iou hmem
      constructor
      · intro hEq
        have := hlen iou.issuerId hri
        rw [hEq] at this
        exact absurd this (not_lt.mpr hge)
      · intro hEq
        have := hlen iou.holderId hrh
        rw [hEq] at this
        exact absurd this (not_lt.mpr hge)
    refine ⟨?_, ?_, ?_, ?_, ?_⟩
    · intro pid hpid
      rcases hvals pid hpid with h1 | h1
      · have hlt := hlen pid h1
        have hre : ({ m with
            playerNames := m.playerNames.insert (Player.new pname).name m.players.length,
            players := m.players ++ [Player.new pname] } : Market).getPlayer pid =
            m.getPlayer pid := hgpLt pid hlt
        rw [hre]
        exact hpr pid h1
      · have hre : ({ m with
            playerNames := m.playerNames.insert (Player.new pname).name m.players.length,
            players := m.players ++ [Player.new pname] } : Market).getPlayer pid =
            Player.new pname := by
          rw [h1]
          exact hgpLen
        rw [hre]
        constructor
        · simp [Player.new, Smap.Wf, Smap.empty]
        · intro c0 lo hi hlk
          simp [Player.new, Smap.lookup, Smap.empty, Smap.lookupE] at hlk
    · intro iou hmem
      obtain ⟨h1, h2, h3⟩ := hiou iou hmem
      exact ⟨h1, hsub _ h2, hsub _ h3⟩
    · intro pid hpid
      rcases hvals pid hpid with h1 | h1
      · have := hlen pid h1
        simp only [List.length_append, List.length_singleton]
        omega
      · simp only [List.length_append, List.length_singleton]
        omega
    · intro pid
      by_cases hlt : pid < m.players.length
      · have hre : ({ m with
            playerNames := m.playerNames.insert (Player.new pname).name m.players.length,
            players := m.players ++ [Player.new pname] } : Market).getPlayer pid =
            m.getPlayer pid := hgpLt pid hlt
        rw [hre]
        exact hcl pid
      · by_cases heq : pid = m.players.length
        · have hre : ({ m with
              playerNames := m.playerNames.insert (Player.new pname).name m.players.length,
              players := m.players ++ [Player.new pname] } : Market).getPlayer pid =
              Player.new pname := by
            rw [heq]
            exact hgpLen
          rw [hre]
          exact le_refl 0
        · have hgt : m.players.length < pid :=
            lt_of_le_of_ne (le_of_not_lt hlt) (fun hEq => heq hEq.symm)
          have hre : ({ m with
              playerNames := m.playerNames.insert (Player.new pname).name m.players.length,
              players := m.players ++ [Player.new pname] } : Market).getPlayer pid =
              Player.new "" := hgpGt pid hgt
          rw [hre]
          exact le_refl 0
    · intro pid q
      by_cases hlt : pid < m.players.length
      · have hre : ({ m with
            playerNames := m.playerNames.insert (Player.new pname).name m.players.length,
            players := m.players ++ [Player.new pname] } : Market).getPlayer pid =
            m.getPlayer pid := hgpLt pid hlt
        rw [hre]
        exact hbounds pid q
      · have hge : m.players.length ≤ pid := le_of_not_lt hlt
        have hz : m.calcExposure pid = Exposure.new := hnotparty pid hge
        have hz' : ({ m with
            playerNames := m.playerNames.insert (Player.new pname).name m.players.length,
            players := m.players ++ [Player.new pname] } : Market).calcExposure pid =
            Exposure.new := hz
        rw [hz']
        obtain ⟨h1, h2⟩ := newExposureZero q
        rw [h1, h2]
        by_cases heq : pid = m.players.length
        · have hre : ({ m with
              playerNames := m.playerNames.insert (Player.new pname).name m.players.length,
              players := m.players ++ [Player.new pname] } : Market).getPlayer pid =
              Player.new pname := by
            rw [heq]
            exact hgpLen
          rw [hre]
          exact ⟨le_refl 0, le_refl 0⟩
        · have hgt : m.players.length < pid :=
            lt_of_le_of_ne hge (fun hEq => heq hEq.symm)
          have hre : ({ m with
              playerNames := m.playerNames.insert (Player.new pname).name m.players.length,
              players := m.players ++ [Player.new pname] } : Market).getPlayer pid =
              Player.new "" := hgpGt pid hgt
          rw [hre]
          exact ⟨le_refl 0, le_refl 0⟩

theorem minvIncrementCredit (m : Market) (amt : Price) (hamt : 0 ≤ amt)
    (hm : MInv m) : MInv (m.incrementCredit amt) := by
  obtain ⟨hpr, hiou, hlen, hcl, hbounds⟩ := hm
  have hgp : ∀ pid : Nat, (m.incrementCredit amt).getPlayer pid =
      if pid < m.players.length
      then { m.getPlayer pid with
             creditLimit := (m.getPlayer pid).creditLimit + amt }
      else Player.new "" := by
    intro pid
    unfold Market.incrementCredit Market.getPlayer
    by_cases hlt : pid < m.players.length
    · rw [if_pos hlt]
      rw [List.getD_eq_getElem _ _ (by simpa using hlt), List.getD_eq_getElem _ _ hlt]
      simp
    · rw [if_neg hlt]
      exact List.getD_eq_default _ _ (by simpa using le_of_not_lt hlt)
  have hgpd : ∀ pid : Nat, ¬ pid < m.players.length →
      m.getPlayer pid = Player.new "" := by
    intro pid hlt
    unfold Market.getPlayer
    exact List.getD_eq_default _ _ (le_of_not_lt hlt)
  refine ⟨?_, hiou, ?_, ?_, ?_⟩
  · intro pid hpid
    have hlt := hlen pid hpid
    have hrg : ((m.incrementCredit amt).getPlayer pid).ranges =
        (m.getPlayer pid).ranges := by
      rw [hgp pid, if_pos hlt]
    obtain ⟨h1, h2⟩ := hpr pid hpid
    rw [hrg]
    exact ⟨h1, h2⟩
  · intro pid hpid
    have := hlen pid hpid
    simpa [Market.incrementCredit] using this
  · intro pid
    rw [hgp pid]
    by_cases hlt : pid < m.players.length
    · rw [if_pos hlt]
      have := hcl pid
      simp only
      linarith
    · rw [if_neg hlt]
      exact le_refl 0
  · intro pid q
    have hcalc : (m.incrementCredit amt).calcExposure pid = m.calcExposure pid := rfl
    rw [hcalc, hgp pid]
    by_cases hlt : pid < m.players.length
    · rw [if_pos hlt]
      obtain ⟨h1, h2⟩ := hbounds pid q
      constructor
      · simp only
        linarith
      · simp only
        linarith
    · rw [if_neg hlt]
      have hdef := hgpd pid hlt
      obtain ⟨h1, h2⟩ := hbounds pid q
      rw [hdef] at h1 h2
      exact ⟨h1, h2⟩

end OpPreservation

end Lazyhack

namespace Lazyhack

section PlayerRangesPreservation

theorem getPlayerUpdatePlayer (m : Market) (pid : Nat) (f : Player → Player) (q : Nat) :
    (m.updatePlayer pid f).getPlayer q =
      if q = pid ∧ pid < m.players.length then f (m.getPlayer pid)
      else m.getPlayer q := by
  unfold Market.updatePlayer Market.getPlayer
  by_cases hq : q = pid
  · by_cases hlt : pid < m.players.length
    · rw [if_pos ⟨hq, hlt⟩, hq]
      exact listGetDSetSelf _ _ _ _ hlt
    · rw [if_neg (fun hc => hlt hc.2)]
      rw [List.set_eq_of_length_le (le_of_not_lt hlt)]
  · rw [if_neg (fun hc => hq hc.1)]
    exact listGetDSetNe _ _ _ _ _ hq

theorem playerRangesGoMInv (rs : List (String × Price × Price)) :
    ∀ (m : Market) (pid : Nat) (m' : Market),
    Market.playerRangesGo m pid rs = .ok m' →
    m'.ious = m.ious ∧ m'.playerNames = m.playerNames ∧
    m'.players.length = m.players.length ∧
    (∀ q : Nat, (m'.getPlayer q).creditLimit = (m.getPlayer q).creditLimit) ∧
    (∀ q : Nat, q ≠ pid → (m'.getPlayer q).ranges = (m.getPlayer q).ranges) ∧
    ((m.getPlayer pid).ranges.Wf →
     (∀ c lo hi, (m.getPlayer pid).ranges.lookup c = some (lo, hi) →
        0 ≤ lo ∧ lo < hi ∧ hi ≤ 100) →
     (m'.getPlayer pid).ranges.Wf ∧
     ∀ c lo hi, (m'.getPlayer pid).ranges.lookup c = some (lo, hi) →
        0 ≤ lo ∧ lo < hi ∧ hi ≤ 100) := by
  induction rs with
  | nil =>
    intro m pid m' h
    have hme : m = m' := Except.ok.inj h
    subst hme
    exact ⟨rfl, rfl, rfl, fun q => rfl, fun q _ => rfl, fun hw hv => ⟨hw, hv⟩⟩
  | cons r rest ih =>
    intro m pid m' h
    obtain ⟨cn, lo, hi⟩ := r
    unfold Market.playerRangesGo at h
    cases hl : m.contractNames.lookup cn with
    | none =>
      rw [hl] at h
      exact Except.noConfusion h
    | some cid =>
      simp only [hl] at h
      cases ho : (m.getContract cid).outcome with
      | some o =>
        simp only [ho] at h
        exact Except.noConfusion h
      | none =>
        simp only [ho] at h
        by_cases hvalid : 0 ≤ lo ∧ lo < hi ∧ hi ≤ 100
        · rw [if_pos hvalid] at h
          obtain ⟨g1, g2, g3, g4, g5, g6⟩ :=
            ih (m.updatePlayer pid (fun p => p.setRange cid lo hi)) pid m' h
          have hu := getPlayerUpdatePlayer m pid (fun p => p.setRange cid lo hi)
          refine ⟨g1, g2, ?_, ?_, ?_, ?_⟩
          · rw [g3]
            simp [Market.updatePlayer]
          · intro q
            rw [g4 q, hu q]
            by_cases hc : q = pid ∧ pid < m.players.length
            · rw [if_pos hc, hc.1]
              rfl
            · rw [if_neg hc]
          · intro q hq
            rw [g5 q hq, hu q]
            rw [if_neg (fun hc => hq hc.1)]
          · intro hw hv
            refine g6 ?_ ?_
            · rw [hu pid]
              by_cases hc : pid = pid ∧ pid < m.players.length
              · rw [if_pos hc]
                exact Smap.wfInsert _ _ _ hw
              · rw [if_neg hc]
                exact hw
            · intro c lo0 hi0 hlk
              rw [hu pid] at hlk
              by_cases hc : pid = pid ∧ pid < m.players.length
              · rw [if_pos hc] at hlk
                have : (((m.getPlayer pid).setRange cid lo hi).ranges).lookup c =
                    if c = cid then some (lo, hi)
                    else (m.getPlayer pid).ranges.lookup c := Smap.lookup_insert _ _ _ _
                rw [this] at hlk
                by_cases hcc : c = cid
                · rw [if_pos hcc] at hlk
                  have hp := Option.some.inj hlk
                  have e1 : lo = lo0 := congrArg Prod.fst hp
                  have e2 : hi = hi0 := congrArg Prod.snd hp
                  rw [← e1, ← e2]
                  exact hvalid
                · rw [if_neg hcc] at hlk
                  exact hv c lo0 hi0 hlk
              · rw [if_neg hc] at hlk
                exact hv c lo0 hi0 hlk
        · rw [if_neg hvalid] at h
          exact Except.noConfusion h

theorem minvPlayerRanges (m m' : Market) (pname : String)
    (rs : List (String × Price × Price))
    (h : m.playerRanges pname rs = .ok m') (hm : MInv m) : MInv m' := by
  obtain ⟨hpr, hiou, hlen, hcl, hbounds⟩ := hm
  unfold Market.playerRanges at h
  cases hl : m.playerNames.lookup pname with
  | none =>
    rw [hl] at h
    exact Except.noConfusion h
  | some pid0 =>
    simp only [hl] at h
    have hreg0 : pid0 ∈ m.playerNames.values :=
      List.mem_map.mpr ⟨(pname, pid0), Smap.lookupE_mem _ _ _ hl, rfl⟩
    have hlt0 : pid0 < m.players.length := hlen pid0 hreg0
    obtain ⟨g1, g2, g3, g4, g5, g6⟩ :=
      playerRangesGoMInv rs (m.updatePlayer pid0 Player.clearRanges) pid0 m' h
    have hu := getPlayerUpdatePlayer m pid0 Player.clearRanges
    have hiouE : m'.ious = m.ious := g1
    have hpnE : m'.playerNames = m.playerNames := g2
    have hlenE : m'.players.length = m.players.length := by
      rw [g3]
      simp [Market.updatePlayer]
    have hclE : ∀ q : Nat, (m'.getPlayer q).creditLimit = (m.getPlayer q).creditLimit := by
      intro q
      rw [g4 q, hu q]
      by_cases hc : q = pid0 ∧ pid0 < m.players.length
      · rw [if_pos hc, hc.1]
        rfl
      · rw [if_neg hc]
    have hrgE : ∀ q : Nat, q ≠ pid0 →
        (m'.getPlayer q).ranges = (m.getPlayer q).ranges := by
      intro q hq
      rw [g5 q hq, hu q]
      rw [if_neg (fun hc => hq hc.1)]
    have hcalcE : ∀ pid : Nat, m'.calcExposure pid = m.calcExposure pid := by
      intro pid
      unfold Market.calcExposure
      rw [hiouE]
    have hpid0 : (m'.getPlayer pid0).ranges.Wf ∧
        ∀ c lo hi, (m'.getPlayer pid0).ranges.lookup c = some (lo, hi) →
          0 ≤ lo ∧ lo < hi ∧ hi ≤ 100 := by
      refine g6 ?_ ?_
      · rw [hu pid0, if_pos ⟨rfl, hlt0⟩]
        simp [Player.clearRanges, Smap.Wf, Smap.empty]
      · intro c lo hi hlk
        rw [hu pid0, if_pos ⟨rfl, hlt0⟩] at hlk
        simp [Player.clearRanges, Smap.lookup, Smap.empty, Smap.lookupE] at hlk
    refine ⟨?_, ?_, ?_, ?_, ?_⟩
    · intro pid hpid
      rw [hpnE] at hpid
      by_cases hq : pid = pid0
      · rw [hq]
        exact hpid0
      · rw [hrgE pid hq]
        exact hpr pid hpid
    · intro iou hmem
      rw [hiouE] at hmem
      obtain ⟨h1, h2, h3⟩ := hiou iou hmem
      rw [hpnE]
      exact ⟨h1, h2, h3⟩
    · intro pid hpid
      rw [hpnE] at hpid
      rw [hlenE]
      exact hlen pid hpid
    · intro pid
      rw [hclE pid]
      exact hcl pid
    · intro pid q
      rw [hcalcE pid, hclE pid]
      exact hbounds pid q

end PlayerRangesPreservation

end Lazyhack

namespace Lazyhack

section ReachabilityInvariant

theorem minvSession (m m' : Market) (fuel : Nat) (sF : SessionSt)
    (sp : Smap String (Price × Price))
    (h : m.session fuel = .ok (m', sF, sp)) (hm : MInv m) : MInv m' := by
  unfold Market.session at h
  cases hloop : m.sessionLoop fuel (SessionSt.init m) with
  | error e =>
    simp only [hloop] at h
    exact Except.noConfusion h
  | ok s1 =>
    simp only [hloop] at h
    cases hsp : (s1.findOffers m).findSpreads m with
    | error p =>
      simp only [hsp] at h
      exact Except.noConfusion h
    | ok spreads =>
      simp only [hsp] at h
      have h3 := Except.ok.inj h
      have hm' : m' = { m with ious := m.ious ++ s1.ious } :=
        (congrArg Prod.fst h3).symm
      obtain ⟨hpr, hiou, hlen, hcl, hbounds⟩ := hm
      obtain ⟨hi0, hio0, hr0⟩ := initSInv m ⟨hpr, hiou, hlen, hcl, hbounds⟩
      obtain ⟨hiF, hioF, hrF⟩ :=
        sessionLoopInv m hpr fuel (SessionSt.init m) s1 hloop hi0 hio0 hr0
      subst hm'
      refine ⟨hpr, ?_, hlen, hcl, ?_⟩
      · intro iou hmem
        rcases List.mem_append.mp hmem with h1 | h1
        · exact hiou iou h1
        · exact hioF iou h1
      · intro pid q
        by_cases hreg : pid ∈ m.playerNames.values
        · have hbase : (baseExposures m).lookup pid = some Exposure.new := by
            rw [baseExposuresLookup, if_pos hreg]
          have hself : ∀ iou ∈ m.ious ++ s1.ious, iou.issuerId ≠ iou.holderId := by
            intro iou hmem2
            rcases List.mem_append.mp hmem2 with h1 | h1
            · exact (hiou iou h1).1
            · exact (hioF iou h1).1
          have hlook := foldApplyIou_lookup (m.ious ++ s1.ious)
            ⟨baseExposures m, [], []⟩ pid Exposure.new hbase hself
          have hrF' : s1.exposures = ((m.ious ++ s1.ious).foldl SessionSt.applyIou
              ⟨baseExposures m, [], []⟩).exposures := hrF
          have hfin : s1.exposures.lookup pid =
              some (({ m with ious := m.ious ++ s1.ious } : Market).calcExposure pid) := by
            rw [hrF']
            exact hlook
          have hplay := hiF pid
          rw [hfin] at hplay
          simp only [Option.getD_some] at hplay
          exact hplay.2 q
        · have hz : ({ m with ious := m.ious ++ s1.ious } : Market).calcExposure pid =
              Exposure.new := by
            refine calcExposureNotParty (m.ious ++ s1.ious) pid ?_
            intro iou hmem2
            rcases List.mem_append.mp hmem2 with h1 | h1
            · obtain ⟨_, h4, h5⟩ := hiou iou h1
              exact ⟨fun hEq => hreg (hEq ▸ h4), fun hEq => hreg (hEq ▸ h5)⟩
            · obtain ⟨_, h4, h5⟩ := hioF iou h1
              exact ⟨fun hEq => hreg (hEq ▸ h4), fun hEq => hreg (hEq ▸ h5)⟩
          rw [hz]
          obtain ⟨h4, h5⟩ := newExposureZero q
          rw [h4, h5]
          exact ⟨hcl pid, hcl pid⟩

/-- Market states reachable by contract and participant creation, nonnegative
credit increments, range declarations, and session runs — every operation of
the program except contract resolution. -/
inductive ReachNR : Market → Prop where
  | new : ReachNR Market.new
  | contract (m m' : Market) (cname : String) :
      ReachNR m → m.newContract cname = .ok m' → ReachNR m'
  | player (m m' : Market) (pname : String) :
      ReachNR m → m.newPlayer pname = .ok m' → ReachNR m'
  | credit (m : Market) (amt : Price) :
      ReachNR m → 0 ≤ amt → ReachNR (m.incrementCredit amt)
  | ranges (m m' : Market) (pname : String) (rs : List (String × Price × Price)) :
      ReachNR m → m.playerRanges pname rs = .ok m' → ReachNR m'
  | session (m m' : Market) (fuel : Nat) (s : SessionSt)
      (sp : Smap String (Price × Price)) :
      ReachNR m → m.session fuel = .ok (m', s, sp) → ReachNR m'

theorem minvNew : MInv Market.new := by
  refine ⟨?_, ?_, ?_, ?_, ?_⟩
  · intro pid hpid
    simp [Market.new, Smap.values, Smap.empty] at hpid
  · intro iou hmem
    simp [Market.new] at hmem
  · intro pid hpid
    simp [Market.new, Smap.values, Smap.empty] at hpid
  · intro pid
    exact le_refl 0
  · intro pid q
    have h1 : Market.new.calcExposure pid = Exposure.new := rfl
    rw [h1]
    obtain ⟨h2, h3⟩ := newExposureZero q
    rw [h2, h3]
    exact ⟨le_refl 0, le_refl 0⟩

theorem reachMInv (m : Market) (h : ReachNR m) : MInv m := by
  induction h with
  | new => exact minvNew
  | contract m0 m1 cname hr heq ih => exact minvNewContract m0 m1 cname heq ih
  | player m0 m1 pname hr heq ih => exact minvNewPlayer m0 m1 pname heq ih
  | credit m0 amt hr hamt ih => exact minvIncrementCredit m0 amt hamt ih
  | ranges m0 m1 pname rs hr heq ih => exact minvPlayerRanges m0 m1 pname rs heq ih
  | session m0 m1 fuel s sp hr heq ih => exact minvSession m0 m1 fuel s sp heq ih

/-- Claim C1 amended: at every market state reachable by contract/participant
creation, nonnegative credit increments, range declarations and session runs —
that is, every operation except contract resolution — the credit bound holds:
for every participant p and contract c, total_exposure_to_contract(p, c) and
total_exposure_to_contract_neg(p, c) are at most p's credit limit.  (With
resolution included the bound fails: see the counterexample.) -/
theorem credit_bound_no_resolution (m : Market) (h : ReachNR m) (pid cid : Nat) :
    (m.calcExposure pid).totalExposureToContract cid ≤
      (m.getPlayer pid).creditLimit ∧
    (m.calcExposure pid).totalExposureToContractNeg cid ≤
      (m.getPlayer pid).creditLimit :=
  (reachMInv m h).2.2.2.2 pid cid

end ReachabilityInvariant

end Lazyhack

namespace Lazyhack

section ClaimC1Witness

/-- Concrete reachable trace for the C1 witness (the §8 build plus one
session). -/
def mW1 : Market := okD (Market.new.newContract "A") Market.new

/-- Trace state after creating participant X. -/
def mW2 : Market := okD (mW1.newPlayer "X") Market.new

/-- Trace state after creating participant Y. -/
def mW3 : Market := okD (mW2.newPlayer "Y") Market.new

/-- Trace state after granting 1000 credit. -/
def mW4 : Market := mW3.incrementCredit 1000

/-- Trace state after X declares the range (20, 40) on "A". -/
def mW5 : Market := okD (mW4.playerRanges "X" [("A", 20, 40)]) Market.new

/-- Trace state after Y declares the range (50, 70) on "A". -/
def mW6 : Market := okD (mW5.playerRanges "Y" [("A", 50, 70)]) Market.new

/-- The session run committed at the end of the trace. -/
def mW7run : Market × SessionSt × Smap String (Price × Price) :=
  okD (mW6.session 10) (Market.new, ⟨Smap.empty, [], []⟩, Smap.empty)

/-- The final market of the trace. -/
def mW7 : Market := mW7run.1

theorem credit_bound_no_resolution_witness :
    Market.new.newContract "A" = .ok mW1 ∧
    mW1.newPlayer "X" = .ok mW2 ∧
    mW2.newPlayer "Y" = .ok mW3 ∧
    (0 : Price) ≤ 1000 ∧
    mW4.playerRanges "X" [("A", 20, 40)] = .ok mW5 ∧
    mW5.playerRanges "Y" [("A", 50, 70)] = .ok mW6 ∧
    mW6.session 10 = .ok (mW7, mW7run.2.1, mW7run.2.2) ∧
    ((mW7.calcExposure 0).totalExposureToContract 0 ≤ (mW7.getPlayer 0).creditLimit ∧
     (mW7.calcExposure 0).totalExposureToContractNeg 0 ≤ (mW7.getPlayer 0).creditLimit) :=
  ⟨by decide, by decide, by decide, by decide, by decide, by decide, by decide,
   credit_bound_no_resolution mW7
     (ReachNR.session mW6 mW7 10 mW7run.2.1 mW7run.2.2
       (ReachNR.ranges mW5 mW6 "Y" [("A", 50, 70)]
         (ReachNR.ranges mW4 mW5 "X" [("A", 20, 40)]
           (ReachNR.credit mW3 1000
             (ReachNR.player mW2 mW3 "Y"
               (ReachNR.player mW1 mW2 "X"
                 (ReachNR.contract Market.new mW1 "A" ReachNR.new (by decide))
                 (by decide))
               (by decide))
             (by decide))
           (by decide))
         (by decide))
       (by decide))
     0 0⟩

end ClaimC1Witness

end Lazyhack

namespace Lazyhack

section NoCrossingAtExit

theorem insertSortedNeNil {γ : Type} (le : γ → γ → Bool) (x : γ) (l : List γ) :
    insertSorted le x l ≠ [] := by
  cases l with
  | nil => simp [insertSorted]
  | cons y t =>
    unfold insertSorted
    split
    · simp
    · simp

theorem isortNeNil {γ : Type} (le : γ → γ → Bool) (l : List γ) (h : l ≠ []) :
    isort le l ≠ [] := by
  cases l with
  | nil => exact absurd rfl h
  | cons x t =>
    unfold isort
    exact insertSortedNeNil le x (isort le t)

theorem pickBestSome (m : Market) (mp : Smap Nat Price) (hne : mp.entries ≠ []) :
    ∃ x, pickBest m mp = some x := by
  have hmapne : mp.entries.map
      (fun b => (b.2, (m.getPlayer b.1).name, b.1)) ≠ [] := by
    intro hc
    exact hne (List.map_eq_nil_iff.mp hc)
  have hlstne : isort tripleLe (mp.entries.map
      (fun b => (b.2, (m.getPlayer b.1).name, b.1))) ≠ [] :=
    isortNeNil _ _ hmapne
  cases hrev : (isort tripleLe (mp.entries.map
      (fun b => (b.2, (m.getPlayer b.1).name, b.1)))).reverse with
  | nil =>
    exact absurd (List.reverse_eq_nil_iff.mp hrev) hlstne
  | cons lastB rt =>
    have hgl : (isort tripleLe (mp.entries.map
        (fun b => (b.2, (m.getPlayer b.1).name, b.1)))).getLast? = some lastB := by
      rw [List.getLast?_eq_head?_reverse, hrev]
      rfl
    have hmem : lastB ∈ isort tripleLe (mp.entries.map
        (fun b => (b.2, (m.getPlayer b.1).name, b.1))) := by
      have h1 : lastB ∈ (isort tripleLe (mp.entries.map
          (fun b => (b.2, (m.getPlayer b.1).name, b.1)))).reverse := by
        rw [hrev]
        exact List.mem_cons_self _ _
      exact List.mem_reverse.mp h1
    have hmf : lastB ∈ (isort tripleLe (mp.entries.map
        (fun b => (b.2, (m.getPlayer b.1).name, b.1)))).filter
        (fun b => b.1 = lastB.1) :=
      List.mem_filter.mpr ⟨hmem, by simp⟩
    cases hhd : ((isort tripleLe (mp.entries.map
        (fun b => (b.2, (m.getPlayer b.1).name, b.1)))).filter
        (fun b => b.1 = lastB.1)).head? with
    | none =>
      exfalso
      cases hfl : (isort tripleLe (mp.entries.map
          (fun b => (b.2, (m.getPlayer b.1).name, b.1)))).filter
          (fun b => b.1 = lastB.1) with
      | nil =>
        rw [hfl] at hmf
        simp at hmf
      | cons z zt =>
        rw [hfl] at hhd
        exact Option.noConfusion hhd
    | some x =>
      refine ⟨x, ?_⟩
      unfold pickBest
      rw [hgl]
      exact hhd

/-- When the per-contract body of `find_trades` yields no candidate on an
honestly built book, the crossing check of `find_spreads` passes for that
contract: best bid strictly below best ask (with the source's defaults 0 and
100 for empty sides). -/
theorem noCrossingOfNoCandidate (m : Market) (cid : Nat) (co : ContractOffers)
    (hco : COOk m cid co) (hpr : PlayerRangesOk m)
    (hnone : SessionSt.candidateFor m cid co = none) :
    ((co.buy.keys.getLast?).getD 0) < ((co.sell.keys.head?).getD 100) := by
  have hkeysb : co.buy.keys.getLast? = (co.buy.entries.reverse.head?).map Prod.fst := by
    show (co.buy.entries.map Prod.fst).getLast? = _
    rw [List.getLast?_map, List.getLast?_eq_head?_reverse]
  have hkeyss : co.sell.keys.head? = (co.sell.entries.head?).map Prod.fst := by
    show (co.sell.entries.map Prod.fst).head? = _
    rw [List.head?_map]
  cases hbuy : co.buy.entries.reverse with
  | nil =>
    rw [hkeysb, hbuy]
    simp only [List.head?_nil, Option.map_none', Option.getD_none]
    cases hsell : co.sell.entries with
    | nil =>
      rw [hkeyss, hsell]
      norm_num
    | cons s0 srest =>
      rw [hkeyss, hsell]
      simp only [List.head?_cons, Option.map_some', Option.getD_some]
      have hmem : (s0.1, s0.2) ∈ co.sell.entries := by
        rw [hsell]
        simpa using List.mem_cons_self s0 srest
      have := (sellKeyBounds m cid co hco hpr s0.1 s0.2 hmem).1
      linarith
  | cons b0 brest =>
    obtain ⟨high0, buyers⟩ := b0
    have hmemb : (high0, buyers) ∈ co.buy.entries :=
      List.mem_reverse.mp (hbuy ▸ List.mem_cons_self _ brest)
    have hb99 := (buyKeyBounds m cid co hco hpr high0 buyers hmemb).2
    rw [hkeysb, hbuy]
    simp only [List.head?_cons, Option.map_some', Option.getD_some]
    cases hsell : co.sell.entries with
    | nil =>
      rw [hkeyss, hsell]
      simp only [List.head?_nil, Option.map_none', Option.getD_none]
      linarith
    | cons s0 srest =>
      obtain ⟨low0, sellers⟩ := s0
      have hmems : (low0, sellers) ∈ co.sell.entries := by
        rw [hsell]
        exact List.mem_cons_self _ srest
      rw [hkeyss, hsell]
      simp only [List.head?_cons, Option.map_some', Option.getD_some]
      unfold SessionSt.candidateFor at hnone
      simp only [hbuy, hsell] at hnone
      by_cases hcross : low0 ≤ high0
      · exfalso
        rw [if_pos hcross] at hnone
        obtain ⟨xB, hxB⟩ := pickBestSome m buyers (hco.1 high0 buyers hmemb).1
        obtain ⟨xS, hxS⟩ := pickBestSome m sellers (hco.2 low0 sellers hmems).1
        rw [hxB, hxS] at hnone
        exact Option.noConfusion hnone
      · exact lt_of_not_le hcross

theorem findSpreadsGoOk (m : Market) (hpr : PlayerRangesOk m) :
    ∀ (l : List (Nat × ContractOffers)) (sp : Smap String (Price × Price)),
    (∀ e ∈ l, COOk m e.1 e.2 ∧ SessionSt.candidateFor m e.1 e.2 = none) →
    ∃ sp', Offers.findSpreadsGo m l sp = .ok sp' := by
  intro l
  induction l with
  | nil =>
    intro sp _
    exact ⟨sp, rfl⟩
  | cons e t ih =>
    intro sp hall
    obtain ⟨cid, co⟩ := e
    obtain ⟨hco, hnone⟩ := hall (cid, co) (List.mem_cons_self _ t)
    unfold Offers.findSpreadsGo
    by_cases ho : (m.getContract cid).outcome = none
    · rw [if_pos ho]
      have hlt := noCrossingOfNoCandidate m cid co hco hpr hnone
      rw [if_neg (not_le.mpr hlt)]
      exact ih _ (fun e2 he2 => hall e2 (List.mem_cons_of_mem _ he2))
    · rw [if_neg ho]
      exact ih _ (fun e2 he2 => hall e2 (List.mem_cons_of_mem _ he2))

theorem tradesFoldMono (m : Market) :
    ∀ (l : List (Nat × ContractOffers)) (acc : List TradeCand) (x : TradeCand),
    x ∈ acc → x ∈ l.foldl (SessionSt.tradesFold m) acc := by
  intro l
  induction l with
  | nil =>
    intro acc x hx
    exact hx
  | cons e t ih =>
    intro acc x hx
    simp only [List.foldl_cons]
    refine ih _ x ?_
    unfold SessionSt.tradesFold
    cases SessionSt.candidateFor m e.1 e.2 with
    | some c => exact List.mem_append.mpr (Or.inl hx)
    | none => exact hx

theorem memTradesFoldOf (m : Market) :
    ∀ (l : List (Nat × ContractOffers)) (acc : List TradeCand)
      (e : Nat × ContractOffers) (x : TradeCand),
    e ∈ l → SessionSt.candidateFor m e.1 e.2 = some x →
    x ∈ l.foldl (SessionSt.tradesFold m) acc := by
  intro l
  induction l with
  | nil =>
    intro acc e x he
    simp at he
  | cons e0 t ih =>
    intro acc e x he hc
    simp only [List.foldl_cons]
    rcases List.mem_cons.mp he with h1 | h1
    · refine tradesFoldMono m t _ x ?_
      unfold SessionSt.tradesFold
      rw [← h1, hc]
      exact List.mem_append.mpr (Or.inr (List.mem_singleton.mpr rfl))
    · exact ih _ e x h1 hc

theorem selfMemInsertSorted {γ : Type} (le : γ → γ → Bool) (x : γ) (l : List γ) :
    x ∈ insertSorted le x l := by
  cases l with
  | nil => simp [insertSorted]
  | cons y t =>
    unfold insertSorted
    split
    · exact List.mem_cons_self _ _
    · exact List.mem_cons_of_mem _ (selfMemInsertSorted le x t)

theorem memInsertSortedMono {γ : Type} (le : γ → γ → Bool) (x z : γ) :
    ∀ l : List γ, z ∈ l → z ∈ insertSorted le x l := by
  intro l
  induction l with
  | nil =>
    intro h
    simp at h
  | cons y t ih =>
    intro h
    unfold insertSorted
    split
    · exact List.mem_cons_of_mem _ h
    · rcases List.mem_cons.mp h with h1 | h1
      · rw [h1]
        exact List.mem_cons_self _ _
      · exact List.mem_cons_of_mem _ (ih h1)

theorem memIsortOf {γ : Type} (le : γ → γ → Bool) (z : γ) :
    ∀ l : List γ, z ∈ l → z ∈ isort le l := by
  intro l
  induction l with
  | nil =>
    intro h
    simp at h
  | cons x t ih =>
    intro h
    unfold isort
    rcases List.mem_cons.mp h with h1 | h1
    · rw [h1]
      exact selfMemInsertSorted le x (isort le t)
    · exact memInsertSortedMono le x z _ (ih h1)

/-- When the matching loop's exit condition holds (no candidate recorded by
`find_trades`), the `find_spreads` pass over the same recomputed book cannot
hit its crossing panic: every unresolved contract shows best bid < best ask
(sides defaulting to 0 and 100 when empty).  This is the no-crossing half of
claim C2, conditional on loop exit. -/
theorem sessionExitNoCrossing (m : Market) (s : SessionSt)
    (hpr : PlayerRangesOk m)
    (hquiet : s.findTrades m (s.findOffers m) = []) :
    ∃ sp, (s.findOffers m).findSpreads m = .ok sp := by
  have hall : ∀ e ∈ (s.findOffers m).offers.entries,
      COOk m e.1 e.2 ∧ SessionSt.candidateFor m e.1 e.2 = none := by
    intro e he
    refine ⟨findOffersOk m s hpr e.1 e.2 (by simpa using he), ?_⟩
    cases hc : SessionSt.candidateFor m e.1 e.2 with
    | none => rfl
    | some x =>
      exfalso
      have hxmem : x ∈ ((s.findOffers m).offers.entries).foldl
          (SessionSt.tradesFold m) [] :=
        memTradesFoldOf m _ [] e x he hc
      have hxmem2 : x ∈ s.findTrades m (s.findOffers m) := by
        unfold SessionSt.findTrades
        rw [List.mem_reverse]
        exact memIsortOf TradeCand.le x _ hxmem
      rw [hquiet] at hxmem2
      simp at hxmem2
  obtain ⟨sp, hsp⟩ := findSpreadsGoOk m hpr (s.findOffers m).offers.entries
    Smap.empty hall
  exact ⟨sp, hsp⟩

end NoCrossingAtExit

end Lazyhack
